import Mathlib

/-!
# A verification development for the `bloomfilter` package

The Go package keeps a bit array `Bitset []bool` and a list of keyed hashers
`HashFns []hash.Hash` (HMAC-SHA256 keyed by `key-0`, `key-1`, ...).  A sentence is
lower-cased, split on single spaces, and every token sets (or tests) the bits
`h % len(Bitset)` for the values `h` that the hashers give for it.

The embedding follows `bloomfilter.go` function by function:

* Go strings and byte slices are `List UInt8`;
* `uint64` values are natural numbers kept below `2 ^ 64`, `int` values are integers;
* what a method changes through its pointer receiver is returned next to its result;
* a run-time panic (division by zero, index out of range, `make` with a negative or
  too large a length) is the `Except.error` branch of the result;
* the library code the package calls is written out where it is an exact
  algorithm (SHA-256, HMAC, `binary.ReadUvarint`, `strings.Split`, the ASCII path of
  `strings.ToLower`, `float64` arithmetic and the functions of package `math`);
  the Unicode tables behind `strings.ToLower` are a parameter.  `findK`, `findM`
  and `New` take the floating-point operations as a parameter `Math`; `goMath` is
  the instance that computes as Go does;
* where the language leaves a result to the implementation, the embedding follows
  linux/amd64 (with the default `GOAMD64=v1`): the conversion of an out-of-range
  `float64` to `int`, the size above which `make` panics, and every product and sum
  rounded on its own, none fused.  Exhausting the memory of the machine is not
  modelled.
-/

namespace bloomfilter

/-- A Go string or byte slice: a sequence of bytes. -/
abbrev Str := List UInt8

/-- The bytes of a string literal (its UTF-8 encoding, as in a Go source file). -/
def str (s : String) : Str := s.data.flatMap String.utf8EncodeChar

/-! ## SHA-256 (FIPS 180-4) and HMAC (RFC 2104), as used by `crypto/hmac` -/

namespace SHA256

/-- Trial division: `n` has no divisor among `2, ..., k + 1` other than itself. -/
def noDivisor (n : Nat) : Nat → Bool
  | 0 => true
  | k + 1 => (k + 1 = 1 || k + 1 = n || n % (k + 1) != 0) && noDivisor n k

/-- The prime numbers below `n`, in increasing order. -/
def primesBelow (n : Nat) : List Nat :=
  (List.range n).filter (fun p => 2 ≤ p && noDivisor p p)

/-- Bit-by-bit search for the largest `r` with `r ^ e ≤ n`, from bit `k - 1` down. -/
def rootLoop (e n : Nat) : Nat → Nat → Nat
  | 0, r => r
  | k + 1, r => rootLoop e n k (if (r + 2 ^ k) ^ e ≤ n then r + 2 ^ k else r)

/-- The first 32 bits of the fractional part of the `e`-th root of `p`. -/
def fracRoot (e p : Nat) : Nat := rootLoop e (p * 2 ^ (32 * e)) 36 0 % 2 ^ 32

/-- The sixty-four round constants as FIPS 180-4 defines them: the fractional parts
of the cube roots of the first sixty-four primes. -/
def roundConstants : List Nat := (primesBelow 312).map (fracRoot 3)

/-- The initial hash value as FIPS 180-4 defines it: the fractional parts of the
square roots of the first eight primes. -/
def initialValue : List Nat := (primesBelow 20).map (fracRoot 2)

/-- The sixty-four round constants, in decimal. -/
def K : List Nat := [
  1116352408, 1899447441, 3049323471, 3921009573, 961987163, 1508970993, 2453635748, 2870763221,
  3624381080, 310598401, 607225278, 1426881987, 1925078388, 2162078206, 2614888103, 3248222580,
  3835390401, 4022224774, 264347078, 604807628, 770255983, 1249150122, 1555081692, 1996064986,
  2554220882, 2821834349, 2952996808, 3210313671, 3336571891, 3584528711, 113926993, 338241895,
  666307205, 773529912, 1294757372, 1396182291, 1695183700, 1986661051, 2177026350, 2456956037,
  2730485921, 2820302411, 3259730800, 3345764771, 3516065817, 3600352804, 4094571909, 275423344,
  430227734, 506948616, 659060556, 883997877, 958139571, 1322822218, 1537002063, 1747873779,
  1955562222, 2024104815, 2227730452, 2361852424, 2428436474, 2756734187, 3204031479, 3329325298]

/-- The initial hash value, in decimal. -/
def init : List Nat := [
  1779033703, 3144134277, 1013904242, 2773480762, 1359893119, 2600822924, 528734635, 1541459225]

/-- Rotation of a 32-bit word to the right. -/
def rotr (x n : Nat) : Nat := ((x >>> n) ||| (x <<< (32 - n))) % 2 ^ 32

/-- Extends the message schedule by `n` words; the list holds the newest word first. -/
def schedule : Nat → List Nat → List Nat
  | 0, r => r
  | n + 1, r =>
    let w2 := r.getD 1 0
    let w7 := r.getD 6 0
    let w15 := r.getD 14 0
    let w16 := r.getD 15 0
    let s0 := rotr w15 7 ^^^ rotr w15 18 ^^^ (w15 >>> 3)
    let s1 := rotr w2 17 ^^^ rotr w2 19 ^^^ (w2 >>> 10)
    schedule n (((w16 + s0 + w7 + s1) % 2 ^ 32) :: r)

/-- One round of the compression function on the eight working variables. -/
def round (s : List Nat) (k w : Nat) : List Nat :=
  match s with
  | [a, b, c, d, e, f, g, h] =>
    let S1 := rotr e 6 ^^^ rotr e 11 ^^^ rotr e 25
    let ch := (e &&& f) ^^^ ((e ^^^ 0xffffffff) &&& g)
    let t1 := (h + S1 + ch + k + w) % 2 ^ 32
    let S0 := rotr a 2 ^^^ rotr a 13 ^^^ rotr a 22
    let maj := (a &&& b) ^^^ (a &&& c) ^^^ (b &&& c)
    let t2 := (S0 + maj) % 2 ^ 32
    [(t1 + t2) % 2 ^ 32, a, b, c, (d + t1) % 2 ^ 32, e, f, g]
  | _ => s

/-- The rounds of one block, one per constant and schedule word. -/
def rounds : List Nat → List Nat → List Nat → List Nat
  | s, k :: ks, w :: ws => rounds (round s k w) ks ws
  | s, _, _ => s

/-- Groups bytes four by four into big-endian words. -/
def beWords : List Nat → List Nat
  | a :: b :: c :: d :: rest => (a * 2 ^ 24 + b * 2 ^ 16 + c * 2 ^ 8 + d) :: beWords rest
  | _ => []

/-- The compression function: the hash value after one more 64-byte block. -/
def compress (h : List Nat) (block : List Nat) : List Nat :=
  let w := (schedule 48 (beWords block).reverse).reverse
  List.zipWith (fun x y => (x + y) % 2 ^ 32) h (rounds h K w)

/-- Compresses `n` consecutive 64-byte blocks. -/
def blocks : Nat → List Nat → List Nat → List Nat
  | 0, h, _ => h
  | n + 1, h, bs => blocks n (compress h (bs.take 64)) (bs.drop 64)

/-- The `k` low bytes of `n`, most significant first. -/
def beBytes (n : Nat) : Nat → List Nat
  | 0 => []
  | k + 1 => (n >>> (8 * k)) % 256 :: beBytes n k

/-- Message padding: a one bit, zeros, and the bit length in eight bytes. -/
def pad (msg : List Nat) : List Nat :=
  let l := msg.length
  msg ++ 0x80 :: List.replicate ((119 - l % 64) % 64) 0 ++ beBytes (8 * l) 8

/-- The 32-byte SHA-256 digest of a message. -/
def sum (msg : Str) : Str :=
  let p := pad (msg.map UInt8.toNat)
  ((blocks (p.length / 64) init p).flatMap (fun w => beBytes w 4)).map UInt8.ofNat

end SHA256

/-- HMAC-SHA256 of `msg` under `key`. -/
def hmacSHA256 (key msg : Str) : Str :=
  let k0 := if 64 < key.length then SHA256.sum key else key
  let k := k0 ++ List.replicate (64 - k0.length) 0
  SHA256.sum (k.map (· ^^^ 0x5c) ++ SHA256.sum (k.map (· ^^^ 0x36) ++ msg))

/-! ## `hash.Hash` values built by `hmac.New(sha256.New, key)` -/

/-- The state of a hasher made by `hmac.New(sha256.New, key)`: its key and the
bytes written to it since it was created or last reset. -/
structure Hash where
  key : Str
  written : Str
deriving DecidableEq, Repr

namespace Hash

/-- The hasher `hmac.New(sha256.New, key)`, freshly made. -/
def New (key : Str) : Hash := ⟨key, []⟩

/-- Method `Write(b)`: adds more data to the running hash. -/
def Write (fn : Hash) (b : Str) : Hash := { fn with written := fn.written ++ b }

/-- Method `Sum(nil)`: the digest of what was written; the state is not changed. -/
def Sum (fn : Hash) : Str := hmacSHA256 fn.key fn.written

/-- Method `Reset()`: back to the state right after `hmac.New`. -/
def Reset (fn : Hash) : Hash := { fn with written := [] }

end Hash

/-! ## `binary.ReadUvarint` -/

/-- The errors `binary.ReadUvarint` can report. -/
inductive VarintError where
  | EOF
  | ErrUnexpectedEOF
  | errOverflow
deriving DecidableEq, Repr

/-- The constant `binary.MaxVarintLen64`. -/
def MaxVarintLen64 : Nat := 10

/-- The loop of `binary.ReadUvarint`, at iteration `i` with `n` iterations left,
accumulated value `x` and shift `s`. -/
def ReadUvarintLoop : Nat → Nat → Str → Nat → Nat → Nat × Option VarintError
  | 0, _, _, x, _ => (x, some .errOverflow)
  | _ + 1, i, [], x, _ => (x, some (if i > 0 then .ErrUnexpectedEOF else .EOF))
  | n + 1, i, b :: r, x, s =>
    if b < 0x80 then
      if i = MaxVarintLen64 - 1 ∧ b > 1 then (x, some .errOverflow)
      else (x ||| (b.toNat <<< s) % 2 ^ 64, none)
    else ReadUvarintLoop n (i + 1) r (x ||| ((b &&& 0x7f).toNat <<< s) % 2 ^ 64) (s + 7)

/-- The function `binary.ReadUvarint` on a reader over the bytes `r`: the decoded
`uint64` and the error, if any. -/
def ReadUvarint (r : Str) : Nat × Option VarintError :=
  ReadUvarintLoop MaxVarintLen64 0 r 0 0

/-! ## Package `strings` -/

/-- The function `strings.ToLower`.  A string of ASCII bytes only has its letters
`A`..`Z` replaced; any other string goes through `strings.Map(unicode.ToLower, s)`,
which is the parameter `unicodeLower`. -/
def ToLower (unicodeLower : Str → Str) (s : Str) : Str :=
  if s.all (fun c => c < 0x80) then
    s.map (fun c => if 65 ≤ c ∧ c ≤ 90 then c + 32 else c)
  else unicodeLower s

/-- The call `strings.Split(s, " ")`: the pieces of `s` between single spaces. -/
def Split (s : Str) : List Str := s.splitOn 32

/-! ## The filter -/

/-- The struct `BloomFilter`. -/
structure BloomFilter where
  Bitset : List Bool
  HashFns : List Hash
deriving DecidableEq, Repr

/-- The run-time panics the package can raise. -/
inductive Panic where
  | divideByZero
  | indexOutOfRange
  | makesliceLen
deriving DecidableEq, Repr

/-- The loop of `hash` over the hashers: each is written to, summed, decoded and
reset.  Returns the values appended to `r` and the hashers as they are left. -/
def hashLoop (b : Str) : List Hash → List Nat × List Hash
  | [] => ([], [])
  | fn :: fns =>
    let fn1 := fn.Write b
    let u := (ReadUvarint fn1.Sum).1
    let fn2 := fn1.Reset
    let rest := hashLoop b fns
    (u :: rest.1, fn2 :: rest.2)

namespace BloomFilter

/-- Method `tokenize`: splits a sentence into words. -/
def tokenize (unicodeLower : Str → Str) (sentence : Str) : List Str :=
  Split (ToLower unicodeLower sentence)

/-- Method `hash`: hashes a single string with every hasher of the filter. -/
def hash (bf : BloomFilter) (w : Str) : List Nat × BloomFilter :=
  let r := hashLoop w bf.HashFns
  (r.1, { bf with HashFns := r.2 })

end BloomFilter

/-- The inner loop of `add`: `bf.Bitset[h%uint64(m)] = true` for each `h`. -/
def addBits (m : Nat) : List Bool → List Nat → Except Panic (List Bool)
  | bits, [] => .ok bits
  | bits, h :: hs =>
    if m = 0 then .error .divideByZero
    else if h % m < bits.length then addBits m (bits.set (h % m) true) hs
    else .error .indexOutOfRange

/-- The outer loop of `add` over the words. -/
def addLoop (m : Nat) : BloomFilter → List Str → Except Panic BloomFilter
  | bf, [] => .ok bf
  | bf, w :: ws =>
    match addBits m (bf.hash w).2.Bitset (bf.hash w).1 with
    | .error p => .error p
    | .ok bits => addLoop m { (bf.hash w).2 with Bitset := bits } ws

/-- The loop of `check` over the hash values of one word. -/
def checkBits (m : Nat) (bits : List Bool) : List Nat → Except Panic Bool
  | [] => .ok true
  | h :: hs =>
    if m = 0 then .error .divideByZero
    else
      match bits[h % m]? with
      | none => .error .indexOutOfRange
      | some b => if !b then .ok false else checkBits m bits hs

namespace BloomFilter

/-- Method `add`: stores words to the bitset. -/
def add (bf : BloomFilter) (words : List Str) : Except Panic BloomFilter :=
  addLoop bf.Bitset.length bf words

/-- Method `check`: checks a single string; returns the answer and the filter as
the call leaves it. -/
def check (bf : BloomFilter) (w : Str) : Except Panic (Bool × BloomFilter) :=
  match checkBits bf.Bitset.length (bf.hash w).2.Bitset (bf.hash w).1 with
  | .error p => .error p
  | .ok b => .ok (b, (bf.hash w).2)

/-- Method `Add`: stores a sentence to the bitset word by word. -/
def Add (unicodeLower : Str → Str) (bf : BloomFilter) (sentence : Str) :
    Except Panic BloomFilter :=
  bf.add (tokenize unicodeLower sentence)

end BloomFilter

/-- The loop of `Check` over the words of the sentence. -/
def CheckLoop : BloomFilter → List Str → Except Panic (Bool × BloomFilter)
  | bf, [] => .ok (true, bf)
  | bf, w :: ws =>
    match bf.check w with
    | .error p => .error p
    | .ok (b, bf1) => if !b then .ok (false, bf1) else CheckLoop bf1 ws

/-- Method `Check`: checks if a sentence exists in the bitset; returns the answer
and the filter as the call leaves it. -/
def BloomFilter.Check (unicodeLower : Str → Str) (bf : BloomFilter) (sentence : Str) :
    Except Panic (Bool × BloomFilter) :=
  CheckLoop bf (BloomFilter.tokenize unicodeLower sentence)

/-! ## Construction -/

/-- A `float64` value, given by its IEEE-754 bit pattern (the low 64 bits of `bits`). -/
structure Float64 where
  bits : Nat
deriving DecidableEq, Repr

namespace Float64

/-- What a bit pattern denotes: not-a-number, an infinity, or the finite number
`scaled / 2 ^ 1075`. -/
inductive Val where
  | nan
  | inf (neg : Bool)
  | fin (scaled : Int)
deriving DecidableEq, Repr

/-- The sign bit. -/
def sign (x : Float64) : Bool := x.bits / 2 ^ 63 % 2 = 1

/-- The eleven exponent bits. -/
def expo (x : Float64) : Nat := x.bits / 2 ^ 52 % 2048

/-- The fifty-two fraction bits. -/
def frac (x : Float64) : Nat := x.bits % 2 ^ 52

/-- Decodes a bit pattern. -/
def val (x : Float64) : Val :=
  if x.expo = 2047 then
    if x.frac = 0 then .inf x.sign else .nan
  else
    let mag : Nat := if x.expo = 0 then x.frac * 2 else (2 ^ 52 + x.frac) * 2 ^ x.expo
    .fin (if x.sign then -(mag : Int) else (mag : Int))

/-- The comparison `x <= y` of Go: false as soon as one side is not a number. -/
def le (x y : Float64) : Bool :=
  match x.val, y.val with
  | .nan, _ => false
  | _, .nan => false
  | .fin a, .fin b => a ≤ b
  | .inf n, .fin _ => n
  | .fin _, .inf n => !n
  | .inf n1, .inf n2 => n1 || !n2

/-- The comparison `x < y` of Go: false as soon as one side is not a number. -/
def lt (x y : Float64) : Bool :=
  match x.val, y.val with
  | .nan, _ => false
  | _, .nan => false
  | .fin a, .fin b => a < b
  | .inf n, .fin _ => n
  | .fin _, .inf n => !n
  | .inf n1, .inf n2 => n1 && !n2

/-- The comparison `x >= y` of Go. -/
def ge (x y : Float64) : Bool := le y x

/-- The constant `0` as a `float64`. -/
def zero : Float64 := ⟨0⟩

/-- The constant `1` as a `float64`. -/
def one : Float64 := ⟨0x3FF0000000000000⟩

/-- The constant `2` as a `float64`. -/
def two : Float64 := ⟨0x4000000000000000⟩

/-- A quiet not-a-number, the value of `math.NaN()`. -/
def NaN : Float64 := ⟨0x7FF8000000000001⟩

end Float64

/-! ## Arithmetic on `float64` values

Every operation is the exact result rounded to the nearest `float64`, ties to the
even fraction, as IEEE-754 and the Go specification prescribe.  The bit pattern of
a not-a-number result is not tracked: every such result is `Float64.NaN`. -/

namespace Float64

/-- The value with the given sign bit and the given 63 low bits. -/
def ofSignMag (neg : Bool) (mag : Nat) : Float64 := ⟨(if neg then 2 ^ 63 else 0) + mag⟩

/-- An infinity. -/
def infinity (neg : Bool) : Float64 := ofSignMag neg 0x7FF0000000000000

/-- The value with the opposite sign bit. -/
def neg (x : Float64) : Float64 := ofSignMag (!x.sign) (x.bits % 2 ^ 63)

/-- The function `math.Abs`: the value with the sign bit cleared. -/
def Abs (x : Float64) : Float64 := ofSignMag false (x.bits % 2 ^ 63)

/-- Whether `2 ^ e ≤ n / d`. -/
def pow2Le (e : Int) (n d : Nat) : Bool :=
  if 0 ≤ e then d * 2 ^ e.toNat ≤ n else d ≤ n * 2 ^ (-e).toNat

/-- Binary search for the largest `e` at or above `lo` with `2 ^ e ≤ n / d`, over
`k` binary digits. -/
def expLoop (n d : Nat) : Nat → Int → Int
  | 0, lo => lo
  | k + 1, lo =>
    if pow2Le (lo + (2 ^ k : Nat)) n d then expLoop n d k (lo + (2 ^ k : Nat))
    else expLoop n d k lo

/-- The binary exponent of the positive rational `n / d`: the `e` with
`2 ^ e ≤ n / d < 2 ^ (e + 1)`, searched between `-8192` and `8192`. -/
def ilog2 (n d : Nat) : Int := expLoop n d 14 (-8192)

/-- The 63 low bits of the `float64` nearest to the positive rational `n / d`, ties
to even; the bits of infinity when `n / d` is too large. -/
def roundPos (n d : Nat) : Nat :=
  let e : Int := max (ilog2 n d) (-1022)
  let n1 : Nat := if e ≤ 52 then n * 2 ^ (52 - e).toNat else n
  let d1 : Nat := if e ≤ 52 then d else d * 2 ^ (e - 52).toNat
  let q := n1 / d1
  let r := n1 % d1
  let m := if 2 * r < d1 then q else if d1 < 2 * r then q + 1 else q + q % 2
  let bits := (e + 1022).toNat * 2 ^ 52 + m
  if 0x7FF0000000000000 ≤ bits then 0x7FF0000000000000 else bits

/-- The `float64` nearest to the rational `n / d` taken with the given sign; a zero
keeps the sign. -/
def round (neg : Bool) (n d : Nat) : Float64 :=
  if n = 0 then ofSignMag neg 0 else ofSignMag neg (roundPos n d)

/-- The product `x * y`. -/
def mul (x y : Float64) : Float64 :=
  match x.val, y.val with
  | .nan, _ => NaN
  | _, .nan => NaN
  | .inf _, .inf _ => infinity (x.sign != y.sign)
  | .inf _, .fin b => if b = 0 then NaN else infinity (x.sign != y.sign)
  | .fin a, .inf _ => if a = 0 then NaN else infinity (x.sign != y.sign)
  | .fin a, .fin b => round (x.sign != y.sign) (a.natAbs * b.natAbs) (2 ^ 2150)

/-- The quotient `x / y`. -/
def div (x y : Float64) : Float64 :=
  match x.val, y.val with
  | .nan, _ => NaN
  | _, .nan => NaN
  | .inf _, .inf _ => NaN
  | .inf _, .fin _ => infinity (x.sign != y.sign)
  | .fin _, .inf _ => ofSignMag (x.sign != y.sign) 0
  | .fin a, .fin b =>
    if b = 0 then (if a = 0 then NaN else infinity (x.sign != y.sign))
    else round (x.sign != y.sign) a.natAbs b.natAbs

/-- The sum `x + y`. -/
def add (x y : Float64) : Float64 :=
  match x.val, y.val with
  | .nan, _ => NaN
  | _, .nan => NaN
  | .inf n1, .inf n2 => if n1 = n2 then infinity n1 else NaN
  | .inf n1, .fin _ => infinity n1
  | .fin _, .inf n2 => infinity n2
  | .fin a, .fin b =>
    if a + b = 0 then ofSignMag (x.sign && y.sign) 0
    else round (decide (a + b < 0)) (a + b).natAbs (2 ^ 1075)

/-- The difference `x - y`. -/
def sub (x y : Float64) : Float64 := add x (neg y)

/-- The conversion `float64(n)` of an integer. -/
def ofInt (n : Int) : Float64 := round (decide (n < 0)) n.natAbs 1

/-- The conversion `int(x)` as linux/amd64 performs it: the value truncated toward
zero, and the smallest `int` when `x` is not a number or the truncated value does
not fit in 64 bits (the Go specification leaves that case to the implementation). -/
def toInt (x : Float64) : Int :=
  match x.val with
  | .nan => -2 ^ 63
  | .inf _ => -2 ^ 63
  | .fin a =>
    let t := Int.tdiv a (2 ^ 1075 : Nat)
    if -2 ^ 63 ≤ t ∧ t < 2 ^ 63 then t else -2 ^ 63

/-- The function `math.Ceil`: the least integer value not below `x`; zeros,
infinities and not-a-number are returned as they are. -/
def Ceil (x : Float64) : Float64 :=
  match x.val with
  | .nan => x
  | .inf _ => x
  | .fin a =>
    let c : Int := -((-a) / ((2 ^ 1075 : Nat) : Int))
    if c = 0 then ofSignMag x.sign 0 else round (decide (c < 0)) c.natAbs 1

/-- The function `math.Frexp`: `frac` and `exp` with `x = frac * 2 ^ exp` and
`1/2 ≤ |frac| < 1`; zeros, infinities and not-a-number give `(x, 0)`. -/
def Frexp (x : Float64) : Float64 × Int :=
  match x.val with
  | .nan => (x, 0)
  | .inf _ => (x, 0)
  | .fin a =>
    if a = 0 then (x, 0)
    else (round x.sign a.natAbs (2 ^ ((ilog2 a.natAbs 1).toNat + 1)),
      ilog2 a.natAbs 1 + 1 - 1075)

/-- The function `math.Ldexp`: `frac * 2 ^ exp`, rounded; zeros, infinities and
not-a-number are returned as they are.  An exponent beyond `4096` either way gives
the same zero or infinity as `4096` does. -/
def Ldexp (x : Float64) (exp : Int) : Float64 :=
  match x.val with
  | .nan => x
  | .inf _ => x
  | .fin a =>
    if a = 0 then x
    else if 0 ≤ exp then round x.sign (a.natAbs * 2 ^ (min exp 4096).toNat) (2 ^ 1075)
    else round x.sign a.natAbs (2 ^ 1075 * 2 ^ (min (-exp) 4096).toNat)

/-- The constants of `log.go`, by their bit patterns. -/
def Ln2Hi : Float64 := ⟨0x3FE62E42FEE00000⟩
def Ln2Lo : Float64 := ⟨0x3DEA39EF35793C76⟩
def L1 : Float64 := ⟨0x3FE5555555555593⟩
def L2 : Float64 := ⟨0x3FD999999997FA04⟩
def L3 : Float64 := ⟨0x3FD2492494229359⟩
def L4 : Float64 := ⟨0x3FCC71C51D8E78AF⟩
def L5 : Float64 := ⟨0x3FC7466496CB03DE⟩
def L6 : Float64 := ⟨0x3FC39A09D078C69F⟩
def L7 : Float64 := ⟨0x3FC2F112DF3E5244⟩

/-- The constant `Sqrt2/2` as a `float64`. -/
def halfSqrt2 : Float64 := ⟨0x3FE6A09E667F3BCD⟩

/-- The constant `1/Ln2` as a `float64`. -/
def invLn2 : Float64 := ⟨0x3FF71547652B82FE⟩

/-- The constant `0.5` as a `float64`. -/
def half : Float64 := ⟨0x3FE0000000000000⟩

/-- The function `math.Log`, as `log.go` computes it. -/
def Log (x : Float64) : Float64 :=
  match x.val with
  | .nan => x
  | .inf false => x
  | .inf true => NaN
  | .fin a =>
    if a < 0 then NaN
    else if a = 0 then infinity true
    else
      let f1 := (Frexp x).1
      let ki := (Frexp x).2
      let f1' := if lt f1 halfSqrt2 then mul f1 two else f1
      let ki' := if lt f1 halfSqrt2 then ki - 1 else ki
      let f := sub f1' one
      let k := ofInt ki'
      let s := div f (add two f)
      let s2 := mul s s
      let s4 := mul s2 s2
      let t1 := mul s2 (add L1 (mul s4 (add L3 (mul s4 (add L5 (mul s4 L7))))))
      let t2 := mul s4 (add L2 (mul s4 (add L4 (mul s4 L6))))
      let R := add t1 t2
      let hfsq := mul (mul half f) f
      sub (mul k Ln2Hi) (sub (sub hfsq (add (mul s (add hfsq R)) (mul k Ln2Lo))) f)

/-- The comparison `x == y` of Go: false as soon as one side is not a number, and
the two zeros are equal. -/
def eq (x y : Float64) : Bool := le x y && le y x

/-- The function `math.Log2`, as `log10.go` computes it. -/
def Log2 (x : Float64) : Float64 :=
  if eq (Frexp x).1 half then ofInt ((Frexp x).2 - 1)
  else add (mul (Log (Frexp x).1) invLn2) (ofInt (Frexp x).2)

/-- The call `math.Pow(x, 2)`, as `pow.go` computes it: the special cases for the
exponent 2, then the loop over the two bits of the exponent. -/
def PowTwo (x : Float64) : Float64 :=
  if eq x one then one
  else
    match x.val with
    | .nan => NaN
    | .inf _ => infinity false
    | .fin a =>
      if a = 0 then zero
      else
        let x1 := (Frexp x).1
        let xe := (Frexp x).2
        -- bit 0 of the exponent is clear: only the square is taken
        let x2 := mul x1 x1
        let x1' := if lt x2 half then add x2 x2 else x2
        let xe' := if lt x2 half then 2 * xe - 1 else 2 * xe
        -- bit 1 is set: `a1 *= x1`, `ae += xe`
        Ldexp (mul one x1') xe'

end Float64

/-- The floating-point operations the package takes from the language and from
package `math`; they are parameters of the development. -/
structure Math where
  Log2 : Float64 → Float64
  Log : Float64 → Float64
  Pow : Float64 → Float64 → Float64
  Ceil : Float64 → Float64
  Abs : Float64 → Float64
  div : Float64 → Float64 → Float64
  mul : Float64 → Float64 → Float64
  ofInt : Int → Float64
  toInt : Float64 → Int

/-- The two error values of `error.go`. -/
inductive Error where
  | ErrCapacity
  | ErrErrorRate
deriving DecidableEq, Repr

/-- The function `findK`: `int(math.Ceil(math.Abs(math.Log2(1 / e))))`. -/
def findK (M : Math) (e : Float64) : Int :=
  M.toInt (M.Ceil (M.Abs (M.Log2 (M.div Float64.one e))))

/-- The function `findM`. -/
def findM (M : Math) (n : Int) (e : Float64) : Int :=
  let log2Sqr := M.Pow (M.Log Float64.two) Float64.two
  let logErrAbs := M.Abs (M.Log e)
  let x := M.div (M.mul (M.ofInt n) logErrAbs) log2Sqr
  M.toInt (M.Abs (M.Ceil x))

/-- The floating-point operations as Go performs them on linux/amd64, with the
functions of package `math` as their Go sources compute them.  The package calls
`math.Pow` with the exponent 2 only; any other exponent is outside the model. -/
def goMath : Math where
  Log2 := Float64.Log2
  Log := Float64.Log
  Pow := fun x y => if y = Float64.two then Float64.PowTwo x else Float64.NaN
  Ceil := Float64.Ceil
  Abs := Float64.Abs
  div := Float64.div
  mul := Float64.mul
  ofInt := Float64.ofInt
  toInt := Float64.toInt

/-- The formula `ceil(|log2(1/e)|)` of the spec in exact arithmetic, for a finite
`e > 0`: the least `k` with `2 ^ k * e ≥ 1` when `e ≤ 1`, and the least `k` with
`2 ^ k ≥ e` when `e > 1` (0 when `e` is not a positive number). -/
def specK (e : Float64) : Nat :=
  match e.val with
  | .fin a =>
    if a ≤ 0 then 0
    else if a ≤ ((2 ^ 1075 : Nat) : Int) then
      ((List.range 1076).find? (fun k => decide (2 ^ 1075 ≤ a.natAbs * 2 ^ k))).getD 0
    else ((List.range 1076).find? (fun k => decide (a.natAbs ≤ 2 ^ 1075 * 2 ^ k))).getD 0
  | _ => 0

/-- The text `fmt.Sprintf("key-%d", i)`. -/
def keyName (i : Nat) : Str := str "key-" ++ str (Nat.repr i)

/-- The constant `maxAlloc` of the runtime on linux/amd64: `make` panics with
`makeslice: len out of range` when the slice would take more bytes. -/
def maxAlloc : Nat := 2 ^ 48

/-- The panic test of `runtime.makeslice` for `len` elements of `size` bytes each. -/
def makePanics (size : Nat) (len : Int) : Bool :=
  decide (len < 0) || decide ((maxAlloc : Int) < size * len)

/-- The function `createHashFns`: `k` HMAC hashers with different keys.  The call
`make([]hash.Hash, k, k)` panics when `k` is negative or the slice of two-word
interface values would be too large. -/
def createHashFns (k : Int) : Except Panic (List Hash) :=
  if makePanics 16 k then .error .makesliceLen
  else .ok ((List.range k.toNat).map (fun i => Hash.New (keyName i)))

/-- The call `make([]bool, m, m)`: `m` false bits; it panics when `m` is negative or
too large. -/
def makeBools (m : Int) : Except Panic (List Bool) :=
  if makePanics 1 m then .error .makesliceLen else .ok (List.replicate m.toNat false)

/-- The function `New`: the pair of results it returns, or the panic it raises. -/
def New (M : Math) (n : Int) (e : Float64) :
    Except Panic (Option BloomFilter × Option Error) :=
  if n ≤ 0 then .ok (none, some .ErrCapacity)
  else if e.le Float64.zero || e.ge Float64.one then .ok (none, some .ErrErrorRate)
  else
    let k := findK M e
    let m := findM M n e
    match makeBools m with
    | .error p => .error p
    | .ok bits =>
      match createHashFns k with
      | .error p => .error p
      | .ok fns => .ok (some { Bitset := bits, HashFns := fns }, none)

/-! ## Runs of calls -/

/-- A call of one of the two public methods. -/
inductive Op where
  | Add (sentence : Str)
  | Check (sentence : Str)
deriving DecidableEq, Repr

/-- Performs the calls one after the other; returns the filter at the end. -/
def run (unicodeLower : Str → Str) : BloomFilter → List Op → Except Panic BloomFilter
  | bf, [] => .ok bf
  | bf, .Add s :: ops =>
    match bf.Add unicodeLower s with
    | .error p => .error p
    | .ok bf1 => run unicodeLower bf1 ops
  | bf, .Check s :: ops =>
    match bf.Check unicodeLower s with
    | .error p => .error p
    | .ok r => run unicodeLower r.2 ops

/-- No hasher of the filter holds written bytes: the state in which `New` makes
the hashers and in which `hash` leaves them. -/
def BloomFilter.Clean (bf : BloomFilter) : Prop := ∀ fn ∈ bf.HashFns, fn.written = []

instance (bf : BloomFilter) : Decidable bf.Clean := by
  unfold BloomFilter.Clean; infer_instance

/-! ## Sample filters

The sentences used with them below are ASCII, so `strings.ToLower` never reaches
its Unicode path on them and `id` can stand for the parameter `unicodeLower`. -/

/-- A filter of eight bits and two hashers, in the state `New` builds them. -/
def sample : BloomFilter :=
  { Bitset := List.replicate 8 false, HashFns := [Hash.New (keyName 0), Hash.New (keyName 1)] }

/-- A filter with the given bits and the one hasher `hmac.New(sha256.New, "key-0")`
after a call `Write(p)` on it: the struct fields are exported, so a caller can
build it. -/
def pending (bits : List Bool) (p : Str) : BloomFilter :=
  { Bitset := bits, HashFns := [(Hash.New (keyName 0)).Write p] }

/-- The number that a string of decimal digits denotes. -/
def decimalValue (s : Str) : Nat := s.foldl (fun acc b => 10 * acc + (b.toNat - 48)) 0

/-! ## Auxiliary definitions for the proofs about `float64` arithmetic -/

/-- Whether a bit pattern denotes a finite number. -/
def Float64.isFin (x : Float64) : Bool :=
  match x.val with
  | .fin _ => true
  | _ => false

/-- The factor `2 ^ 1075` by which `Float64.Val.fin` scales a finite number. -/
def Float64.scale : ℚ := 2 ^ 1075

/-- The rational number a finite bit pattern denotes (0 for the others). -/
def Float64.toRat (x : Float64) : ℚ :=
  match x.val with
  | .fin a => (a : ℚ) / Float64.scale
  | _ => 0

/-- The polynomial `R` of `math.Log`, as a function of `s`. -/
def Float64.logR (s : Float64) : Float64 :=
  let s2 := Float64.mul s s
  let s4 := Float64.mul s2 s2
  let t1 := Float64.mul s2 (Float64.add Float64.L1 (Float64.mul s4 (Float64.add Float64.L3
    (Float64.mul s4 (Float64.add Float64.L5 (Float64.mul s4 Float64.L7))))))
  let t2 := Float64.mul s4 (Float64.add Float64.L2 (Float64.mul s4 (Float64.add Float64.L4
    (Float64.mul s4 Float64.L6))))
  Float64.add t1 t2

/-- The last line of `math.Log`, as a function of the reduced argument `f` and the
exponent `k`. -/
def Float64.logTail (f k : Float64) : Float64 :=
  let s := Float64.div f (Float64.add Float64.two f)
  let hfsq := Float64.mul (Float64.mul Float64.half f) f
  Float64.sub (Float64.mul k Float64.Ln2Hi)
    (Float64.sub (Float64.sub hfsq
      (Float64.add (Float64.mul s (Float64.add hfsq (Float64.logR s)))
        (Float64.mul k Float64.Ln2Lo))) f)

/-! ## The SHA-256 constants -/

/-- The table of round constants holds the values FIPS 180-4 defines. -/
theorem SHA256.K_eq_roundConstants : SHA256.K = SHA256.roundConstants := by
  set_option maxRecDepth 100000 in
  decide

/-- The table of initial values holds the values FIPS 180-4 defines. -/
theorem SHA256.init_eq_initialValue : SHA256.init = SHA256.initialValue := by
  set_option maxRecDepth 100000 in
  decide

/-! ## Hashing: what `hash` returns and how it leaves the hashers -/

/-- The values of `hash` are the decoded digests, hasher by hasher. -/
theorem hashLoop_fst (b : Str) (fns : List Hash) :
    (hashLoop b fns).1 = fns.map (fun fn => (ReadUvarint (fn.Write b).Sum).1) := by
  induction fns with
  | nil => rfl
  | cons fn fns ih => simp [hashLoop, ih]

/-- After `hash` every hasher has been reset. -/
theorem hashLoop_snd (b : Str) (fns : List Hash) :
    (hashLoop b fns).2 = fns.map Hash.Reset := by
  induction fns with
  | nil => rfl
  | cons fn fns ih => simp [hashLoop, ih, Hash.Reset, Hash.Write]

/-- Resetting hashers that hold no written bytes changes nothing. -/
theorem map_Reset_of_clean (fns : List Hash) (h : ∀ fn ∈ fns, fn.written = []) :
    fns.map Hash.Reset = fns := by
  induction fns with
  | nil => rfl
  | cons fn fns ih =>
    have h1 : fn.written = [] := h fn (List.mem_cons_self _ _)
    have h2 : fns.map Hash.Reset = fns := ih (fun g hg => h g (List.mem_cons_of_mem _ hg))
    cases fn with
    | mk key written =>
      simp only [] at h1
      subst h1
      simp [Hash.Reset, h2]

/-- The method `hash` never touches the bit array. -/
theorem hash_Bitset (bf : BloomFilter) (w : Str) : (bf.hash w).2.Bitset = bf.Bitset := rfl

/-- The hashers after `hash` are the hashers before, reset. -/
theorem hash_HashFns (bf : BloomFilter) (w : Str) :
    (bf.hash w).2.HashFns = bf.HashFns.map Hash.Reset := hashLoop_snd w bf.HashFns

/-- The values of `hash` depend on the hashers only. -/
theorem hash_fst (bf : BloomFilter) (w : Str) : (bf.hash w).1 = (hashLoop w bf.HashFns).1 := rfl

/-- On a filter whose hashers hold no written bytes, `hash` changes nothing. -/
theorem hash_snd_of_clean (bf : BloomFilter) (w : Str) (hc : bf.Clean) : (bf.hash w).2 = bf := by
  cases bf with
  | mk bits fns =>
    show BloomFilter.mk bits (hashLoop w fns).2 = BloomFilter.mk bits fns
    rw [hashLoop_snd, map_Reset_of_clean fns hc]

/-- After `hash` no hasher holds written bytes. -/
theorem hash_snd_clean (bf : BloomFilter) (w : Str) : (bf.hash w).2.Clean := by
  intro fn hfn
  rw [hash_HashFns] at hfn
  obtain ⟨g, _, rfl⟩ := List.mem_map.mp hfn
  rfl

/-! ## The loops over hash values -/

/-- On a non-empty bit array of length `m` the inner loop of `add` ends normally,
keeps the length, and sets exactly the bits `h % m`. -/
theorem addBits_spec (m : Nat) (hm : 0 < m) (hs : List Nat) :
    ∀ bits : List Bool, bits.length = m →
      ∃ bits1, addBits m bits hs = .ok bits1 ∧ bits1.length = m ∧
        ∀ i : Nat, bits1[i]? = some true ↔ (bits[i]? = some true ∨ ∃ h ∈ hs, i = h % m) := by
  induction hs with
  | nil =>
    intro bits hl
    exact ⟨bits, rfl, hl, fun i => by simp⟩
  | cons h hs ih =>
    intro bits hl
    have hlt : h % m < bits.length := by rw [hl]; exact Nat.mod_lt _ hm
    obtain ⟨bits1, h1, h2, h3⟩ := ih (bits.set (h % m) true) (by simp [hl])
    refine ⟨bits1, ?_, h2, ?_⟩
    · simp only [addBits, Nat.ne_of_gt hm, if_false, hlt, if_true]
      exact h1
    · intro i
      rw [h3 i, List.getElem?_set]
      by_cases hi : h % m = i
      · subst hi
        simp [hlt]
      · have hi2 : ¬ i = h % m := fun e => hi e.symm
        simp [hi, hi2]

/-- On a non-empty bit array of length `m` the loop of `check` ends normally and
answers true exactly when every bit `h % m` is set. -/
theorem checkBits_spec (m : Nat) (hm : 0 < m) (bits : List Bool) (hl : bits.length = m)
    (hs : List Nat) :
    ∃ b, checkBits m bits hs = .ok b ∧ (b = true ↔ ∀ h ∈ hs, bits[h % m]? = some true) := by
  induction hs with
  | nil => exact ⟨true, rfl, by simp⟩
  | cons h hs ih =>
    have hlt : h % m < bits.length := by rw [hl]; exact Nat.mod_lt _ hm
    obtain ⟨b, h1, h2⟩ := ih
    cases hb : bits[h % m] with
    | false =>
      refine ⟨false, ?_, ?_⟩
      · simp [checkBits, Nat.ne_of_gt hm, List.getElem?_eq_getElem hlt, hb]
      · simp [List.getElem?_eq_getElem hlt, hb]
    | true =>
      refine ⟨b, ?_, ?_⟩
      · simp [checkBits, Nat.ne_of_gt hm, List.getElem?_eq_getElem hlt, hb, h1]
      · simp [List.getElem?_eq_getElem hlt, hb, h2]

/-! ## The loops over words -/

/-- On a non-empty bit array the method `check` ends normally and leaves the bit
array as it was. -/
theorem check_total (bf : BloomFilter) (hm : 0 < bf.Bitset.length) (w : Str) :
    ∃ b, bf.check w = .ok (b, (bf.hash w).2) := by
  obtain ⟨b, h1, _⟩ :=
    checkBits_spec bf.Bitset.length hm (bf.hash w).2.Bitset rfl (bf.hash w).1
  exact ⟨b, by simp [BloomFilter.check, h1]⟩

/-- On a non-empty bit array with hashers that hold no written bytes, `check`
leaves the filter as it was and answers true exactly when every bit of the word
is set. -/
theorem check_spec (bf : BloomFilter) (hm : 0 < bf.Bitset.length) (hc : bf.Clean) (w : Str) :
    ∃ b, bf.check w = .ok (b, bf) ∧
      (b = true ↔ ∀ h ∈ (bf.hash w).1, bf.Bitset[h % bf.Bitset.length]? = some true) := by
  obtain ⟨b, h1, h2⟩ :=
    checkBits_spec bf.Bitset.length hm (bf.hash w).2.Bitset rfl (bf.hash w).1
  refine ⟨b, ?_, h2⟩
  simp only [BloomFilter.check, h1]
  rw [hash_snd_of_clean bf w hc]

/-- On a non-empty bit array the loop of `Check` ends normally and leaves the bit
array as it was. -/
theorem CheckLoop_total (ws : List Str) :
    ∀ bf : BloomFilter, 0 < bf.Bitset.length →
      ∃ b bf1, CheckLoop bf ws = .ok (b, bf1) ∧ bf1.Bitset = bf.Bitset := by
  induction ws with
  | nil => intro bf _; exact ⟨true, bf, rfl, rfl⟩
  | cons w ws ih =>
    intro bf hm
    obtain ⟨b, hb⟩ := check_total bf hm w
    cases b with
    | false => exact ⟨false, (bf.hash w).2, by simp [CheckLoop, hb], rfl⟩
    | true =>
      obtain ⟨b2, bf2, h1, h2⟩ := ih (bf.hash w).2 hm
      exact ⟨b2, bf2, by simp [CheckLoop, hb, h1], h2⟩

/-- On a non-empty bit array with hashers that hold no written bytes, the loop of
`Check` leaves the filter as it was and answers true exactly when every bit of
every word is set. -/
theorem CheckLoop_spec (bf : BloomFilter) (hm : 0 < bf.Bitset.length) (hc : bf.Clean)
    (ws : List Str) :
    ∃ b, CheckLoop bf ws = .ok (b, bf) ∧
      (b = true ↔
        ∀ w ∈ ws, ∀ h ∈ (bf.hash w).1, bf.Bitset[h % bf.Bitset.length]? = some true) := by
  induction ws with
  | nil => exact ⟨true, rfl, by simp⟩
  | cons w ws ih =>
    obtain ⟨b, hb, hb2⟩ := check_spec bf hm hc w
    obtain ⟨b2, h1, h2⟩ := ih
    cases b with
    | false =>
      refine ⟨false, by simp [CheckLoop, hb], ?_⟩
      have hne : ¬ ∀ h ∈ (bf.hash w).1, bf.Bitset[h % bf.Bitset.length]? = some true :=
        fun hall => Bool.false_ne_true (hb2.mpr hall)
      constructor
      · intro hf; exact absurd hf Bool.false_ne_true
      · intro hall; exact absurd (hall w (List.mem_cons_self _ _)) hne
    | true =>
      refine ⟨b2, by simp [CheckLoop, hb, h1], ?_⟩
      rw [h2]
      constructor
      · intro hall v hv
        rcases List.mem_cons.mp hv with rfl | hv
        · exact hb2.mp rfl
        · exact hall v hv
      · intro hall v hv
        exact hall v (List.mem_cons_of_mem _ hv)

/-- On a non-empty bit array of length `m` the loop of `add` ends normally, keeps
the length and never clears a bit. -/
theorem addLoop_total (m : Nat) (hm : 0 < m) (ws : List Str) :
    ∀ bf : BloomFilter, bf.Bitset.length = m →
      ∃ bf1, addLoop m bf ws = .ok bf1 ∧ bf1.Bitset.length = m ∧
        ∀ i : Nat, bf.Bitset[i]? = some true → bf1.Bitset[i]? = some true := by
  induction ws with
  | nil => intro bf hl; exact ⟨bf, rfl, hl, fun _ h => h⟩
  | cons w ws ih =>
    intro bf hl
    obtain ⟨bits1, h1, h2, h3⟩ := addBits_spec m hm (bf.hash w).1 (bf.hash w).2.Bitset hl
    obtain ⟨bf2, k1, k2, k3⟩ := ih { (bf.hash w).2 with Bitset := bits1 } h2
    refine ⟨bf2, by simp [addLoop, h1, k1], k2, ?_⟩
    intro i hi
    exact k3 i ((h3 i).mpr (Or.inl hi))

/-- On a non-empty bit array of length `m` with hashers that hold no written
bytes, the loop of `add` keeps the hashers and the length and sets exactly the
bits of the words. -/
theorem addLoop_spec (m : Nat) (hm : 0 < m) (ws : List Str) :
    ∀ bf : BloomFilter, bf.Bitset.length = m → bf.Clean →
      ∃ bf1, addLoop m bf ws = .ok bf1 ∧ bf1.HashFns = bf.HashFns ∧ bf1.Bitset.length = m ∧
        ∀ i : Nat, bf1.Bitset[i]? = some true ↔
          (bf.Bitset[i]? = some true ∨ ∃ w ∈ ws, ∃ h ∈ (bf.hash w).1, i = h % m) := by
  induction ws with
  | nil => intro bf hl _; exact ⟨bf, rfl, rfl, hl, fun i => by simp⟩
  | cons w ws ih =>
    intro bf hl hc
    have hq : (bf.hash w).2 = bf := hash_snd_of_clean bf w hc
    obtain ⟨bits1, h1, h2, h3⟩ := addBits_spec m hm (bf.hash w).1 bf.Bitset hl
    obtain ⟨bf2, k1, k2, k3, k4⟩ := ih { bf with Bitset := bits1 } h2 hc
    refine ⟨bf2, ?_, k2, k3, ?_⟩
    · simp only [addLoop]
      rw [hq, h1]
      exact k1
    · intro i
      rw [k4 i]
      show (bits1[i]? = some true ∨ _) ↔ _
      rw [h3 i]
      constructor
      · rintro ((h | ⟨h, hh, rfl⟩) | ⟨v, hv, h, hh, rfl⟩)
        · exact Or.inl h
        · exact Or.inr ⟨w, List.mem_cons_self _ _, h, hh, rfl⟩
        · exact Or.inr ⟨v, List.mem_cons_of_mem _ hv, h, hh, rfl⟩
      · rintro (h | ⟨v, hv, h, hh, rfl⟩)
        · exact Or.inl (Or.inl h)
        · rcases List.mem_cons.mp hv with rfl | hv
          · exact Or.inl (Or.inr ⟨h, hh, rfl⟩)
          · exact Or.inr ⟨v, hv, h, hh, rfl⟩

/-! ## The public methods -/

/-- A bit array is non-empty exactly when its length is positive. -/
theorem length_pos_of_ne_nil (bf : BloomFilter) (hm : bf.Bitset ≠ []) : 0 < bf.Bitset.length :=
  List.length_pos.mpr hm

/-- Hashers that are kept stay free of written bytes. -/
theorem Clean_of_HashFns_eq (bf bf1 : BloomFilter) (h : bf1.HashFns = bf.HashFns)
    (hc : bf.Clean) : bf1.Clean := by
  intro fn hfn
  rw [h] at hfn
  exact hc fn hfn

/-- On a non-empty bit array `Add` ends normally, keeps the length and never
clears a bit. -/
theorem Add_total (U : Str → Str) (bf : BloomFilter) (hm : bf.Bitset ≠ []) (s : Str) :
    ∃ bf1, bf.Add U s = .ok bf1 ∧ bf1.Bitset.length = bf.Bitset.length ∧
      ∀ i : Nat, bf.Bitset[i]? = some true → bf1.Bitset[i]? = some true :=
  addLoop_total bf.Bitset.length (length_pos_of_ne_nil bf hm) _ bf rfl

/-- On a non-empty bit array with hashers that hold no written bytes, `Add` keeps
the hashers and the length and sets exactly the bits of the tokens. -/
theorem Add_spec (U : Str → Str) (bf : BloomFilter) (hm : bf.Bitset ≠ []) (hc : bf.Clean)
    (s : Str) :
    ∃ bf1, bf.Add U s = .ok bf1 ∧ bf1.HashFns = bf.HashFns ∧
      bf1.Bitset.length = bf.Bitset.length ∧
      ∀ i : Nat, bf1.Bitset[i]? = some true ↔
        (bf.Bitset[i]? = some true ∨
          ∃ w ∈ BloomFilter.tokenize U s, ∃ h ∈ (bf.hash w).1, i = h % bf.Bitset.length) :=
  addLoop_spec bf.Bitset.length (length_pos_of_ne_nil bf hm) _ bf rfl hc

/-- On a non-empty bit array with hashers that hold no written bytes, `Check`
leaves the filter as it was and answers true exactly when every bit of every token
is set. -/
theorem Check_spec (U : Str → Str) (bf : BloomFilter) (hm : bf.Bitset ≠ []) (hc : bf.Clean)
    (s : Str) :
    ∃ b, bf.Check U s = .ok (b, bf) ∧
      (b = true ↔ ∀ w ∈ BloomFilter.tokenize U s, ∀ h ∈ (bf.hash w).1,
        bf.Bitset[h % bf.Bitset.length]? = some true) :=
  CheckLoop_spec bf (length_pos_of_ne_nil bf hm) hc _

/-- A filter with the same hashers and length in which the bits of a sentence are
set answers true for it. -/
theorem Check_true_of_bits (U : Str → Str) (bf : BloomFilter) (hm : bf.Bitset ≠ [])
    (hc : bf.Clean) (s : Str)
    (hb : ∀ w ∈ BloomFilter.tokenize U s, ∀ h ∈ (bf.hash w).1,
      bf.Bitset[h % bf.Bitset.length]? = some true) :
    bf.Check U s = .ok (true, bf) := by
  obtain ⟨b, h1, h2⟩ := Check_spec U bf hm hc s
  have hb1 : b = true := h2.mpr hb
  rw [h1, hb1]

/-- A run of calls on a non-empty bit array with hashers that hold no written
bytes ends normally, keeps hashers and length, never clears a bit, and has set the
bits of every token of every sentence it added. -/
theorem run_spec (U : Str → Str) (ops : List Op) :
    ∀ bf : BloomFilter, bf.Bitset ≠ [] → bf.Clean →
      ∃ bf1, run U bf ops = .ok bf1 ∧ bf1.HashFns = bf.HashFns ∧
        bf1.Bitset.length = bf.Bitset.length ∧
        (∀ i : Nat, bf.Bitset[i]? = some true → bf1.Bitset[i]? = some true) ∧
        ∀ s, Op.Add s ∈ ops → ∀ w ∈ BloomFilter.tokenize U s, ∀ h ∈ (bf.hash w).1,
          bf1.Bitset[h % bf.Bitset.length]? = some true := by
  induction ops with
  | nil =>
    intro bf _ _
    exact ⟨bf, rfl, rfl, rfl, fun _ h => h, fun s hs => absurd hs (List.not_mem_nil _)⟩
  | cons op ops ih =>
    intro bf hm hc
    cases op with
    | Add s =>
      obtain ⟨bf1, h1, h2, h3, h4⟩ := Add_spec U bf hm hc s
      have hm1 : bf1.Bitset ≠ [] := by
        intro e
        have : bf1.Bitset.length = 0 := by rw [e]; rfl
        have hp := length_pos_of_ne_nil bf hm
        omega
      obtain ⟨bf2, k1, k2, k3, k4, k5⟩ := ih bf1 hm1 (Clean_of_HashFns_eq bf bf1 h2 hc)
      refine ⟨bf2, by simp [run, h1, k1], k2.trans h2, k3.trans h3, ?_, ?_⟩
      · intro i hi
        exact k4 i ((h4 i).mpr (Or.inl hi))
      · intro t ht w hw h hh
        rcases List.mem_cons.mp ht with e | ht
        · cases e
          exact k4 _ ((h4 _).mpr (Or.inr ⟨w, hw, h, hh, rfl⟩))
        · have := k5 t ht w hw h (by rw [hash_fst, h2]; exact hh)
          rw [h3] at this
          exact this
    | Check s =>
      obtain ⟨b, h1, _⟩ := Check_spec U bf hm hc s
      obtain ⟨bf2, k1, k2, k3, k4, k5⟩ := ih bf hm hc
      refine ⟨bf2, by simp [run, h1, k1], k2, k3, k4, ?_⟩
      intro t ht w hw h hh
      rcases List.mem_cons.mp ht with e | ht
      · cases e
      · exact k5 t ht w hw h hh

/-! ## No false negatives -/

/-- C1 as stated fails: on the two-bit filter whose hasher has `aku` written to it,
`Add("makan")` sets bit 1 (the digest of `akumakan` decodes to 3) and the `Check("makan")`
that follows reads bit 0 (the digest of `makan` decodes to 36) and answers false. -/
theorem C1_pending_counterexample :
    (pending [false, false] (str "aku")).Bitset ≠ [] ∧
      (pending [false, false] (str "aku")).Add id (str "makan")
        = .ok { Bitset := [false, true], HashFns := [Hash.New (keyName 0)] } ∧
      BloomFilter.Check id { Bitset := [false, true], HashFns := [Hash.New (keyName 0)] }
          (str "makan")
        = .ok (false, { Bitset := [false, true], HashFns := [Hash.New (keyName 0)] }) := by
  set_option maxRecDepth 100000 in
  exact ⟨by decide, by rfl, by rfl⟩

/-- C1, amended: on every filter whose bit array is non-empty and whose hashers hold
no written bytes, `Add(s)` ends normally and the `Check(s)` that follows returns
true (and leaves the filter as `Add` left it). -/
theorem C1_add_then_check (U : Str → Str) (bf : BloomFilter) (s : Str)
    (hm : bf.Bitset ≠ []) (hc : bf.Clean) :
    ∃ bf1, bf.Add U s = .ok bf1 ∧ bf1.Check U s = .ok (true, bf1) := by
  obtain ⟨bf1, h1, h2, h3, h4, h5⟩ := run_spec U [Op.Add s] bf hm hc
  have hm1 : bf1.Bitset ≠ [] := by
    intro e
    have : bf1.Bitset.length = 0 := by rw [e]; rfl
    have hp := length_pos_of_ne_nil bf hm
    omega
  have hc1 : bf1.Clean := Clean_of_HashFns_eq bf bf1 h2 hc
  obtain ⟨bf2, k1, _⟩ := Add_spec U bf hm hc s
  have e12 : bf2 = bf1 := by
    simp only [run, k1] at h1
    exact Except.ok.inj h1
  subst e12
  refine ⟨bf2, k1, Check_true_of_bits U bf2 hm1 hc1 s ?_⟩
  intro w hw h hh
  have := h5 s (List.mem_singleton.mpr rfl) w hw h (by rw [hash_fst, ← h2]; exact hh)
  rw [← h3] at this
  exact this

/-- C1, amended, on the sample filter and the sentence `aku mau makan`. -/
theorem C1_add_then_check_witness :
    sample.Bitset ≠ [] ∧ sample.Clean ∧
      ∃ bf1, sample.Add id (str "aku mau makan") = .ok bf1 ∧
        bf1.Check id (str "aku mau makan") = .ok (true, bf1) :=
  ⟨by decide, by decide, C1_add_then_check id sample (str "aku mau makan") (by decide) (by decide)⟩

/-! ## Membership is permanent -/

/-- C2 as stated fails: on the two-bit filter whose hasher has `aku` written to it,
the calls `Add("tidur")`, `Check("x")`, `Add("mau")` set bit 1 only, and
`Check("tidur")` afterwards reads bit 0 and answers false. -/
theorem C2_pending_counterexample :
    (pending [false, false] (str "aku")).Bitset ≠ [] ∧
      run id (pending [false, false] (str "aku"))
          [Op.Add (str "tidur"), Op.Check (str "x"), Op.Add (str "mau")]
        = .ok { Bitset := [false, true], HashFns := [Hash.New (keyName 0)] } ∧
      BloomFilter.Check id { Bitset := [false, true], HashFns := [Hash.New (keyName 0)] }
          (str "tidur")
        = .ok (false, { Bitset := [false, true], HashFns := [Hash.New (keyName 0)] }) := by
  set_option maxRecDepth 100000 in
  exact ⟨by decide, by rfl, by rfl⟩

/-- C2, amended: on every filter whose bit array is non-empty and whose hashers hold
no written bytes, every run of `Add` and `Check` calls ends normally, and a sentence
passed to `Add` anywhere in the run makes `Check` return true at the end of the run,
whatever calls came before and after that `Add`. -/
theorem C2_membership_permanent (U : Str → Str) (bf : BloomFilter) (s : Str)
    (before after : List Op) (hm : bf.Bitset ≠ []) (hc : bf.Clean) :
    ∃ bf1, run U bf (before ++ Op.Add s :: after) = .ok bf1 ∧
      bf1.Check U s = .ok (true, bf1) := by
  obtain ⟨bf1, h1, h2, h3, _, h5⟩ := run_spec U (before ++ Op.Add s :: after) bf hm hc
  have hm1 : bf1.Bitset ≠ [] := by
    intro e
    have : bf1.Bitset.length = 0 := by rw [e]; rfl
    have hp := length_pos_of_ne_nil bf hm
    omega
  have hc1 : bf1.Clean := Clean_of_HashFns_eq bf bf1 h2 hc
  refine ⟨bf1, h1, Check_true_of_bits U bf1 hm1 hc1 s ?_⟩
  intro w hw h hh
  have hmem : Op.Add s ∈ before ++ Op.Add s :: after :=
    List.mem_append_right _ (List.mem_cons_self _ _)
  have := h5 s hmem w hw h (by rw [hash_fst, ← h2]; exact hh)
  rw [← h3] at this
  exact this

/-- C2, amended, on the sample filter: `aku mau makan` is still found after three
more calls. -/
theorem C2_membership_permanent_witness :
    sample.Bitset ≠ [] ∧ sample.Clean ∧
      ∃ bf1, run id sample ([Op.Add (str "tidur")] ++ Op.Add (str "aku mau makan") ::
          [Op.Check (str "mandi"), Op.Add (str "aku mau mandi")]) = .ok bf1 ∧
        bf1.Check id (str "aku mau makan") = .ok (true, bf1) :=
  ⟨by decide, by decide,
    C2_membership_permanent id sample (str "aku mau makan") [Op.Add (str "tidur")]
      [Op.Check (str "mandi"), Op.Add (str "aku mau mandi")] (by decide) (by decide)⟩

/-! ## Bits are never cleared -/

/-- C3: on every filter with a non-empty bit array, `Add(s)` and `Check(s)` end
normally and every bit that was true before the call is true after it. -/
theorem C3_bits_monotone (U : Str → Str) (bf : BloomFilter) (s : Str) (hm : bf.Bitset ≠ []) :
    (∃ bf1, bf.Add U s = .ok bf1 ∧
        ∀ i : Nat, bf.Bitset[i]? = some true → bf1.Bitset[i]? = some true) ∧
      ∃ b bf1, bf.Check U s = .ok (b, bf1) ∧
        ∀ i : Nat, bf.Bitset[i]? = some true → bf1.Bitset[i]? = some true := by
  constructor
  · obtain ⟨bf1, h1, _, h3⟩ := Add_total U bf hm s
    exact ⟨bf1, h1, h3⟩
  · obtain ⟨b, bf1, h1, h2⟩ :=
      CheckLoop_total (BloomFilter.tokenize U s) bf (length_pos_of_ne_nil bf hm)
    exact ⟨b, bf1, h1, fun i hi => by rw [h2]; exact hi⟩

/-- C3 on a filter with bits already set and a hasher that holds written bytes. -/
theorem C3_bits_monotone_witness :
    (pending [true, false, true] (str "aku")).Bitset ≠ [] ∧
      ((∃ bf1, (pending [true, false, true] (str "aku")).Add id (str "aku mau") = .ok bf1 ∧
          ∀ i : Nat, (pending [true, false, true] (str "aku")).Bitset[i]? = some true →
            bf1.Bitset[i]? = some true) ∧
        ∃ b bf1, (pending [true, false, true] (str "aku")).Check id (str "aku mau")
            = .ok (b, bf1) ∧
          ∀ i : Nat, (pending [true, false, true] (str "aku")).Bitset[i]? = some true →
            bf1.Bitset[i]? = some true) :=
  ⟨by decide, C3_bits_monotone id (pending [true, false, true] (str "aku")) (str "aku mau")
    (by decide)⟩

/-! ## What `Check` computes -/

/-- C4 as stated fails: on the filter with bits `[true, false]` whose hasher has
`aku` written to it, `Check("mandi makan")` reads bit 0 twice (the digests of
`akumandi` and of `makan` decode to 1880904938 and 36) and answers true, although
bit 1 is false and is the bit of `makan` as `hash` gives it on that filter (the
digest of `akumakan` decodes to 3) and the bit of `mandi` hashed alone (37). -/
theorem C4_pending_counterexample :
    (pending [true, false] (str "aku")).Bitset ≠ [] ∧
      (pending [true, false] (str "aku")).Check id (str "mandi makan")
        = .ok (true, { Bitset := [true, false], HashFns := [Hash.New (keyName 0)] }) ∧
      (¬ ∀ w ∈ BloomFilter.tokenize id (str "mandi makan"),
          ∀ h ∈ ((pending [true, false] (str "aku")).hash w).1,
            (pending [true, false] (str "aku")).Bitset[
              h % (pending [true, false] (str "aku")).Bitset.length]? = some true) ∧
      ¬ ∀ w ∈ BloomFilter.tokenize id (str "mandi makan"),
          ∀ h ∈ (hashLoop w [Hash.New (keyName 0)]).1,
            (pending [true, false] (str "aku")).Bitset[
              h % (pending [true, false] (str "aku")).Bitset.length]? = some true := by
  set_option maxRecDepth 100000 in
  exact ⟨by decide, by rfl, by decide, by decide⟩

/-- C4, amended: on every filter whose bit array is non-empty, of length `m`, and
whose hashers hold no written bytes, `Check(s)` ends normally, leaves the filter as
it was, and returns true exactly when `Bitset[h % m]` is true for every token `w` of
`tokenize(s)` and every `h` in `hash(w)`; it returns false exactly when some such
bit is false. -/
theorem C4_Check_iff (U : Str → Str) (bf : BloomFilter) (s : Str)
    (hm : bf.Bitset ≠ []) (hc : bf.Clean) :
    ∃ b, bf.Check U s = .ok (b, bf) ∧
      (b = true ↔ ∀ w ∈ BloomFilter.tokenize U s, ∀ h ∈ (bf.hash w).1,
        bf.Bitset[h % bf.Bitset.length]? = some true) ∧
      (b = false ↔ ∃ w ∈ BloomFilter.tokenize U s, ∃ h ∈ (bf.hash w).1,
        bf.Bitset[h % bf.Bitset.length]? = some false) := by
  obtain ⟨b, h1, h2⟩ := Check_spec U bf hm hc s
  refine ⟨b, h1, h2, ?_⟩
  have hp := length_pos_of_ne_nil bf hm
  constructor
  · intro hb
    have hn : ¬ ∀ w ∈ BloomFilter.tokenize U s, ∀ h ∈ (bf.hash w).1,
        bf.Bitset[h % bf.Bitset.length]? = some true := by
      intro hall
      rw [h2.mpr hall] at hb
      exact Bool.noConfusion hb
    by_contra hex
    apply hn
    intro w hw h hh
    have hlt : h % bf.Bitset.length < bf.Bitset.length := Nat.mod_lt _ hp
    rw [List.getElem?_eq_getElem hlt]
    cases hv : bf.Bitset[h % bf.Bitset.length] with
    | true => rfl
    | false =>
      exact absurd ⟨w, hw, h, hh, by rw [List.getElem?_eq_getElem hlt, hv]⟩ hex
  · rintro ⟨w, hw, h, hh, hf⟩
    cases b with
    | false => rfl
    | true =>
      have := h2.mp rfl w hw h hh
      rw [hf] at this
      exact absurd (Option.some.inj this) Bool.false_ne_true

/-- C4, amended, on the sample filter and the sentence `aku mau`. -/
theorem C4_Check_iff_witness :
    sample.Bitset ≠ [] ∧ sample.Clean ∧
      ∃ b, sample.Check id (str "aku mau") = .ok (b, sample) ∧
        (b = true ↔ ∀ w ∈ BloomFilter.tokenize id (str "aku mau"), ∀ h ∈ (sample.hash w).1,
          sample.Bitset[h % sample.Bitset.length]? = some true) ∧
        (b = false ↔ ∃ w ∈ BloomFilter.tokenize id (str "aku mau"), ∃ h ∈ (sample.hash w).1,
          sample.Bitset[h % sample.Bitset.length]? = some false) :=
  ⟨by decide, by decide, C4_Check_iff id sample (str "aku mau") (by decide) (by decide)⟩

/-! ## What `Add` changes -/

/-- C5 as stated fails: on the two-bit filter whose hasher has `mandi` written to
it, `Add("aku tidur")` sets bit 0 only (the digests of `mandiaku` and of `tidur`
decode to 4524 and 15606), so bit 1 stays false, although 1 is `h % 2` for the
token `tidur` as `hash` gives it on that filter (the digest of `manditidur` decodes
to 43) and for the token `aku` hashed alone (67). -/
theorem C5_pending_counterexample :
    (pending [false, false] (str "mandi")).Bitset ≠ [] ∧
      (pending [false, false] (str "mandi")).Add id (str "aku tidur")
        = .ok { Bitset := [true, false], HashFns := [Hash.New (keyName 0)] } ∧
      (∃ w ∈ BloomFilter.tokenize id (str "aku tidur"),
          ∃ h ∈ ((pending [false, false] (str "mandi")).hash w).1,
            1 = h % (pending [false, false] (str "mandi")).Bitset.length) ∧
      ∃ w ∈ BloomFilter.tokenize id (str "aku tidur"),
          ∃ h ∈ (hashLoop w [Hash.New (keyName 0)]).1,
            1 = h % (pending [false, false] (str "mandi")).Bitset.length := by
  set_option maxRecDepth 100000 in
  exact ⟨by decide, by rfl, by decide, by decide⟩

/-- C5, amended: on every filter whose bit array is non-empty, of length `m`, and
whose hashers hold no written bytes, `Add(s)` ends normally and keeps the length and
the hashers; for every index `i < m` the bit `i` is true afterwards exactly when it
was true before or `i = h % m` for some token `w` of `tokenize(s)` and some `h` in
`hash(w)`; every other bit keeps its value. -/
theorem C5_Add_exact (U : Str → Str) (bf : BloomFilter) (s : Str)
    (hm : bf.Bitset ≠ []) (hc : bf.Clean) :
    ∃ bf1, bf.Add U s = .ok bf1 ∧ bf1.Bitset.length = bf.Bitset.length ∧
      bf1.HashFns = bf.HashFns ∧
      (∀ i : Nat, i < bf.Bitset.length →
        (bf1.Bitset[i]? = some true ↔
          (bf.Bitset[i]? = some true ∨
            ∃ w ∈ BloomFilter.tokenize U s, ∃ h ∈ (bf.hash w).1, i = h % bf.Bitset.length))) ∧
      ∀ i : Nat,
        (¬ ∃ w ∈ BloomFilter.tokenize U s, ∃ h ∈ (bf.hash w).1, i = h % bf.Bitset.length) →
          bf1.Bitset[i]? = bf.Bitset[i]? := by
  obtain ⟨bf1, h1, h2, h3, h4⟩ := Add_spec U bf hm hc s
  refine ⟨bf1, h1, h3, h2, fun i _ => h4 i, ?_⟩
  intro i hn
  have hiff : bf1.Bitset[i]? = some true ↔ bf.Bitset[i]? = some true := by
    rw [h4 i]
    exact ⟨fun h => h.resolve_right hn, Or.inl⟩
  by_cases hi : i < bf.Bitset.length
  · have hi1 : i < bf1.Bitset.length := by rw [h3]; exact hi
    rw [List.getElem?_eq_getElem hi, List.getElem?_eq_getElem hi1] at hiff ⊢
    cases hv : bf.Bitset[i] with
    | true =>
      have := hiff.mpr (by rw [hv])
      rw [this]
    | false =>
      cases hv1 : bf1.Bitset[i] with
      | false => rfl
      | true =>
        have := hiff.mp (by rw [hv1])
        rw [hv] at this
        exact absurd (Option.some.inj this) Bool.false_ne_true
  · have hi1 : ¬ i < bf1.Bitset.length := by rw [h3]; exact hi
    rw [List.getElem?_eq_none (Nat.le_of_not_lt hi),
      List.getElem?_eq_none (Nat.le_of_not_lt hi1)]

/-- C5, amended, on the sample filter and the sentence `aku mau makan`. -/
theorem C5_Add_exact_witness :
    sample.Bitset ≠ [] ∧ sample.Clean ∧
      ∃ bf1, sample.Add id (str "aku mau makan") = .ok bf1 ∧
        bf1.Bitset.length = sample.Bitset.length ∧ bf1.HashFns = sample.HashFns ∧
        (∀ i : Nat, i < sample.Bitset.length →
          (bf1.Bitset[i]? = some true ↔
            (sample.Bitset[i]? = some true ∨
              ∃ w ∈ BloomFilter.tokenize id (str "aku mau makan"), ∃ h ∈ (sample.hash w).1,
                i = h % sample.Bitset.length))) ∧
        ∀ i : Nat,
          (¬ ∃ w ∈ BloomFilter.tokenize id (str "aku mau makan"), ∃ h ∈ (sample.hash w).1,
            i = h % sample.Bitset.length) →
            bf1.Bitset[i]? = sample.Bitset[i]? :=
  ⟨by decide, by decide, C5_Add_exact id sample (str "aku mau makan") (by decide) (by decide)⟩

/-! ## Tokens are looked up one by one -/

/-- C6 as stated fails: on the four-bit filter whose hasher has `aku` written to it,
`Add("makan aku")` and `Add("mandi mau")` set bits 1 and 3 only (the digests of
`akumakan`, `aku`, `mandi` and `mau` decode to 3, 67, 37 and 45), and
`Check("makan")` reads bit 0 (the digest of `makan` decodes to 36) and answers
false, although `makan` is a token of the first sentence. -/
theorem C6_pending_counterexample :
    (pending [false, false, false, false] (str "aku")).Bitset ≠ [] ∧
      (∀ w ∈ BloomFilter.tokenize id (str "makan"),
        ∃ s ∈ [str "makan aku", str "mandi mau"], w ∈ BloomFilter.tokenize id s) ∧
      run id (pending [false, false, false, false] (str "aku"))
          ([str "makan aku", str "mandi mau"].map Op.Add)
        = .ok { Bitset := [false, true, false, true], HashFns := [Hash.New (keyName 0)] } ∧
      BloomFilter.Check id
          { Bitset := [false, true, false, true], HashFns := [Hash.New (keyName 0)] }
          (str "makan")
        = .ok (false,
            { Bitset := [false, true, false, true], HashFns := [Hash.New (keyName 0)] }) := by
  set_option maxRecDepth 100000 in
  exact ⟨by decide, by decide, by rfl, by rfl⟩

/-- C6, amended: on every filter whose bit array is non-empty and whose hashers hold
no written bytes, after `Add` of each sentence of a list, `Check(q)` returns true
for every sentence `q` each of whose tokens is a token of one of the added
sentences. -/
theorem C6_per_token (U : Str → Str) (bf : BloomFilter) (added : List Str) (q : Str)
    (hm : bf.Bitset ≠ []) (hc : bf.Clean)
    (hq : ∀ w ∈ BloomFilter.tokenize U q, ∃ s ∈ added, w ∈ BloomFilter.tokenize U s) :
    ∃ bf1, run U bf (added.map Op.Add) = .ok bf1 ∧ bf1.Check U q = .ok (true, bf1) := by
  obtain ⟨bf1, h1, h2, h3, _, h5⟩ := run_spec U (added.map Op.Add) bf hm hc
  have hm1 : bf1.Bitset ≠ [] := by
    intro e
    have : bf1.Bitset.length = 0 := by rw [e]; rfl
    have hp := length_pos_of_ne_nil bf hm
    omega
  have hc1 : bf1.Clean := Clean_of_HashFns_eq bf bf1 h2 hc
  refine ⟨bf1, h1, Check_true_of_bits U bf1 hm1 hc1 q ?_⟩
  intro w hw h hh
  obtain ⟨s, hs, hws⟩ := hq w hw
  have := h5 s (List.mem_map_of_mem Op.Add hs) w hws h (by rw [hash_fst, ← h2]; exact hh)
  rw [← h3] at this
  exact this

/-- C6, amended, on the sample filter: `aku mau` is found after `aku mau makan` and
`aku mau mandi` were added. -/
theorem C6_per_token_witness :
    sample.Bitset ≠ [] ∧ sample.Clean ∧
      (∀ w ∈ BloomFilter.tokenize id (str "aku mau"),
        ∃ s ∈ [str "aku mau makan", str "aku mau mandi"], w ∈ BloomFilter.tokenize id s) ∧
      ∃ bf1, run id sample ([str "aku mau makan", str "aku mau mandi"].map Op.Add) = .ok bf1 ∧
        bf1.Check id (str "aku mau") = .ok (true, bf1) :=
  ⟨by decide, by decide, by decide,
    C6_per_token id sample [str "aku mau makan", str "aku mau mandi"] (str "aku mau")
      (by decide) (by decide) (by decide)⟩

/-! ## Letter case -/

/-- C7 as stated fails: on the four-bit filter whose hasher has `mandi` written to
it, `Add("AKU MAU")` sets bits 0 and 1 (the digests of `mandiaku` and of `mau`
decode to 4524 and 45) and `Check("aku mau")` reads bit 3 (the digest of `aku`
decodes to 67) and answers false. -/
theorem C7_pending_counterexample :
    (pending [false, false, false, false] (str "mandi")).Bitset ≠ [] ∧
      ToLower id (str "AKU MAU") = ToLower id (str "aku mau") ∧
      (pending [false, false, false, false] (str "mandi")).Add id (str "AKU MAU")
        = .ok { Bitset := [true, true, false, false], HashFns := [Hash.New (keyName 0)] } ∧
      BloomFilter.Check id
          { Bitset := [true, true, false, false], HashFns := [Hash.New (keyName 0)] }
          (str "aku mau")
        = .ok (false,
            { Bitset := [true, true, false, false], HashFns := [Hash.New (keyName 0)] }) := by
  set_option maxRecDepth 100000 in
  exact ⟨by decide, by decide, by rfl, by rfl⟩

/-- C7, amended: for two sentences `s` and `t` that are equal after lower-casing,
`Add(s)` and `Add(t)` do the same on every filter; on every filter whose bit array
is non-empty and whose hashers hold no written bytes, `Add(s)` ends normally and
`Check(t)` returns true after it. -/
theorem C7_case_insensitive (U : Str → Str) (s t : Str)
    (hst : ToLower U s = ToLower U t) :
    (∀ bf : BloomFilter, bf.Add U s = bf.Add U t) ∧
      ∀ bf : BloomFilter, bf.Bitset ≠ [] → bf.Clean →
        ∃ bf1, bf.Add U s = .ok bf1 ∧ bf1.Check U t = .ok (true, bf1) := by
  have htok : BloomFilter.tokenize U s = BloomFilter.tokenize U t := by
    simp only [BloomFilter.tokenize, hst]
  have hadd : ∀ bf : BloomFilter, bf.Add U s = bf.Add U t := by
    intro bf
    simp only [BloomFilter.Add, htok]
  refine ⟨hadd, ?_⟩
  intro bf hm hc
  obtain ⟨bf1, h1, h2, h3, h4⟩ := Add_spec U bf hm hc t
  have hm1 : bf1.Bitset ≠ [] := by
    intro e
    have : bf1.Bitset.length = 0 := by rw [e]; rfl
    have hp := length_pos_of_ne_nil bf hm
    omega
  have hc1 : bf1.Clean := Clean_of_HashFns_eq bf bf1 h2 hc
  refine ⟨bf1, (hadd bf).trans h1, Check_true_of_bits U bf1 hm1 hc1 t ?_⟩
  intro w hw h hh
  rw [h3]
  exact (h4 _).mpr (Or.inr ⟨w, hw, h, by rw [hash_fst, ← h2]; exact hh, rfl⟩)

/-- C7, amended, on `AKU MAU` and `aku mau`: the two `Add` calls agree on every
filter, also on one whose hasher holds written bytes, and on a filter as `New`
builds it `aku mau` is found after `AKU MAU` was added. -/
theorem C7_case_insensitive_witness :
    ToLower id (str "AKU MAU") = ToLower id (str "aku mau") ∧
      ((∀ bf : BloomFilter, bf.Add id (str "AKU MAU") = bf.Add id (str "aku mau")) ∧
        ∀ bf : BloomFilter, bf.Bitset ≠ [] → bf.Clean →
          ∃ bf1, bf.Add id (str "AKU MAU") = .ok bf1 ∧
            bf1.Check id (str "aku mau") = .ok (true, bf1)) :=
  ⟨by decide, C7_case_insensitive id (str "AKU MAU") (str "aku mau") (by decide)⟩

/-! ## Construction -/

/-- The hashers `createHashFns` builds hold no written bytes. -/
theorem createHashFns_clean (k : Int) (fns : List Hash) (h : createHashFns k = .ok fns) :
    ∀ fn ∈ fns, fn.written = [] := by
  unfold createHashFns at h
  split at h
  · exact Except.noConfusion h
  · have e := Except.ok.inj h
    subst e
    intro fn hfn
    obtain ⟨i, _, rfl⟩ := List.mem_map.mp hfn
    rfl

/-- A filter returned by `New` has hashers that hold no written bytes. -/
theorem New_Clean (M : Math) (n : Int) (e : Float64) (bf : BloomFilter) (err : Option Error)
    (h : New M n e = .ok (some bf, err)) : bf.Clean := by
  unfold New at h
  split at h
  · simp at h
  · split at h
    · simp at h
    · simp only [] at h
      split at h
      · exact Except.noConfusion h
      · split at h
        · exact Except.noConfusion h
        · rename_i fns hf
          have e1 := Except.ok.inj h
          simp only [Prod.mk.injEq, Option.some.injEq] at e1
          obtain ⟨e2, _⟩ := e1
          subst e2
          exact createHashFns_clean _ fns hf

/-- The two guards on the error rate reject every value that is a number and lies
outside the open interval (0,1), and nothing else. -/
theorem guards_iff_of_not_nan (e : Float64) (he : e.val ≠ Float64.Val.nan) :
    (e.le Float64.zero || e.ge Float64.one) = true ↔
      ¬ (Float64.lt Float64.zero e = true ∧ Float64.lt e Float64.one = true) := by
  have h0 : Float64.zero.val = Float64.Val.fin 0 := by decide
  have h1 : Float64.one.val = Float64.Val.fin ((2 ^ 1075 : Nat) : Int) := by
    set_option exponentiation.threshold 2000 in
    decide
  unfold Float64.ge Float64.le Float64.lt
  rw [h0, h1]
  generalize ((2 ^ 1075 : Nat) : Int) = c
  cases hv : e.val with
  | nan => exact absurd hv he
  | inf neg => cases neg <;> simp
  | fin a =>
    simp only [Bool.or_eq_true, decide_eq_true_eq]
    omega

/-- C8: `New(n, e)` returns the pair (nil, `ErrCapacity`) exactly when `n <= 0`,
whatever `e` is, and it never returns a filter together with `ErrCapacity`. -/
theorem C8_capacity (M : Math) (n : Int) (e : Float64) :
    (New M n e = .ok (none, some Error.ErrCapacity) ↔ n ≤ 0) ∧
      ∀ bf : BloomFilter, New M n e ≠ .ok (some bf, some Error.ErrCapacity) := by
  unfold New
  by_cases hn : n ≤ 0
  · simp [hn]
  · simp only [hn, if_false, iff_false]
    by_cases hg : (e.le Float64.zero || e.ge Float64.one) = true
    · simp [hg]
    · simp only [hg, if_false]
      cases makeBools (findM M n e) with
      | error p => simp
      | ok bits =>
        cases createHashFns (findK M e) with
        | error p => simp
        | ok fns => simp

/-- C9 at the input `New(1, NaN)`: the error rate is not inside the open interval
(0,1), both guards `e <= 0` and `e >= 1` are false, and `New` does not return
`ErrErrorRate`: it goes on to build the filter from `findK(NaN)` and `findM(1, NaN)`,
so it either panics in `make` or returns a filter with a nil error. -/
theorem C9_New_NaN (M : Math) :
    (Float64.lt Float64.zero Float64.NaN && Float64.lt Float64.NaN Float64.one) = false ∧
      Float64.le Float64.NaN Float64.zero = false ∧
      Float64.ge Float64.NaN Float64.one = false ∧
      (∀ r, New M 1 Float64.NaN ≠ .ok (r, some Error.ErrErrorRate)) ∧
      (New M 1 Float64.NaN = .error Panic.makesliceLen ∨
        ∃ bf, New M 1 Float64.NaN = .ok (some bf, none)) := by
  have h1 : Float64.le Float64.NaN Float64.zero = false := by decide
  have h2 : Float64.ge Float64.NaN Float64.one = false := by decide
  have h3 : ¬ ((1 : Int) ≤ 0) := by decide
  refine ⟨by decide, h1, h2, ?_, ?_⟩
  · intro r
    unfold New
    simp only [h1, h2, h3, if_false, Bool.or_self, Bool.false_eq_true]
    cases makeBools (findM M 1 Float64.NaN) with
    | error p => simp
    | ok bits =>
      cases createHashFns (findK M Float64.NaN) with
      | error p => simp
      | ok fns => simp
  · unfold New
    simp only [h1, h2, h3, if_false, Bool.or_self, Bool.false_eq_true]
    cases hb : makeBools (findM M 1 Float64.NaN) with
    | error p =>
      left
      unfold makeBools at hb
      split at hb
      · cases hb; rfl
      · exact Except.noConfusion hb
    | ok bits =>
      cases hf : createHashFns (findK M Float64.NaN) with
      | error p =>
        left
        unfold createHashFns at hf
        split at hf
        · cases hf; rfl
        · exact Except.noConfusion hf
      | ok fns =>
        right
        exact ⟨{ Bitset := bits, HashFns := fns }, rfl⟩

/-! ## Tokenization -/

/-- Splitting never gives an empty list of pieces. -/
theorem Split_ne_nil (s : Str) : Split s ≠ [] := List.splitOnP_ne_nil _ s

/-- Splitting gives one more piece than there are spaces. -/
theorem Split_length (s : Str) : (Split s).length = s.count 32 + 1 := by
  unfold Split List.splitOn
  induction s with
  | nil => rfl
  | cons c s ih =>
    rw [List.splitOnP_cons]
    by_cases h : c = 32
    · subst h
      simp [ih]
    · have hb : (c == 32) = false := by simpa using h
      have hlen : ∀ l : List Str, (l.modifyHead (List.cons c)).length = l.length := by
        intro l; cases l <;> rfl
      rw [hb]
      simp only [Bool.false_eq_true, if_false, hlen, ih]
      rw [List.count_cons_of_ne (Ne.symm h)]

/-- No piece of a split contains a space. -/
theorem Split_no_space (s : Str) : ∀ t ∈ Split s, (32 : UInt8) ∉ t := by
  unfold Split List.splitOn
  induction s with
  | nil =>
    intro t ht
    simp at ht
    subst ht
    exact List.not_mem_nil _
  | cons c s ih =>
    intro t ht
    rw [List.splitOnP_cons] at ht
    by_cases h : c = 32
    · subst h
      simp only [beq_self_eq_true, if_true, List.mem_cons] at ht
      rcases ht with rfl | ht
      · exact List.not_mem_nil _
      · exact ih t ht
    · have hb : (c == 32) = false := by simpa using h
      rw [hb] at ht
      simp only [Bool.false_eq_true, if_false] at ht
      cases hsp : List.splitOnP (fun x => x == 32) s with
      | nil => exact absurd hsp (List.splitOnP_ne_nil _ s)
      | cons t0 ts =>
        rw [hsp] at ht ih
        simp only [List.modifyHead, List.mem_cons] at ht
        rcases ht with rfl | ht
        · intro hmem
          rcases List.mem_cons.mp hmem with e | hmem
          · exact h e.symm
          · exact ih t0 (List.mem_cons_self _ _) hmem
        · exact ih t (List.mem_cons_of_mem _ ht)

/-- Lower-casing the empty string gives the empty string. -/
theorem ToLower_nil (U : Str → Str) : ToLower U [] = [] := rfl

/-- C14: `tokenize(s)` is the split of the lower-cased `s` on the space byte: it is
never empty, has one more token than the lower-cased `s` has spaces, no token
contains a space, joining the tokens with single spaces gives the lower-cased `s`
back, splitting keeps empty tokens (any non-empty list of space-free tokens, empty
ones included, is what its join splits into; `a  b` gives `a`, the empty token and
`b`), and `tokenize("")` is the one-element list with the empty token. -/
theorem C14_tokenize (U : Str → Str) (s : Str) :
    BloomFilter.tokenize U s = Split (ToLower U s) ∧
      BloomFilter.tokenize U s ≠ [] ∧
      (BloomFilter.tokenize U s).length = (ToLower U s).count 32 + 1 ∧
      (∀ t ∈ BloomFilter.tokenize U s, (32 : UInt8) ∉ t) ∧
      [(32 : UInt8)].intercalate (BloomFilter.tokenize U s) = ToLower U s ∧
      (∀ ts : List Str, ts ≠ [] → (∀ t ∈ ts, (32 : UInt8) ∉ t) →
        Split ([(32 : UInt8)].intercalate ts) = ts) ∧
      BloomFilter.tokenize U (str "a  b") = [str "a", [], str "b"] ∧
      BloomFilter.tokenize U [] = [[]] := by
  refine ⟨rfl, Split_ne_nil _, Split_length _, Split_no_space _, ?_, ?_, ?_, rfl⟩
  · exact List.intercalate_splitOn _ _
  rotate_left
  · unfold BloomFilter.tokenize ToLower
    rw [if_pos (by decide)]
    decide
  · intro ts hts hsp
    exact List.splitOn_intercalate ts 32 hsp hts

/-! ## The hasher set -/

/-- A decimal digit is written as the one byte `48 + d`. -/
theorem digit_bytes (d : Nat) (hd : d < 10) :
    String.utf8EncodeChar (Nat.digitChar d) = [UInt8.ofNat (48 + d)] := by
  interval_cases d <;> rfl

/-- Reading digits from a start value shifts the start value to the left. -/
theorem decimalValue_foldl (l : Str) :
    ∀ a : Nat, l.foldl (fun acc b => 10 * acc + (b.toNat - 48)) a
      = a * 10 ^ l.length + decimalValue l := by
  unfold decimalValue
  induction l with
  | nil => intro a; simp
  | cons b l ih =>
    intro a
    simp only [List.foldl_cons, List.length_cons]
    rw [ih (10 * a + (b.toNat - 48)), ih (10 * 0 + (b.toNat - 48))]
    ring

/-- The digits `Nat.toDigitsCore` puts in front of `ds` denote `n`. -/
theorem decimalValue_toDigitsCore (fuel : Nat) :
    ∀ (n : Nat) (ds : List Char), n < fuel →
      decimalValue ((Nat.toDigitsCore 10 fuel n ds).flatMap String.utf8EncodeChar)
        = n * 10 ^ (ds.flatMap String.utf8EncodeChar).length
          + decimalValue (ds.flatMap String.utf8EncodeChar) := by
  induction fuel with
  | zero => intro n ds h; exact absurd h (Nat.not_lt_zero _)
  | succ fuel ih =>
    intro n ds h
    have hd : n % 10 < 10 := Nat.mod_lt _ (by decide)
    have hcons : ∀ l : List Char, decimalValue (((n % 10).digitChar :: l).flatMap
        String.utf8EncodeChar) = (n % 10) * 10 ^ (l.flatMap String.utf8EncodeChar).length
          + decimalValue (l.flatMap String.utf8EncodeChar) := by
      intro l
      rw [List.flatMap_cons, digit_bytes _ hd]
      show List.foldl _ _ _ = _
      simp only [List.singleton_append, List.foldl_cons]
      rw [decimalValue_foldl]
      have : (UInt8.ofNat (48 + n % 10)).toNat - 48 = n % 10 := by
        have h2 : n % 10 < 10 := hd
        generalize n % 10 = d at h2
        interval_cases d <;> rfl
      rw [this]
      ring
    unfold Nat.toDigitsCore
    by_cases h0 : n / 10 = 0
    · simp only [h0, if_true]
      rw [hcons]
      have : n % 10 = n := by omega
      rw [this]
    · simp only [h0, if_false]
      have hlt : n / 10 < fuel := by omega
      rw [ih (n / 10) _ hlt, hcons]
      have hlen : (((n % 10).digitChar :: ds).flatMap String.utf8EncodeChar).length
          = (ds.flatMap String.utf8EncodeChar).length + 1 := by
        rw [List.flatMap_cons, digit_bytes _ hd]; simp
      rw [hlen, pow_succ]
      have hn : n = 10 * (n / 10) + n % 10 := (Nat.div_add_mod n 10).symm
      generalize (ds.flatMap String.utf8EncodeChar).length = L at *
      generalize decimalValue (ds.flatMap String.utf8EncodeChar) = D at *
      nth_rewrite 3 [hn]
      ring

/-- The decimal text of a number denotes that number. -/
theorem decimalValue_repr (n : Nat) : decimalValue (str (Nat.repr n)) = n := by
  have := decimalValue_toDigitsCore (n + 1) n [] (Nat.lt_succ_self n)
  simpa [str, Nat.repr, Nat.toDigits, decimalValue] using this

/-- Different indices give different keys. -/
theorem keyName_injective (i j : Nat) (h : keyName i = keyName j) : i = j := by
  unfold keyName at h
  have h2 := List.append_cancel_left h
  have := congrArg decimalValue h2
  rwa [decimalValue_repr, decimalValue_repr] at this


/-- The call `make` goes through exactly when the length is not negative and the
slice takes no more than `maxAlloc` bytes. -/
theorem makePanics_eq_false_iff (size : Nat) (len : Int) :
    makePanics size len = false ↔ (0 ≤ len ∧ (size : Int) * len ≤ (maxAlloc : Int)) := by
  unfold makePanics
  simp only [Bool.or_eq_false_iff, decide_eq_false_iff_not, not_lt]

/-- C17 as stated fails: `createHashFns(1 << 60)` does not return; the call
`make([]hash.Hash, k, k)` panics because the slice would be too large. -/
theorem C17_too_large_counterexample :
    (0 : Int) ≤ 2 ^ 60 ∧ createHashFns (2 ^ 60) = .error Panic.makesliceLen :=
  ⟨by decide, by rfl⟩

/-- C17, amended: for every `k >= 0` whose slice of hashers fits (`16 * k` bytes, at
most `maxAlloc`), `createHashFns(k)` returns exactly `k` hashers, the `i`-th being
the fresh HMAC-SHA256 hasher keyed with the bytes of `key-` followed by the decimal
digits of `i` (so its digest of any input is the HMAC-SHA256 of that input under
that key); the keys of different indices differ; two sets built for the same `k` are
equal, so they give identical digests at each index. -/
theorem C17_createHashFns (k : Nat) (hfit : 16 * k ≤ maxAlloc) :
    createHashFns (k : Int) = .ok ((List.range k).map (fun i => Hash.New (keyName i))) ∧
      (∀ fns, createHashFns (k : Int) = .ok fns →
        fns.length = k ∧
        (∀ i : Nat, i < k →
          fns[i]? = some (Hash.New (str "key-" ++ str (Nat.repr i))) ∧
          decimalValue (str (Nat.repr i)) = i ∧
          ∀ b : Str, (fns[i]?).map (fun fn => (fn.Write b).Sum)
            = some (hmacSHA256 (str "key-" ++ str (Nat.repr i)) b)) ∧
        ∀ fns2, createHashFns (k : Int) = .ok fns2 →
          fns2 = fns ∧
          ∀ (i : Nat) (b : Str), (fns[i]?).map (fun fn => (fn.Write b).Sum)
            = (fns2[i]?).map (fun fn => (fn.Write b).Sum)) ∧
      (∀ i j : Nat, keyName i = keyName j → i = j) ∧
      keyName 0 = str "key-0" ∧ keyName 1 = str "key-1" := by
  have hp : makePanics 16 (k : Int) = false := by
    rw [makePanics_eq_false_iff]
    constructor
    · omega
    · have : ((16 * k : Nat) : Int) ≤ (maxAlloc : Int) := Int.ofNat_le.mpr hfit
      simpa using this
  have hk : createHashFns (k : Int)
      = .ok ((List.range k).map (fun i => Hash.New (keyName i))) := by
    unfold createHashFns
    rw [hp]
    simp
  refine ⟨hk, ?_, keyName_injective, by decide, by decide⟩
  intro fns hfns
  rw [hk] at hfns
  have e := Except.ok.inj hfns
  subst e
  refine ⟨by simp, ?_, ?_⟩
  · intro i hi
    have hget : ((List.range k).map (fun i => Hash.New (keyName i)))[i]?
        = some (Hash.New (str "key-" ++ str (Nat.repr i))) := by
      rw [List.getElem?_map, List.getElem?_range hi]
      rfl
    refine ⟨hget, decimalValue_repr i, ?_⟩
    intro b
    rw [hget]
    rfl
  · intro fns2 hfns2
    rw [hk] at hfns2
    have e := Except.ok.inj hfns2
    subst e
    exact ⟨rfl, fun _ _ => rfl⟩

/-- C17, amended, for the two hashers of `TestCreateHashFns`. -/
theorem C17_createHashFns_witness :
    16 * 2 ≤ maxAlloc ∧
      (createHashFns ((2 : Nat) : Int)
          = .ok ((List.range 2).map (fun i => Hash.New (keyName i))) ∧
        (∀ fns, createHashFns ((2 : Nat) : Int) = .ok fns →
          fns.length = 2 ∧
          (∀ i : Nat, i < 2 →
            fns[i]? = some (Hash.New (str "key-" ++ str (Nat.repr i))) ∧
            decimalValue (str (Nat.repr i)) = i ∧
            ∀ b : Str, (fns[i]?).map (fun fn => (fn.Write b).Sum)
              = some (hmacSHA256 (str "key-" ++ str (Nat.repr i)) b)) ∧
          ∀ fns2, createHashFns ((2 : Nat) : Int) = .ok fns2 →
            fns2 = fns ∧
            ∀ (i : Nat) (b : Str), (fns[i]?).map (fun fn => (fn.Write b).Sum)
              = (fns2[i]?).map (fun fn => (fn.Write b).Sum)) ∧
        (∀ i j : Nat, keyName i = keyName j → i = j) ∧
        keyName 0 = str "key-0" ∧ keyName 1 = str "key-1") :=
  ⟨by decide, C17_createHashFns 2 (by decide)⟩

/-! ## No run-time failure -/

/-- C16: on every filter whose bit array has length `m > 0`, `Add(s)` and `Check(s)`
end normally (no division by zero, no index out of range), and every index they
use, `h % m`, is below `m`. -/
theorem C16_no_failure (U : Str → Str) (bf : BloomFilter) (s : Str)
    (hm : 0 < bf.Bitset.length) :
    (∃ bf1, bf.Add U s = .ok bf1) ∧ (∃ b bf1, bf.Check U s = .ok (b, bf1)) ∧
      (∀ p : Panic, bf.Add U s ≠ .error p ∧ bf.Check U s ≠ .error p) ∧
      ∀ h : Nat, h % bf.Bitset.length < bf.Bitset.length := by
  have hne : bf.Bitset ≠ [] := List.length_pos.mp hm
  obtain ⟨bf1, h1, _⟩ := Add_total U bf hne s
  obtain ⟨b, bf2, h2, _⟩ := CheckLoop_total (BloomFilter.tokenize U s) bf hm
  have h2c : bf.Check U s = .ok (b, bf2) := h2
  refine ⟨⟨bf1, h1⟩, ⟨b, bf2, h2c⟩, ?_, fun h => Nat.mod_lt _ hm⟩
  intro p
  rw [h1, h2c]
  exact ⟨fun e => Except.noConfusion e, fun e => Except.noConfusion e⟩

/-- C16 on a filter with three bits and a hasher that holds written bytes. -/
theorem C16_no_failure_witness :
    0 < (pending [true, false, true] (str "aku")).Bitset.length ∧
      ((∃ bf1, (pending [true, false, true] (str "aku")).Add id (str "aku mau") = .ok bf1) ∧
        (∃ b bf1, (pending [true, false, true] (str "aku")).Check id (str "aku mau")
          = .ok (b, bf1)) ∧
        (∀ p : Panic, (pending [true, false, true] (str "aku")).Add id (str "aku mau")
            ≠ .error p ∧
          (pending [true, false, true] (str "aku")).Check id (str "aku mau") ≠ .error p) ∧
        ∀ h : Nat, h % (pending [true, false, true] (str "aku")).Bitset.length
          < (pending [true, false, true] (str "aku")).Bitset.length) :=
  ⟨by decide, C16_no_failure id (pending [true, false, true] (str "aku")) (str "aku mau")
    (by decide)⟩

/-! ## Decoding the digest -/

/-- The loop of `ReadUvarint` with `n` iterations left reads at most `n` bytes. -/
theorem ReadUvarintLoop_take (n : Nat) :
    ∀ (i : Nat) (r : Str) (x s : Nat),
      ReadUvarintLoop n i r x s = ReadUvarintLoop n i (r.take n) x s := by
  induction n with
  | zero => intro i r x s; rfl
  | succ n ih =>
    intro i r x s
    cases r with
    | nil => rfl
    | cons b r =>
      simp only [List.take_succ_cons, ReadUvarintLoop]
      rw [ih (i + 1) r]

/-- A first byte below `0x80` is the whole value. -/
theorem ReadUvarint_small (b : UInt8) (rest : Str) (hb : b < 0x80) :
    ReadUvarint (b :: rest) = (b.toNat, none) := by
  have hlt : b.toNat < 256 := b.val.isLt
  have h9 : ¬ ((0 : Nat) = MaxVarintLen64 - 1 ∧ b > 1) := fun h => absurd h.1 (by decide)
  unfold ReadUvarint
  show ReadUvarintLoop (9 + 1) 0 (b :: rest) 0 0 = _
  unfold ReadUvarintLoop
  rw [if_pos hb, if_neg h9]
  simp
  omega

/-- C19: when the digest a hasher gives for a token starts with a byte `b < 0x80`,
the value `hash` returns for that hasher is exactly `b`, so it is below 128 and the
bit position is `b mod m`; in general the value is decoded from the first ten bytes
of the digest only. -/
theorem C19_varint (bf : BloomFilter) (w : Str) (i : Nat) (fn : Hash) (b : UInt8)
    (hfn : bf.HashFns[i]? = some fn) (hd : (fn.Write w).Sum.head? = some b)
    (hb : b < 0x80) :
    (bf.hash w).1[i]? = some b.toNat ∧ b.toNat < 128 ∧
      ((bf.hash w).1[i]?).map (fun h => h % bf.Bitset.length)
        = some (b.toNat % bf.Bitset.length) ∧
      (∀ r : Str, ReadUvarint r = ReadUvarint (r.take 10)) ∧
      (bf.hash w).1
        = bf.HashFns.map (fun g => (ReadUvarint ((g.Write w).Sum.take 10)).1) := by
  have hval : (bf.hash w).1[i]? = some b.toNat := by
    rw [hash_fst, hashLoop_fst, List.getElem?_map, hfn]
    cases hs : (fn.Write w).Sum with
    | nil => rw [hs] at hd; exact Option.noConfusion hd
    | cons c rest =>
      rw [hs] at hd
      have e : c = b := Option.some.inj hd
      subst e
      show some (ReadUvarint (fn.Write w).Sum).1 = some c.toNat
      rw [hs, ReadUvarint_small c rest hb]
  have htake : ∀ r : Str, ReadUvarint r = ReadUvarint (r.take 10) :=
    fun r => ReadUvarintLoop_take 10 0 r 0 0
  refine ⟨hval, ?_, by rw [hval]; rfl, htake, ?_⟩
  · exact hb
  · rw [hash_fst, hashLoop_fst]
    apply List.map_congr_left
    intro g _
    rw [htake]

/-- C19 on the sample filter: the digest of `aku` under `key-0` starts with the
byte 67, and 67 is the value. -/
theorem C19_varint_witness :
    sample.HashFns[0]? = some (Hash.New (keyName 0)) ∧
      (((Hash.New (keyName 0)).Write (str "aku")).Sum.head? = some 67) ∧
      (67 : UInt8) < 0x80 ∧
      ((sample.hash (str "aku")).1[0]? = some (67 : UInt8).toNat ∧
        (67 : UInt8).toNat < 128 ∧
        ((sample.hash (str "aku")).1[0]?).map (fun h => h % sample.Bitset.length)
          = some ((67 : UInt8).toNat % sample.Bitset.length) ∧
        (∀ r : Str, ReadUvarint r = ReadUvarint (r.take 10)) ∧
        (sample.hash (str "aku")).1
          = sample.HashFns.map (fun g => (ReadUvarint ((g.Write (str "aku")).Sum.take 10)).1)) := by
  set_option maxRecDepth 100000 in
  exact ⟨by decide, by decide, by decide,
    C19_varint sample (str "aku") 0 (Hash.New (keyName 0)) 67 (by decide) (by decide)
      (by decide)⟩

/-! ## What `hash` returns -/

/-- C18 as stated fails: on the filter whose hasher has `mandi` written to it,
`hash("tidur")` returns 43, decoded from the digest of `manditidur`, not the 15606
decoded from the digest of `tidur` alone, which is what hashing the same token a
second time returns. -/
theorem C18_pending_counterexample :
    ((pending [false, false] (str "mandi")).hash (str "tidur")).1 = [43] ∧
      (pending [false, false] (str "mandi")).HashFns.map
          (fun fn => (ReadUvarint (hmacSHA256 fn.key (str "tidur"))).1) = [15606] ∧
      (((pending [false, false] (str "mandi")).hash (str "tidur")).2.hash (str "tidur")).1
        = [15606] := by
  set_option maxRecDepth 100000 in
  exact ⟨by decide, by decide, by decide⟩

/-- C18, amended: on every filter with `k` hashers that hold no written bytes,
`hash(w)` returns exactly `k` values in hasher order, the `i`-th being the unsigned
varint decoded from the start of the `i`-th hasher's digest of the bytes of `w`
alone, and leaves the filter as it was; so the result does not depend on the token
hashed before, and hashing the same token twice gives the same values. -/
theorem C18_hash (bf : BloomFilter) (w : Str) (hc : bf.Clean) :
    (bf.hash w).1.length = bf.HashFns.length ∧
      (bf.hash w).1 = bf.HashFns.map (fun fn => (ReadUvarint (hmacSHA256 fn.key w)).1) ∧
      (bf.hash w).2 = bf ∧
      (∀ v : Str, ((bf.hash v).2.hash w).1 = (bf.hash w).1) ∧
      ((bf.hash w).2.hash w).1 = (bf.hash w).1 := by
  have h2 : ∀ v : Str, (bf.hash v).2 = bf := fun v => hash_snd_of_clean bf v hc
  refine ⟨?_, ?_, h2 w, fun v => by rw [h2 v], by rw [h2 w]⟩
  · rw [hash_fst, hashLoop_fst, List.length_map]
  · rw [hash_fst, hashLoop_fst]
    apply List.map_congr_left
    intro fn hfn
    have : fn.written = [] := hc fn hfn
    simp [Hash.Write, Hash.Sum, this]

/-- C18, amended, on the sample filter and the token `aku`. -/
theorem C18_hash_witness :
    sample.Clean ∧
      ((sample.hash (str "aku")).1.length = sample.HashFns.length ∧
        (sample.hash (str "aku")).1
          = sample.HashFns.map (fun fn => (ReadUvarint (hmacSHA256 fn.key (str "aku"))).1) ∧
        (sample.hash (str "aku")).2 = sample ∧
        (∀ v : Str, ((sample.hash v).2.hash (str "aku")).1 = (sample.hash (str "aku")).1) ∧
        ((sample.hash (str "aku")).2.hash (str "aku")).1 = (sample.hash (str "aku")).1) :=
  ⟨by decide, C18_hash sample (str "aku") (by decide)⟩

/-! ## `Check` is read-only -/

/-- On a non-empty bit array the loop of `Check` over at least one word leaves the
bit array as it was and the hashers reset. -/
theorem CheckLoop_cons (bf : BloomFilter) (hm : 0 < bf.Bitset.length) (w : Str)
    (ws : List Str) : ∃ b, CheckLoop bf (w :: ws) = .ok (b, (bf.hash w).2) := by
  obtain ⟨b, hb⟩ := check_total bf hm w
  cases b with
  | false => exact ⟨false, by simp [CheckLoop, hb]⟩
  | true =>
    obtain ⟨b2, h2, _⟩ := CheckLoop_spec (bf.hash w).2 hm (hash_snd_clean bf w) ws
    exact ⟨b2, by simp [CheckLoop, hb, h2]⟩

/-- On a non-empty bit array `Check` ends normally and leaves the filter as the
`hash` of its first token leaves it. -/
theorem Check_total_state (U : Str → Str) (bf : BloomFilter) (s : Str)
    (hm : bf.Bitset ≠ []) : ∃ b w, bf.Check U s = .ok (b, (bf.hash w).2) := by
  cases ht : BloomFilter.tokenize U s with
  | nil => exact absurd ht (Split_ne_nil _)
  | cons w ws =>
    obtain ⟨b, hb⟩ := CheckLoop_cons bf (length_pos_of_ne_nil bf hm) w ws
    refine ⟨b, w, ?_⟩
    unfold BloomFilter.Check
    rw [ht]
    exact hb

/-- C15 as stated fails: on the three-bit filter whose hasher has `mau` written to
it, `Add("makan")` sets bit 2 (the digest of `maumakan` decodes to 68), but after
`Check("x")`, which resets the hasher, `Add("makan")` sets bit 0 (the digest of
`makan` decodes to 36): the later `Add` does not do what it would have done without
the `Check`. -/
theorem C15_pending_counterexample :
    (pending [false, false, false] (str "mau")).Bitset ≠ [] ∧
      (pending [false, false, false] (str "mau")).Check id (str "x")
        = .ok (false, { Bitset := [false, false, false], HashFns := [Hash.New (keyName 0)] }) ∧
      BloomFilter.Add id { Bitset := [false, false, false], HashFns := [Hash.New (keyName 0)] }
          (str "makan")
        = .ok { Bitset := [true, false, false], HashFns := [Hash.New (keyName 0)] } ∧
      (pending [false, false, false] (str "mau")).Add id (str "makan")
        = .ok { Bitset := [false, false, true], HashFns := [Hash.New (keyName 0)] } := by
  set_option maxRecDepth 100000 in
  exact ⟨by decide, by rfl, by rfl, by rfl⟩

/-- C15, amended: on every filter with a non-empty bit array, `Check(s)` ends
normally, leaves the bit array exactly as it was and leaves every hasher reset; when
the hashers held no written bytes before the call, the filter is left exactly as it
was, so every later run of `Add` and `Check` calls does what it would have done
without the `Check`. -/
theorem C15_Check_read_only (U : Str → Str) (bf : BloomFilter) (s : Str)
    (hm : bf.Bitset ≠ []) :
    ∃ b bf1, bf.Check U s = .ok (b, bf1) ∧ bf1.Bitset = bf.Bitset ∧
      bf1.Bitset.length = bf.Bitset.length ∧
      (∀ i : Nat, bf1.Bitset[i]? = bf.Bitset[i]?) ∧
      bf1.HashFns = bf.HashFns.map Hash.Reset ∧ bf1.Clean ∧
      (bf.Clean → bf1 = bf ∧ ∀ ops : List Op, run U bf1 ops = run U bf ops) := by
  have hp := length_pos_of_ne_nil bf hm
  cases ht : BloomFilter.tokenize U s with
  | nil => exact absurd ht (Split_ne_nil _)
  | cons w ws =>
    obtain ⟨b, hb⟩ := CheckLoop_cons bf hp w ws
    refine ⟨b, (bf.hash w).2, ?_, rfl, rfl, fun _ => rfl, hash_HashFns bf w,
      hash_snd_clean bf w, ?_⟩
    · unfold BloomFilter.Check
      rw [ht]
      exact hb
    · intro hc
      rw [hash_snd_of_clean bf w hc]
      exact ⟨rfl, fun _ => rfl⟩

/-- C15, amended, on the sample filter and the sentence `aku mau`. -/
theorem C15_Check_read_only_witness :
    sample.Bitset ≠ [] ∧
      ∃ b bf1, sample.Check id (str "aku mau") = .ok (b, bf1) ∧
        bf1.Bitset = sample.Bitset ∧
        bf1.Bitset.length = sample.Bitset.length ∧
        (∀ i : Nat, bf1.Bitset[i]? = sample.Bitset[i]?) ∧
        bf1.HashFns = sample.HashFns.map Hash.Reset ∧
        bf1.Clean ∧
        (sample.Clean →
          bf1 = sample ∧ ∀ ops : List Op, run id bf1 ops = run id sample ops) :=
  ⟨by decide, C15_Check_read_only id sample (str "aku mau") (by decide)⟩

/-! ## The state `New` builds -/

/-- An error rate strictly between 0 and 1 passes both guards of `New`. -/
theorem guards_false_of_between (e : Float64) (h0 : Float64.lt Float64.zero e = true)
    (h1 : Float64.lt e Float64.one = true) :
    (e.le Float64.zero || e.ge Float64.one) = false := by
  have hn : e.val ≠ Float64.Val.nan := by
    intro hv
    have hz : Float64.zero.val = Float64.Val.fin 0 := by decide
    unfold Float64.lt at h0
    rw [hz, hv] at h0
    exact Bool.noConfusion h0
  have := (guards_iff_of_not_nan e hn).not.mpr (not_not.mpr ⟨h0, h1⟩)
  simpa using this

/-- What `New` does once both guards are passed. -/
theorem New_of_guards (M : Math) (n : Int) (e : Float64) (hn : 0 < n)
    (hg : (e.le Float64.zero || e.ge Float64.one) = false) :
    New M n e =
      match makeBools (findM M n e) with
      | .error p => .error p
      | .ok bits =>
        match createHashFns (findK M e) with
        | .error p => .error p
        | .ok fns => .ok (some { Bitset := bits, HashFns := fns }, none) := by
  unfold New
  rw [if_neg (by omega), hg]
  rfl

/-- A filter that `New` returns after the guards consists of the false bits and the
hashers the two `make` calls give, for lengths that are not negative and fit. -/
theorem New_state (M : Math) (n : Int) (e : Float64) (hn : 0 < n)
    (hg : (e.le Float64.zero || e.ge Float64.one) = false) (bf : BloomFilter)
    (err : Option Error) (hnew : New M n e = .ok (some bf, err)) :
    makePanics 1 (findM M n e) = false ∧ makePanics 16 (findK M e) = false ∧
      bf.Bitset = List.replicate (findM M n e).toNat false ∧
      bf.HashFns = (List.range (findK M e).toNat).map (fun i => Hash.New (keyName i)) ∧
      err = none := by
  rw [New_of_guards M n e hn hg] at hnew
  unfold makeBools createHashFns at hnew
  cases hm : makePanics 1 (findM M n e) with
  | true =>
    rw [hm] at hnew
    exact Except.noConfusion hnew
  | false =>
    cases hk : makePanics 16 (findK M e) with
    | true =>
      rw [hm, hk] at hnew
      exact Except.noConfusion hnew
    | false =>
      rw [hm, hk] at hnew
      have e1 := Except.ok.inj hnew
      simp only [Bool.false_eq_true, if_false, Prod.mk.injEq, Option.some.injEq] at e1
      obtain ⟨e2, e3⟩ := e1
      subst e2
      exact ⟨rfl, rfl, rfl, rfl, e3.symm⟩

/-- Past the guards, with lengths that are not negative and fit, `New` returns the
filter of false bits and fresh hashers. -/
theorem New_returns (M : Math) (n : Int) (e : Float64) (hn : 0 < n)
    (hg : (e.le Float64.zero || e.ge Float64.one) = false)
    (hm : makePanics 1 (findM M n e) = false) (hk : makePanics 16 (findK M e) = false) :
    New M n e = .ok (some
      { Bitset := List.replicate (findM M n e).toNat false,
        HashFns := (List.range (findK M e).toNat).map (fun i => Hash.New (keyName i)) },
      none) := by
  rw [New_of_guards M n e hn hg]
  unfold makeBools createHashFns
  rw [hm, hk]
  rfl

/-- C12: for `n > 0` and `0 < e < 1`, `New(n, e)` returns a filter exactly when the
two lengths `findM(n, e)` and `findK(e)` are not negative and the two slices fit
(otherwise `make` panics), and the filter it returns has a bit array of length
exactly `findM(n, e)` in which every bit is false and the hashers
`createHashFns(findK(e))`, `findK(e)` of them, together with a nil error. -/
theorem C12_initial_state (M : Math) (n : Int) (e : Float64) (hn : 0 < n)
    (h0 : Float64.lt Float64.zero e = true) (h1 : Float64.lt e Float64.one = true) :
    ((∃ bf err, New M n e = .ok (some bf, err)) ↔
        (0 ≤ findM M n e ∧ findM M n e ≤ (maxAlloc : Int) ∧
          0 ≤ findK M e ∧ 16 * findK M e ≤ (maxAlloc : Int))) ∧
      ∀ bf err, New M n e = .ok (some bf, err) →
        (bf.Bitset.length : Int) = findM M n e ∧
        (∀ b ∈ bf.Bitset, b = false) ∧
        bf.Bitset = List.replicate (findM M n e).toNat false ∧
        (bf.HashFns.length : Int) = findK M e ∧
        createHashFns (findK M e) = .ok bf.HashFns ∧
        err = none := by
  have hg := guards_false_of_between e h0 h1
  constructor
  · constructor
    · rintro ⟨bf, err, h⟩
      obtain ⟨k1, k2, _, _, _⟩ := New_state M n e hn hg bf err h
      rw [makePanics_eq_false_iff] at k1 k2
      exact ⟨k1.1, by simpa using k1.2, k2.1, by simpa using k2.2⟩
    · rintro ⟨m0, m1, k0, k1⟩
      have hm : makePanics 1 (findM M n e) = false := by
        rw [makePanics_eq_false_iff]; exact ⟨m0, by simpa using m1⟩
      have hk : makePanics 16 (findK M e) = false := by
        rw [makePanics_eq_false_iff]; exact ⟨k0, by simpa using k1⟩
      exact ⟨_, _, New_returns M n e hn hg hm hk⟩
  · intro bf err h
    obtain ⟨k1, k2, k3, k4, k5⟩ := New_state M n e hn hg bf err h
    have m0 := ((makePanics_eq_false_iff _ _).mp k1).1
    have k0 := ((makePanics_eq_false_iff _ _).mp k2).1
    refine ⟨?_, ?_, k3, ?_, ?_, k5⟩
    · rw [k3, List.length_replicate]; exact Int.toNat_of_nonneg m0
    · intro b hb
      rw [k3] at hb
      exact List.eq_of_mem_replicate hb
    · rw [k4, List.length_map, List.length_range]; exact Int.toNat_of_nonneg k0
    · unfold createHashFns
      rw [k2, k4]
      rfl

/-- C12 on the case of `TestNew`: `New(100, 0.001)`, computed with the float64
operations of Go, returns 1438 false bits and the 10 hashers `key-0` .. `key-9`. -/
theorem C12_initial_state_witness :
    (0 : Int) < 100 ∧
      Float64.lt Float64.zero ⟨0x3F50624DD2F1A9FC⟩ = true ∧
      Float64.lt ⟨0x3F50624DD2F1A9FC⟩ Float64.one = true ∧
      findK goMath ⟨0x3F50624DD2F1A9FC⟩ = 10 ∧
      findM goMath 100 ⟨0x3F50624DD2F1A9FC⟩ = 1438 ∧
      New goMath 100 ⟨0x3F50624DD2F1A9FC⟩ = .ok (some
        { Bitset := List.replicate 1438 false,
          HashFns := (List.range 10).map (fun i => Hash.New (keyName i)) }, none) ∧
      (((∃ bf err, New goMath 100 ⟨0x3F50624DD2F1A9FC⟩ = .ok (some bf, err)) ↔
          (0 ≤ findM goMath 100 ⟨0x3F50624DD2F1A9FC⟩ ∧
            findM goMath 100 ⟨0x3F50624DD2F1A9FC⟩ ≤ (maxAlloc : Int) ∧
            0 ≤ findK goMath ⟨0x3F50624DD2F1A9FC⟩ ∧
            16 * findK goMath ⟨0x3F50624DD2F1A9FC⟩ ≤ (maxAlloc : Int))) ∧
        ∀ bf err, New goMath 100 ⟨0x3F50624DD2F1A9FC⟩ = .ok (some bf, err) →
          (bf.Bitset.length : Int) = findM goMath 100 ⟨0x3F50624DD2F1A9FC⟩ ∧
          (∀ b ∈ bf.Bitset, b = false) ∧
          bf.Bitset = List.replicate (findM goMath 100 ⟨0x3F50624DD2F1A9FC⟩).toNat false ∧
          (bf.HashFns.length : Int) = findK goMath ⟨0x3F50624DD2F1A9FC⟩ ∧
          createHashFns (findK goMath ⟨0x3F50624DD2F1A9FC⟩) = .ok bf.HashFns ∧
          err = none) := by
  set_option maxRecDepth 100000 in
  set_option exponentiation.threshold 20000 in
  exact ⟨by decide, by decide, by decide, by decide, by decide, by rfl,
    C12_initial_state goMath 100 ⟨0x3F50624DD2F1A9FC⟩ (by decide) (by decide) (by decide)⟩

/-! ## The `float64` arithmetic: `findK` and `findM` are at least 1

A finite value is the rational number `Float64.toRat`.  Rounding to nearest keeps the
exact result between any two `float64` values that enclose it, which bounds every
intermediate result of `math.Log` and `math.Log2`. -/

namespace Float64

/-! ### The binary exponent of a quotient -/

/-- The test `pow2Le` decides `2 ^ e ≤ n / d`. -/
theorem pow2Le_iff (e : Int) (n d : Nat) (hd : 0 < d) :
    pow2Le e n d = true ↔ (2 : ℚ) ^ e ≤ (n : ℚ) / d := by
  have hdq : (0 : ℚ) < d := by exact_mod_cast hd
  unfold pow2Le
  by_cases he : 0 ≤ e
  · rw [if_pos he, decide_eq_true_iff, le_div_iff₀ hdq]
    obtain ⟨k, rfl⟩ := Int.eq_ofNat_of_zero_le he
    rw [Int.toNat_natCast, zpow_natCast, mul_comm]
    exact_mod_cast Iff.rfl
  · rw [if_neg he, decide_eq_true_iff]
    have hneg : 0 ≤ -e := by omega
    obtain ⟨k, hk⟩ := Int.eq_ofNat_of_zero_le hneg
    have he2 : e = -(k : Int) := by omega
    rw [hk, Int.toNat_natCast, he2, zpow_neg, zpow_natCast, le_div_iff₀ hdq,
      inv_mul_le_iff₀ (by positivity)]
    rw [mul_comm]
    exact_mod_cast Iff.rfl

/-- The binary search returns an exponent whose power of two is at most the quotient;
the next power is above it unless the search ended at its upper limit. -/
theorem expLoop_spec (n d : Nat) (hd : 0 < d) : ∀ (k : Nat) (lo : Int),
    (2 : ℚ) ^ lo ≤ (n : ℚ) / d →
    (2 : ℚ) ^ (expLoop n d k lo) ≤ (n : ℚ) / d ∧
      ((n : ℚ) / d < (2 : ℚ) ^ (expLoop n d k lo + 1) ∨
        expLoop n d k lo = lo + (2 ^ k : Nat) - 1) := by
  intro k
  induction k with
  | zero =>
    intro lo h
    refine ⟨h, Or.inr ?_⟩
    simp [expLoop]
  | succ k ih =>
    intro lo h
    unfold expLoop
    by_cases hp : pow2Le (lo + (2 ^ k : Nat)) n d = true
    · rw [if_pos hp]
      obtain ⟨h1, h2⟩ := ih (lo + (2 ^ k : Nat)) ((pow2Le_iff _ n d hd).mp hp)
      refine ⟨h1, ?_⟩
      rcases h2 with h2 | h2
      · exact Or.inl h2
      · right
        rw [h2]
        push_cast
        ring
    · rw [if_neg hp]
      obtain ⟨h1, h2⟩ := ih lo h
      refine ⟨h1, ?_⟩
      rcases h2 with h2 | h2
      · exact Or.inl h2
      · left
        have h3 : expLoop n d k lo + 1 = lo + (2 ^ k : Nat) := by omega
        rw [h3]
        by_contra hc
        exact hp ((pow2Le_iff _ n d hd).mpr (not_lt.mp hc))

/-- The binary exponent of a quotient of at least `2 ^ -8192`. -/
theorem ilog2_spec (n d : Nat) (hd : 0 < d) (hlow : (2 : ℚ) ^ (-8192 : Int) ≤ (n : ℚ) / d) :
    (2 : ℚ) ^ (ilog2 n d) ≤ (n : ℚ) / d ∧
      ((n : ℚ) / d < (2 : ℚ) ^ (ilog2 n d + 1) ∨ ilog2 n d = 8191) := by
  obtain ⟨h1, h2⟩ := expLoop_spec n d hd 14 (-8192) hlow
  refine ⟨h1, ?_⟩
  rcases h2 with h2 | h2
  · exact Or.inl h2
  · right
    unfold ilog2
    rw [h2]
    norm_num

/-! ### The nearest integer and the bits that `roundPos` assembles -/

/-- The quotient rounded to the nearest integer, ties to even: it is between the
integers that enclose the quotient and at most one half above the quotient. -/
theorem nearest_spec (n d : Nat) (hd : 0 < d) (m : Nat)
    (hm : m = if 2 * (n % d) < d then n / d
      else if d < 2 * (n % d) then n / d + 1 else n / d + n / d % 2) :
    (∀ z : ℤ, (z : ℚ) ≤ (n : ℚ) / d → z ≤ m) ∧
      (∀ z : ℤ, (n : ℚ) / d ≤ z → (m : ℤ) ≤ z) ∧
      (m : ℚ) ≤ (n : ℚ) / d + 1 / 2 := by
  have hdq : (0 : ℚ) < d := by exact_mod_cast hd
  have hdm := Nat.div_add_mod n d
  have hr := Nat.mod_lt n hd
  have hdz : (0 : ℤ) < d := by exact_mod_cast hd
  have hqm : n / d ≤ m := by
    rw [hm]
    split_ifs <;> omega
  have hmq : m ≤ n / d + 1 := by
    rw [hm]
    split_ifs <;> omega
  have hnz : (n : ℤ) = d * (n / d : Nat) + (n % d : Nat) := by exact_mod_cast hdm.symm
  refine ⟨?_, ?_, ?_⟩
  · intro z hz
    rw [le_div_iff₀ hdq] at hz
    have hz2 : z * d ≤ n := by exact_mod_cast hz
    have h3 : z < (n / d : Nat) + 1 := by
      by_contra hc
      have hc2 : ((n / d : Nat) : ℤ) + 1 ≤ z := not_lt.mp hc
      have h4 : (((n / d : Nat) : ℤ) + 1) * d ≤ z * d :=
        Int.mul_le_mul_of_nonneg_right hc2 (le_of_lt hdz)
      have hr2 : ((n % d : Nat) : ℤ) < d := by exact_mod_cast hr
      nlinarith
    have hqm2 : ((n / d : Nat) : ℤ) ≤ m := by exact_mod_cast hqm
    omega
  · intro z hz
    rw [div_le_iff₀ hdq] at hz
    have hz2 : (n : ℤ) ≤ z * d := by exact_mod_cast hz
    by_cases hr0 : n % d = 0
    · have hm2 : m = n / d := by
        rw [hm, hr0]
        simp [hd]
      rw [hm2]
      have hr1 : ((n % d : Nat) : ℤ) = 0 := by exact_mod_cast hr0
      by_contra hc
      have hc2 : z + 1 ≤ ((n / d : Nat) : ℤ) := by omega
      have h4 : (z + 1) * d ≤ ((n / d : Nat) : ℤ) * d :=
        Int.mul_le_mul_of_nonneg_right hc2 (le_of_lt hdz)
      nlinarith
    · have hrpos : (0 : ℤ) < (n % d : Nat) := by
        have : 0 < n % d := Nat.pos_of_ne_zero hr0
        exact_mod_cast this
      have h3 : ((n / d : Nat) : ℤ) < z := by
        by_contra hc
        have hc2 : z ≤ ((n / d : Nat) : ℤ) := not_lt.mp hc
        have h4 : z * d ≤ ((n / d : Nat) : ℤ) * d :=
          Int.mul_le_mul_of_nonneg_right hc2 (le_of_lt hdz)
        nlinarith
      have hmq2 : (m : ℤ) ≤ (n / d : Nat) + 1 := by exact_mod_cast hmq
      omega
  · have hnq : (n : ℚ) = d * (n / d : Nat) + (n % d : Nat) := by exact_mod_cast hdm.symm
    have hsplit : (n : ℚ) / d = (n / d : Nat) + ((n % d : Nat) : ℚ) / d := by
      have h0 : (n : ℚ) / d = (d * (n / d : Nat) + (n % d : Nat)) / d := by rw [← hnq]
      rw [h0]
      field_simp
      ring
    by_cases h1 : 2 * (n % d) < d
    · have hm2 : m = n / d := by rw [hm, if_pos h1]
      rw [hm2, hsplit]
      have : (0 : ℚ) ≤ ((n % d : Nat) : ℚ) / d := by positivity
      linarith
    · have h2 : (d : ℚ) ≤ 2 * (n % d : Nat) := by exact_mod_cast not_lt.mp h1
      have h3 : (1 : ℚ) / 2 ≤ ((n % d : Nat) : ℚ) / d := by
        rw [le_div_iff₀ hdq]
        linarith
      have hmq2 : (m : ℚ) ≤ (n / d : Nat) + 1 := by exact_mod_cast hmq
      rw [hsplit]
      linarith

/-- The exponent and the significand that `roundPos` computes. -/
theorem roundPos_core (n d : Nat) (hd : 0 < d)
    (hlow : (2 : ℚ) ^ (-8192 : Int) ≤ (n : ℚ) / d) :
    ∃ (e : Int) (m : Nat), -1022 ≤ e ∧
      ((2 : ℚ) ^ e ≤ (n : ℚ) / d ∨ e = -1022) ∧
      ((n : ℚ) / d < (2 : ℚ) ^ (e + 1) ∨ 8191 ≤ e) ∧
      (∀ z : ℤ, (z : ℚ) ≤ (n : ℚ) / d * (2 : ℚ) ^ (52 - e) → z ≤ m) ∧
      (∀ z : ℤ, (n : ℚ) / d * (2 : ℚ) ^ (52 - e) ≤ z → (m : ℤ) ≤ z) ∧
      (m : ℚ) ≤ (n : ℚ) / d * (2 : ℚ) ^ (52 - e) + 1 / 2 ∧
      roundPos n d = if 0x7FF0000000000000 ≤ (e + 1022).toNat * 2 ^ 52 + m
        then 0x7FF0000000000000 else (e + 1022).toNat * 2 ^ 52 + m := by
  obtain ⟨hL1, hL2⟩ := ilog2_spec n d hd hlow
  have hdq : (0 : ℚ) < d := by exact_mod_cast hd
  have he1 : (2 : ℚ) ^ (max (ilog2 n d) (-1022)) ≤ (n : ℚ) / d ∨ max (ilog2 n d) (-1022) = -1022 := by
    by_cases h : -1022 ≤ ilog2 n d
    · left
      rw [max_eq_left h]
      exact hL1
    · right
      exact max_eq_right (by omega)
  have he2 : (n : ℚ) / d < (2 : ℚ) ^ (max (ilog2 n d) (-1022) + 1) ∨
      8191 ≤ max (ilog2 n d) (-1022) := by
    rcases hL2 with h | h
    · left
      refine lt_of_lt_of_le h ?_
      exact zpow_le_zpow_right₀ (by norm_num) (by
        have := le_max_left (ilog2 n d) (-1022)
        omega)
    · right
      rw [h]
      decide
  have key : ∀ (e : Int) (n1 d1 : Nat),
      n1 = (if e ≤ 52 then n * 2 ^ (52 - e).toNat else n) →
      d1 = (if e ≤ 52 then d else d * 2 ^ (e - 52).toNat) →
      0 < d1 ∧ (n1 : ℚ) / d1 = (n : ℚ) / d * (2 : ℚ) ^ (52 - e) := by
    intro e n1 d1 hn1 hd1
    by_cases h : e ≤ 52
    · rw [if_pos h] at hn1 hd1
      subst hn1 hd1
      refine ⟨hd, ?_⟩
      have h2 : (52 - e) = ((52 - e).toNat : Int) := (Int.toNat_of_nonneg (by omega)).symm
      rw [h2, zpow_natCast, Int.toNat_natCast]
      push_cast
      ring
    · rw [if_neg h] at hn1 hd1
      subst hn1 hd1
      refine ⟨Nat.mul_pos hd (by positivity), ?_⟩
      have h2 : (52 - e) = -((e - 52).toNat : Int) := by
        rw [Int.toNat_of_nonneg (by omega)]
        ring
      rw [h2, zpow_neg, zpow_natCast]
      push_cast
      rw [div_mul_eq_div_div]
      exact div_eq_mul_inv _ _
  obtain ⟨hd1, hq⟩ := key (max (ilog2 n d) (-1022)) _ _ rfl rfl
  obtain ⟨m1, m2, m3⟩ := nearest_spec _ _ hd1 _ rfl
  rw [hq] at m1 m2 m3
  exact ⟨max (ilog2 n d) (-1022), _, le_max_right _ _, he1, he2, m1, m2, m3, rfl⟩

/-! ### Decoding bit patterns -/

/-- The magnitude, scaled by `2 ^ 1075`, that the 63 low bits `mag` denote. -/
theorem val_ofSignMag (s : Bool) (mag : Nat) (h : mag < 0x7FF0000000000000) :
    (ofSignMag s mag).val = .fin (if s then
        -((if mag / 2 ^ 52 = 0 then mag % 2 ^ 52 * 2
          else (2 ^ 52 + mag % 2 ^ 52) * 2 ^ (mag / 2 ^ 52) : Nat) : Int)
      else ((if mag / 2 ^ 52 = 0 then mag % 2 ^ 52 * 2
          else (2 ^ 52 + mag % 2 ^ 52) * 2 ^ (mag / 2 ^ 52) : Nat) : Int)) := by
  have hs : (ofSignMag s mag).sign = s := by
    unfold sign ofSignMag
    cases s
    · simp only [Bool.false_eq_true, if_false, decide_eq_false_iff_not]
      norm_num
      omega
    · simp only [if_true, decide_eq_true_eq]
      norm_num
      omega
  have he : (ofSignMag s mag).expo = mag / 2 ^ 52 := by
    unfold expo ofSignMag
    cases s
    · simp only [Bool.false_eq_true, if_false]
      norm_num
      omega
    · simp only [if_true]
      norm_num
      omega
  have hf : (ofSignMag s mag).frac = mag % 2 ^ 52 := by
    unfold frac ofSignMag
    cases s
    · simp only [Bool.false_eq_true, if_false]
      norm_num
    · simp only [if_true]
      norm_num
      omega
  have hne : mag / 2 ^ 52 ≠ 2047 := by
    norm_num
    omega
  unfold val
  rw [he, hf, hs, if_neg hne]

/-- The value of an exponent field and a significand of at most 53 bits; a
significand of `2 ^ 53` carries into the exponent. -/
theorem val_ofSignMag_em (s : Bool) (E m : Nat) (hm : m ≤ 2 ^ 53) (hE : E = 0 ∨ 2 ^ 52 ≤ m)
    (h : E * 2 ^ 52 + m < 0x7FF0000000000000) :
    (ofSignMag s (E * 2 ^ 52 + m)).val =
      .fin (if s then -((m * 2 ^ (E + 1) : Nat) : Int) else ((m * 2 ^ (E + 1) : Nat) : Int)) := by
  rw [val_ofSignMag s _ h]
  have key : (if (E * 2 ^ 52 + m) / 2 ^ 52 = 0 then (E * 2 ^ 52 + m) % 2 ^ 52 * 2
      else (2 ^ 52 + (E * 2 ^ 52 + m) % 2 ^ 52) * 2 ^ ((E * 2 ^ 52 + m) / 2 ^ 52))
      = m * 2 ^ (E + 1) := by
    by_cases h1 : m < 2 ^ 52
    · have hE0 : E = 0 := by
        rcases hE with hE | hE
        · exact hE
        · omega
      subst hE0
      have h2 : (0 * 2 ^ 52 + m) / 2 ^ 52 = 0 := by
        rw [Nat.zero_mul, Nat.zero_add]
        exact Nat.div_eq_of_lt h1
      have h3 : (0 * 2 ^ 52 + m) % 2 ^ 52 = m := by
        rw [Nat.zero_mul, Nat.zero_add]
        exact Nat.mod_eq_of_lt h1
      rw [if_pos h2, h3]
      norm_num
    · by_cases h2 : m < 2 ^ 53
      · have h3 : (E * 2 ^ 52 + m) / 2 ^ 52 = E + 1 := by
          norm_num at h1 h2 ⊢
          omega
        have h4 : (E * 2 ^ 52 + m) % 2 ^ 52 = m - 2 ^ 52 := by
          norm_num at h1 h2 ⊢
          omega
        have h5 : 2 ^ 52 + (m - 2 ^ 52) = m := by omega
        rw [if_neg (by rw [h3]; omega), h3, h4, h5]
      · have hm2 : m = 2 ^ 53 := by omega
        subst hm2
        have h3 : (E * 2 ^ 52 + 2 ^ 53) / 2 ^ 52 = E + 2 := by
          norm_num
          omega
        have h4 : (E * 2 ^ 52 + 2 ^ 53) % 2 ^ 52 = 0 := by
          norm_num
          omega
        rw [if_neg (by rw [h3]; omega), h3, h4]
        rw [Nat.add_zero, pow_succ 2 (E + 1)]
        ring
  rw [key]

/-- The shape of a finite value: a 53-bit significand and an exponent. -/
theorem val_shape (x : Float64) (a : Int) (h : x.val = .fin a) :
    ∃ M X : Nat, a.natAbs = M * 2 ^ X ∧ 1 ≤ X ∧ X ≤ 2046 ∧ M < 2 ^ 53 ∧
      (X = 1 ∨ 2 ^ 52 ≤ M) := by
  unfold val at h
  by_cases he : x.expo = 2047
  · rw [if_pos he] at h
    split_ifs at h
  · rw [if_neg he] at h
    have hlt : x.expo < 2048 := Nat.mod_lt _ (by norm_num)
    have hfr : x.frac < 2 ^ 52 := Nat.mod_lt _ (by norm_num)
    have ha : a.natAbs = (if x.expo = 0 then x.frac * 2 else (2 ^ 52 + x.frac) * 2 ^ x.expo) := by
      have h2 := Val.fin.inj h
      simp only [] at h2
      generalize (if x.expo = 0 then x.frac * 2 else (2 ^ 52 + x.frac) * 2 ^ x.expo) = mag at h2
      split_ifs at h2
      · rw [← h2, Int.natAbs_neg, Int.natAbs_ofNat]
      · rw [← h2, Int.natAbs_ofNat]
    by_cases h0 : x.expo = 0
    · rw [if_pos h0] at ha
      exact ⟨x.frac, 1, by rw [ha]; norm_num, le_refl _, by norm_num, by omega, Or.inl rfl⟩
    · rw [if_neg h0] at ha
      exact ⟨2 ^ 52 + x.frac, x.expo, ha, by omega, by omega, by omega, Or.inr (by omega)⟩

/-- The sign bit of a finite value that is not zero is the sign of the value. -/
theorem sign_of_val (x : Float64) (a : Int) (h : x.val = .fin a) :
    (0 < a → x.sign = false) ∧ (a < 0 → x.sign = true) := by
  unfold val at h
  by_cases he : x.expo = 2047
  · rw [if_pos he] at h
    split_ifs at h
  · rw [if_neg he] at h
    have h2 := Val.fin.inj h
    cases hs : x.sign
    · rw [hs] at h2
      simp only [Bool.false_eq_true, if_false] at h2
      refine ⟨fun _ => rfl, fun h3 => ?_⟩
      rw [← h2] at h3
      exact absurd h3 (by
        have := Int.natCast_nonneg (if x.expo = 0 then x.frac * 2 else (2 ^ 52 + x.frac) * 2 ^ x.expo)
        omega)
    · rw [hs] at h2
      simp only [if_true] at h2
      refine ⟨fun h3 => ?_, fun _ => rfl⟩
      rw [← h2] at h3
      exact absurd h3 (by
        have := Int.natCast_nonneg (if x.expo = 0 then x.frac * 2 else (2 ^ 52 + x.frac) * 2 ^ x.expo)
        omega)

/-! ### The rational value of a rounding -/

/-- The scale is positive. -/
theorem scale_pos : (0 : ℚ) < scale := by
  unfold scale
  positivity

/-- The rational value of a bit pattern that decodes to a finite number. -/
theorem toRat_of_val (x : Float64) (a : Int) (h : x.val = .fin a) :
    x.isFin = true ∧ x.toRat = (a : ℚ) / scale := by
  unfold isFin toRat
  rw [h]
  exact ⟨rfl, rfl⟩

/-- A finite bit pattern decodes to a scaled integer. -/
theorem val_of_isFin (x : Float64) (h : x.isFin = true) :
    ∃ a : Int, x.val = .fin a ∧ x.toRat = (a : ℚ) / scale := by
  unfold isFin at h
  unfold toRat
  cases hv : x.val with
  | nan => rw [hv] at h; simp at h
  | inf b => rw [hv] at h; simp at h
  | fin a => exact ⟨a, rfl, rfl⟩

/-- The magnitude of a finite value times a power of two is an integer as soon as
the power is at least as fine as the spacing of the values around it. -/
theorem val_integral (x : Float64) (a : Int) (h : x.val = .fin a) (e : Int)
    (hge : (2 : ℚ) ^ e ≤ (a.natAbs : ℚ) / scale ∨ e = -1022) :
    ∃ z : Nat, (z : ℚ) = (a.natAbs : ℚ) / scale * (2 : ℚ) ^ (52 - e) := by
  unfold scale at hge ⊢
  obtain ⟨M, X, hMX, hX1, hX2, hM, hsub⟩ := val_shape x a h
  have hk : 0 ≤ (X : Int) - 1023 - e := by
    rcases hge with hge | hge
    · rw [hMX] at hge
      have hMq : (M : ℚ) < 2 ^ 53 := by exact_mod_cast hM
      have h1 : ((M * 2 ^ X : Nat) : ℚ) / 2 ^ 1075 < (2 : ℚ) ^ ((X : Int) - 1022) := by
        rw [div_lt_iff₀ (by positivity)]
        have h2 : (2 : ℚ) ^ ((X : Int) - 1022) * 2 ^ 1075 = 2 ^ 53 * 2 ^ X := by
          rw [← zpow_natCast (2 : ℚ) 1075, ← zpow_natCast (2 : ℚ) 53, ← zpow_natCast (2 : ℚ) X,
            ← zpow_add₀ (by norm_num : (2 : ℚ) ≠ 0), ← zpow_add₀ (by norm_num : (2 : ℚ) ≠ 0)]
          congr 1
          push_cast
          ring
        rw [h2]
        push_cast
        exact mul_lt_mul_of_pos_right hMq (by positivity)
      have h3 := lt_of_le_of_lt hge h1
      have h4 := (zpow_lt_zpow_iff_right₀ (by norm_num : (1 : ℚ) < 2)).mp h3
      omega
    · omega
  obtain ⟨k, hk2⟩ := Int.eq_ofNat_of_zero_le hk
  have hpow : (2 : ℚ) ^ X / 2 ^ 1075 * (2 : ℚ) ^ (52 - e) = 2 ^ k := by
    rw [← zpow_natCast (2 : ℚ) 1075, ← zpow_natCast (2 : ℚ) X, ← zpow_natCast (2 : ℚ) k,
      ← zpow_sub₀ (by norm_num : (2 : ℚ) ≠ 0), ← zpow_add₀ (by norm_num : (2 : ℚ) ≠ 0)]
    congr 1
    push_cast
    omega
  refine ⟨M * 2 ^ k, ?_⟩
  rw [hMX]
  push_cast
  rw [← hpow]
  ring

/-- Every finite value is below `2 ^ 1024`, more exactly at most the largest one. -/
theorem val_le_max (x : Float64) (a : Int) (h : x.val = .fin a) :
    (a.natAbs : ℚ) / scale ≤ (2 ^ 53 - 1) * 2 ^ 971 := by
  unfold scale
  obtain ⟨M, X, hMX, hX1, hX2, hM, hsub⟩ := val_shape x a h
  rw [hMX, div_le_iff₀ (by positivity)]
  have h1 : (M : ℚ) ≤ 2 ^ 53 - 1 := by
    have : M + 1 ≤ 2 ^ 53 := hM
    have h2 : ((M + 1 : Nat) : ℚ) ≤ ((2 ^ 53 : Nat) : ℚ) := by exact_mod_cast this
    push_cast at h2
    linarith
  have h2 : (2 : ℚ) ^ X ≤ 2 ^ 2046 := pow_le_pow_right₀ (by norm_num) hX2
  have h3 : ((2 : ℚ) ^ 53 - 1) * 2 ^ 971 * 2 ^ 1075 = (2 ^ 53 - 1) * 2 ^ 2046 := by
    rw [mul_assoc, ← pow_add]
  rw [h3]
  push_cast
  exact mul_le_mul h1 h2 (by positivity) (by norm_num)

/-- The rational value of the bits that `roundPos` assembles. -/
theorem val_bits (s : Bool) (e : Int) (m : Nat) (he : -1022 ≤ e) (hm : m ≤ 2 ^ 53)
    (hE : e = -1022 ∨ 2 ^ 52 ≤ m)
    (h : (e + 1022).toNat * 2 ^ 52 + m < 0x7FF0000000000000) :
    ∃ c : Nat, (ofSignMag s ((e + 1022).toNat * 2 ^ 52 + m)).val =
        .fin (if s then -(c : Int) else (c : Int)) ∧
      (c : ℚ) / scale = m * (2 : ℚ) ^ (e - 52) := by
  unfold scale
  refine ⟨m * 2 ^ ((e + 1022).toNat + 1), ?_, ?_⟩
  · refine val_ofSignMag_em s _ m hm ?_ h
    rcases hE with hE | hE
    · left
      rw [hE]
      rfl
    · exact Or.inr hE
  · have h1 : (((e + 1022).toNat + 1 : Nat) : Int) = e + 1023 := by
      push_cast
      rw [Int.toNat_of_nonneg (by omega)]
      ring
    push_cast
    rw [mul_div_assoc]
    congr 1
    rw [← zpow_natCast (2 : ℚ) 1075, ← zpow_natCast (2 : ℚ) ((e + 1022).toNat + 1),
      ← zpow_sub₀ (by norm_num : (2 : ℚ) ≠ 0), h1]
    congr 1
    push_cast
    ring

/-- Either `roundPos` overflows to the bits of infinity, or it is the value
`m * 2 ^ (e - 52)` with `m` the integer nearest to the scaled quotient. -/
theorem roundPos_cases (n d : Nat) (hd : 0 < d)
    (hlow : (2 : ℚ) ^ (-8192 : Int) ≤ (n : ℚ) / d) (s : Bool) :
    (roundPos n d = 0x7FF0000000000000 ∧ ((2 : ℚ) ^ 53 - 1 / 2) * 2 ^ 971 ≤ (n : ℚ) / d) ∨
    ∃ (e : Int) (m c : Nat), -1022 ≤ e ∧
      ((2 : ℚ) ^ e ≤ (n : ℚ) / d ∨ e = -1022) ∧
      (n : ℚ) / d < (2 : ℚ) ^ (e + 1) ∧
      (∀ z : ℤ, (z : ℚ) ≤ (n : ℚ) / d * (2 : ℚ) ^ (52 - e) → z ≤ m) ∧
      (∀ z : ℤ, (n : ℚ) / d * (2 : ℚ) ^ (52 - e) ≤ z → (m : ℤ) ≤ z) ∧
      (m : ℚ) ≤ (n : ℚ) / d * (2 : ℚ) ^ (52 - e) + 1 / 2 ∧
      (e = -1022 ∨ 2 ^ 52 ≤ m) ∧
      roundPos n d < 0x7FF0000000000000 ∧
      (ofSignMag s (roundPos n d)).val = .fin (if s then -(c : Int) else (c : Int)) ∧
      (c : ℚ) / scale = m * (2 : ℚ) ^ (e - 52) := by
  obtain ⟨e, m, he, h1, h2, m1, m2, m3, hr⟩ := roundPos_core n d hd hlow
  have hbig : ((2 : ℚ) ^ 53 - 1 / 2) * 2 ^ 971 ≤ (2 : ℚ) ^ (1024 : Int) := by
    rw [show ((1024 : Int)) = ((1024 : Nat) : Int) from rfl, zpow_natCast]
    have h0 : (2 : ℚ) ^ 1024 = 2 ^ 53 * 2 ^ 971 := by rw [← pow_add]
    rw [h0]
    have h1 : (0 : ℚ) < 2 ^ 971 := by positivity
    nlinarith
  by_cases hov : 0x7FF0000000000000 ≤ (e + 1022).toNat * 2 ^ 52 + m
  · left
    refine ⟨by rw [hr, if_pos hov], ?_⟩
    by_cases he3 : 1024 ≤ e
    · have h3 : (2 : ℚ) ^ e ≤ (n : ℚ) / d := by
        rcases h1 with h1 | h1
        · exact h1
        · omega
      exact le_trans hbig (le_trans (zpow_le_zpow_right₀ (by norm_num) he3) h3)
    · have h2b : (n : ℚ) / d < (2 : ℚ) ^ (e + 1) := by
        rcases h2 with h2 | h2
        · exact h2
        · omega
      have hpos : (0 : ℚ) < (2 : ℚ) ^ (52 - e) := by positivity
      have hm : m ≤ 2 ^ 53 := by
        have h3 : (n : ℚ) / d * (2 : ℚ) ^ (52 - e) ≤ ((2 ^ 53 : Nat) : ℤ) := by
          have h4 : (2 : ℚ) ^ (e + 1) * (2 : ℚ) ^ (52 - e) = 2 ^ 53 := by
            rw [← zpow_add₀ (by norm_num : (2 : ℚ) ≠ 0), ← zpow_natCast (2 : ℚ) 53]
            congr 1
            push_cast
            ring
          have h5 : ((((2 ^ 53 : Nat) : ℤ)) : ℚ) = 2 ^ 53 := by norm_num
          rw [h5, ← h4]
          exact le_of_lt (mul_lt_mul_of_pos_right h2b hpos)
        have := m2 _ h3
        exact_mod_cast this
      have he4 : e = 1023 ∧ m = 2 ^ 53 := by
        have h3 : (e + 1022).toNat ≤ 2045 := by omega
        norm_num at hov hm ⊢
        omega
      obtain ⟨he5, hm5⟩ := he4
      subst he5
      have hm6 : (m : ℚ) = 2 ^ 53 := by
        rw [hm5]
        norm_num
      rw [hm6] at m3
      have h6 : (2 : ℚ) ^ (52 - 1023 : Int) = (2 ^ 971)⁻¹ := by
        rw [show ((52 : Int) - 1023) = -((971 : Nat) : Int) from rfl, zpow_neg, zpow_natCast]
      rw [h6] at m3
      have h7 : (0 : ℚ) < 2 ^ 971 := by positivity
      have h8 : (n : ℚ) / d * (2 ^ 971)⁻¹ * 2 ^ 971 = (n : ℚ) / d := by
        rw [mul_assoc, inv_mul_cancel₀ (ne_of_gt h7), mul_one]
      have h9 : ((2 : ℚ) ^ 53 - 1 / 2) ≤ (n : ℚ) / d * (2 ^ 971)⁻¹ := by linarith
      calc ((2 : ℚ) ^ 53 - 1 / 2) * 2 ^ 971 ≤ (n : ℚ) / d * (2 ^ 971)⁻¹ * 2 ^ 971 :=
            mul_le_mul_of_nonneg_right h9 (le_of_lt h7)
        _ = (n : ℚ) / d := h8
  · right
    rw [if_neg hov] at hr
    have hlt : (e + 1022).toNat * 2 ^ 52 + m < 0x7FF0000000000000 := not_le.mp hov
    have he2 : e < 8191 := by
      have h3 : (e + 1022).toNat < 2047 := by
        norm_num at hlt ⊢
        omega
      omega
    have h2b : (n : ℚ) / d < (2 : ℚ) ^ (e + 1) := by
      rcases h2 with h2 | h2
      · exact h2
      · omega
    have hpos : (0 : ℚ) < (2 : ℚ) ^ (52 - e) := by positivity
    have hm : m ≤ 2 ^ 53 := by
      have h3 : (n : ℚ) / d * (2 : ℚ) ^ (52 - e) ≤ ((2 ^ 53 : Nat) : ℤ) := by
        have h4 : (2 : ℚ) ^ (e + 1) * (2 : ℚ) ^ (52 - e) = 2 ^ 53 := by
          rw [← zpow_add₀ (by norm_num : (2 : ℚ) ≠ 0), ← zpow_natCast (2 : ℚ) 53]
          congr 1
          push_cast
          ring
        have h5 : ((((2 ^ 53 : Nat) : ℤ)) : ℚ) = 2 ^ 53 := by norm_num
        rw [h5, ← h4]
        exact le_of_lt (mul_lt_mul_of_pos_right h2b hpos)
      have := m2 _ h3
      exact_mod_cast this
    have hE : e = -1022 ∨ 2 ^ 52 ≤ m := by
      rcases h1 with h1 | h1
      · right
        have h3 : (((2 ^ 52 : Nat) : ℤ) : ℚ) ≤ (n : ℚ) / d * (2 : ℚ) ^ (52 - e) := by
          have h4 : (2 : ℚ) ^ e * (2 : ℚ) ^ (52 - e) = 2 ^ 52 := by
            rw [← zpow_add₀ (by norm_num : (2 : ℚ) ≠ 0), ← zpow_natCast (2 : ℚ) 52]
            congr 1
            push_cast
            ring
          have h5 : ((((2 ^ 52 : Nat) : ℤ)) : ℚ) = 2 ^ 52 := by norm_num
          rw [h5, ← h4]
          exact mul_le_mul_of_nonneg_right h1 (le_of_lt hpos)
        have := m1 _ h3
        exact_mod_cast this
      · exact Or.inl h1
    obtain ⟨c, hc1, hc2⟩ := val_bits s e m he hm hE hlt
    refine ⟨e, m, c, he, h1, h2b, m1, m2, m3, hE, ?_, ?_, hc2⟩
    · rw [hr]
      exact hlt
    · rw [hr]
      exact hc1

/-! ### Rounding is monotone, and exact on `float64` values -/

/-- Scaling by `2 ^ (52 - e)` and back. -/
theorem zpow_two_cancel (e : Int) : (2 : ℚ) ^ (52 - e) * (2 : ℚ) ^ (e - 52) = 1 := by
  rw [← zpow_add₀ (by norm_num : (2 : ℚ) ≠ 0)]
  have : 52 - e + (e - 52) = 0 := by ring
  rw [this, zpow_zero]

/-- A number of exponent `e` scaled by `2 ^ (52 - e)` has exponent 52. -/
theorem zpow_two_scale (e : Int) : (2 : ℚ) ^ e * (2 : ℚ) ^ (52 - e) = 2 ^ 52 := by
  rw [← zpow_add₀ (by norm_num : (2 : ℚ) ≠ 0), ← zpow_natCast (2 : ℚ) 52]
  congr 1
  push_cast
  ring

/-- Rounding is below every finite value that is above the quotient, and within
one part in `2 ^ 53` above the quotient when that is in the normal range. -/
theorem roundPos_le (n d : Nat) (hd : 0 < d)
    (hlow : (2 : ℚ) ^ (-8192 : Int) ≤ (n : ℚ) / d)
    (F : Float64) (aF : Int) (hF : F.val = .fin aF)
    (hq : (n : ℚ) / d ≤ (aF.natAbs : ℚ) / scale) (s : Bool) :
    ∃ c : Nat, (ofSignMag s (roundPos n d)).val = .fin (if s then -(c : Int) else (c : Int)) ∧
      (c : ℚ) / scale ≤ (aF.natAbs : ℚ) / scale ∧
      ((2 : ℚ) ^ (-1022 : Int) ≤ (n : ℚ) / d →
        (c : ℚ) / scale ≤ (n : ℚ) / d * (1 + 1 / 2 ^ 53)) := by
  have hmax := val_le_max F aF hF
  rcases roundPos_cases n d hd hlow s with ⟨_, hov⟩ | ⟨e, m, c, he, h1, h2, m1, m2, m3, hE, hlt, hv, hc⟩
  · exfalso
    have h7 : (0 : ℚ) < 2 ^ 971 := by positivity
    have h8 : ((2 : ℚ) ^ 53 - 1) * 2 ^ 971 < ((2 : ℚ) ^ 53 - 1 / 2) * 2 ^ 971 := by nlinarith
    linarith
  · have hpos : (0 : ℚ) < (2 : ℚ) ^ (52 - e) := by positivity
    have hpos2 : (0 : ℚ) < (2 : ℚ) ^ (e - 52) := by positivity
    have hge : (2 : ℚ) ^ e ≤ (aF.natAbs : ℚ) / scale ∨ e = -1022 := by
      rcases h1 with h1 | h1
      · exact Or.inl (le_trans h1 hq)
      · exact Or.inr h1
    obtain ⟨z, hz⟩ := val_integral F aF hF e hge
    have hQz : (n : ℚ) / d * (2 : ℚ) ^ (52 - e) ≤ ((z : ℤ) : ℚ) := by
      push_cast
      rw [hz]
      exact mul_le_mul_of_nonneg_right hq (le_of_lt hpos)
    have hmz : (m : ℚ) ≤ z := by
      have := m2 _ hQz
      exact_mod_cast this
    refine ⟨c, hv, ?_, ?_⟩
    · rw [hc]
      calc (m : ℚ) * (2 : ℚ) ^ (e - 52) ≤ z * (2 : ℚ) ^ (e - 52) :=
            mul_le_mul_of_nonneg_right hmz (le_of_lt hpos2)
        _ = (aF.natAbs : ℚ) / scale := by
            rw [hz, mul_assoc, zpow_two_cancel, mul_one]
    · intro hnorm
      have h2e : (2 : ℚ) ^ e ≤ (n : ℚ) / d := by
        rcases h1 with h1 | h1
        · exact h1
        · rw [h1]
          exact hnorm
      have hQ : (2 : ℚ) ^ 52 ≤ (n : ℚ) / d * (2 : ℚ) ^ (52 - e) := by
        rw [← zpow_two_scale e]
        exact mul_le_mul_of_nonneg_right h2e (le_of_lt hpos)
      have hm4 : (m : ℚ) ≤ (n : ℚ) / d * (2 : ℚ) ^ (52 - e) * (1 + 1 / 2 ^ 53) := by
        have h53 : (n : ℚ) / d * (2 : ℚ) ^ (52 - e) * (1 / 2 ^ 53) ≥ 1 / 2 := by
          have : (2 : ℚ) ^ 52 * (1 / 2 ^ 53) = 1 / 2 := by norm_num
          rw [ge_iff_le, ← this]
          exact mul_le_mul_of_nonneg_right hQ (by positivity)
        linarith
      rw [hc]
      calc (m : ℚ) * (2 : ℚ) ^ (e - 52)
          ≤ (n : ℚ) / d * (2 : ℚ) ^ (52 - e) * (1 + 1 / 2 ^ 53) * (2 : ℚ) ^ (e - 52) :=
            mul_le_mul_of_nonneg_right hm4 (le_of_lt hpos2)
        _ = (n : ℚ) / d * (1 + 1 / 2 ^ 53) * ((2 : ℚ) ^ (52 - e) * (2 : ℚ) ^ (e - 52)) := by ring
        _ = (n : ℚ) / d * (1 + 1 / 2 ^ 53) := by rw [zpow_two_cancel, mul_one]

/-- Rounding is above every finite value that is below the quotient, unless it
overflows. -/
theorem roundPos_ge (n d : Nat) (hd : 0 < d)
    (hlow : (2 : ℚ) ^ (-8192 : Int) ≤ (n : ℚ) / d)
    (F : Float64) (aF : Int) (hF : F.val = .fin aF)
    (hq : (aF.natAbs : ℚ) / scale ≤ (n : ℚ) / d) (s : Bool) :
    roundPos n d = 0x7FF0000000000000 ∨
    ∃ c : Nat, (ofSignMag s (roundPos n d)).val = .fin (if s then -(c : Int) else (c : Int)) ∧
      (aF.natAbs : ℚ) / scale ≤ (c : ℚ) / scale := by
  rcases roundPos_cases n d hd hlow s with ⟨hov, _⟩ | ⟨e, m, c, he, h1, h2, m1, m2, m3, hE, hlt, hv, hc⟩
  · exact Or.inl hov
  · right
    have hpos : (0 : ℚ) < (2 : ℚ) ^ (52 - e) := by positivity
    have hpos2 : (0 : ℚ) < (2 : ℚ) ^ (e - 52) := by positivity
    refine ⟨c, hv, ?_⟩
    rw [hc]
    by_cases hge : (2 : ℚ) ^ e ≤ (aF.natAbs : ℚ) / scale ∨ e = -1022
    · obtain ⟨z, hz⟩ := val_integral F aF hF e hge
      have hQz : (((z : ℤ)) : ℚ) ≤ (n : ℚ) / d * (2 : ℚ) ^ (52 - e) := by
        push_cast
        rw [hz]
        exact mul_le_mul_of_nonneg_right hq (le_of_lt hpos)
      have hzm : (z : ℚ) ≤ m := by
        have := m1 _ hQz
        exact_mod_cast this
      calc (aF.natAbs : ℚ) / scale = z * (2 : ℚ) ^ (e - 52) := by
            rw [hz, mul_assoc, zpow_two_cancel, mul_one]
        _ ≤ (m : ℚ) * (2 : ℚ) ^ (e - 52) := mul_le_mul_of_nonneg_right hzm (le_of_lt hpos2)
    · rw [not_or] at hge
      obtain ⟨hg1, hg2⟩ := hge
      have hm52 : (2 : ℚ) ^ 52 ≤ m := by
        rcases hE with hE | hE
        · exact absurd hE hg2
        · exact_mod_cast hE
      have h3 : (2 : ℚ) ^ e ≤ (m : ℚ) * (2 : ℚ) ^ (e - 52) := by
        have h4 : (2 : ℚ) ^ 52 * (2 : ℚ) ^ (e - 52) = 2 ^ e := by
          rw [← zpow_natCast (2 : ℚ) 52, ← zpow_add₀ (by norm_num : (2 : ℚ) ≠ 0)]
          congr 1
          push_cast
          ring
        rw [← h4]
        exact mul_le_mul_of_nonneg_right hm52 (le_of_lt hpos2)
      exact le_of_lt (lt_of_lt_of_le (not_le.mp hg1) h3)

/-- A quotient that is itself a finite `float64` value is rounded to itself. -/
theorem roundPos_exact (n d : Nat) (hd : 0 < d)
    (hlow : (2 : ℚ) ^ (-8192 : Int) ≤ (n : ℚ) / d)
    (F : Float64) (aF : Int) (hF : F.val = .fin aF)
    (hq : (n : ℚ) / d ≤ (aF.natAbs : ℚ) / scale)
    (E : Int) (hE1 : -1022 ≤ E) (h1E : (2 : ℚ) ^ E ≤ (n : ℚ) / d ∨ E = -1022)
    (h2E : (n : ℚ) / d < (2 : ℚ) ^ (E + 1))
    (z : Nat) (hz : (z : ℚ) = (n : ℚ) / d * (2 : ℚ) ^ (52 - E)) (s : Bool) :
    ∃ c : Nat, (ofSignMag s (roundPos n d)).val = .fin (if s then -(c : Int) else (c : Int)) ∧
      (c : ℚ) / scale = (n : ℚ) / d := by
  have hmax := val_le_max F aF hF
  rcases roundPos_cases n d hd hlow s with ⟨_, hov⟩ | ⟨e, m, c, he, h1, h2, m1, m2, m3, hE, hlt, hv, hc⟩
  · exfalso
    have h7 : (0 : ℚ) < 2 ^ 971 := by positivity
    have h8 : ((2 : ℚ) ^ 53 - 1) * 2 ^ 971 < ((2 : ℚ) ^ 53 - 1 / 2) * 2 ^ 971 := by nlinarith
    linarith
  · have heE : e = E := by
      have hle1 : e ≤ E := by
        rcases h1 with h1 | h1
        · have := (zpow_lt_zpow_iff_right₀ (by norm_num : (1 : ℚ) < 2)).mp (lt_of_le_of_lt h1 h2E)
          omega
        · omega
      have hle2 : E ≤ e := by
        rcases h1E with h1E | h1E
        · have := (zpow_lt_zpow_iff_right₀ (by norm_num : (1 : ℚ) < 2)).mp (lt_of_le_of_lt h1E h2)
          omega
        · omega
      omega
    subst heE
    have hmz : m = z := by
      have ha : ((z : ℤ) : ℚ) ≤ (n : ℚ) / d * (2 : ℚ) ^ (52 - e) := by
        push_cast
        rw [hz]
      have hb : (n : ℚ) / d * (2 : ℚ) ^ (52 - e) ≤ ((z : ℤ) : ℚ) := by
        push_cast
        rw [hz]
      have h3 := m1 _ ha
      have h4 := m2 _ hb
      omega
    refine ⟨c, hv, ?_⟩
    rw [hc, hmz, hz, mul_assoc, zpow_two_cancel, mul_one]

/-! ### Rounding with a sign -/

/-- Both zeros denote 0. -/
theorem val_ofSignMag_zero (s : Bool) : (ofSignMag s 0).val = .fin 0 := by
  cases s <;> decide

/-- The bits of an infinity. -/
theorem val_ofSignMag_inf (s : Bool) : (ofSignMag s 0x7FF0000000000000).val = .inf s := by
  cases s <;> decide

/-- The magnitude of a non-negative integer, as a rational number. -/
theorem natAbs_cast_of_nonneg (a : Int) (h : 0 ≤ a) : ((a.natAbs : ℚ)) = (a : ℚ) := by
  have h1 : ((a.natAbs : Int)) = a := Int.natAbs_of_nonneg h
  have h2 : (((a.natAbs : Int)) : ℚ) = (a : ℚ) := by rw [h1]
  exact h2

/-- The magnitude of a non-positive integer, as a rational number. -/
theorem natAbs_cast_of_nonpos (a : Int) (h : a ≤ 0) : ((a.natAbs : ℚ)) = -(a : ℚ) := by
  have h1 : ((a.natAbs : Int)) = -a := by omega
  have h2 : (((a.natAbs : Int)) : ℚ) = ((-a : Int) : ℚ) := by rw [h1]
  rw [Int.cast_neg] at h2
  exact h2

/-- The sign bit of a finite value times its magnitude is the value. -/
theorem sign_mul_natAbs (x : Float64) (a : Int) (h : x.val = .fin a) :
    (if x.sign then (-1 : ℚ) else 1) * (a.natAbs : ℚ) = a := by
  obtain ⟨h1, h2⟩ := sign_of_val x a h
  rcases lt_trichotomy a 0 with ha | ha | ha
  · rw [h2 ha, if_pos rfl, natAbs_cast_of_nonpos a (le_of_lt ha)]
    ring
  · subst ha
    simp
  · rw [h1 ha, natAbs_cast_of_nonneg a (le_of_lt ha)]
    simp

/-- Rounding stays between any two finite values that enclose the exact result. -/
theorem round_bounds (s : Bool) (n d : Nat) (hd : 0 < d)
    (hlow : 0 < n → (2 : ℚ) ^ (-8192 : Int) ≤ (n : ℚ) / d)
    (FL FU : Float64) (hL : FL.isFin = true) (hU : FU.isFin = true)
    (h1 : FL.toRat ≤ (if s then (-1 : ℚ) else 1) * ((n : ℚ) / d))
    (h2 : (if s then (-1 : ℚ) else 1) * ((n : ℚ) / d) ≤ FU.toRat) :
    (round s n d).isFin = true ∧ FL.toRat ≤ (round s n d).toRat ∧
      (round s n d).toRat ≤ FU.toRat := by
  obtain ⟨aL, hvL, hrL⟩ := val_of_isFin FL hL
  obtain ⟨aU, hvU, hrU⟩ := val_of_isFin FU hU
  have hp : (0 : ℚ) < scale := scale_pos
  unfold round
  by_cases hn0 : n = 0
  · rw [if_pos hn0]
    obtain ⟨k1, k2⟩ := toRat_of_val _ _ (val_ofSignMag_zero s)
    rw [hn0] at h1 h2
    refine ⟨k1, ?_, ?_⟩
    · rw [k2]
      simpa using h1
    · rw [k2]
      simpa using h2
  · rw [if_neg hn0]
    have hn : 0 < n := Nat.pos_of_ne_zero hn0
    have hlow2 := hlow hn
    have hq : (0 : ℚ) < (n : ℚ) / d := by positivity
    cases s
    · simp only [Bool.false_eq_true, if_false, one_mul] at h1 h2 ⊢
      rw [hrU] at h2
      have haU : 0 < aU := by
        have h3 : (0 : ℚ) < (aU : ℚ) / scale := lt_of_lt_of_le hq h2
        have h4 : (0 : ℚ) < aU := by
          by_contra hc
          have : (aU : ℚ) / scale ≤ 0 := div_nonpos_of_nonpos_of_nonneg (not_lt.mp hc) (le_of_lt hp)
          linarith
        exact_mod_cast h4
      rw [← natAbs_cast_of_nonneg aU (le_of_lt haU)] at h2
      obtain ⟨c, hc1, hc2, _⟩ := roundPos_le n d hd hlow2 FU aU hvU h2 false
      simp only [Bool.false_eq_true, if_false] at hc1
      obtain ⟨k1, k2⟩ := toRat_of_val _ _ hc1
      refine ⟨k1, ?_, ?_⟩
      · rw [k2, hrL]
        by_cases haL : aL ≤ 0
        · have h3 : (aL : ℚ) / scale ≤ 0 :=
            div_nonpos_of_nonpos_of_nonneg (by exact_mod_cast haL) (le_of_lt hp)
          have h4 : (0 : ℚ) ≤ ((c : Int) : ℚ) / scale :=
            div_nonneg (Int.cast_nonneg.mpr (Int.natCast_nonneg c)) (le_of_lt hp)
          linarith
        · have haL2 : 0 ≤ aL := by omega
          rw [hrL, ← natAbs_cast_of_nonneg aL haL2] at h1
          rcases roundPos_ge n d hd hlow2 FL aL hvL h1 false with hov | ⟨c2, hd1, hd2⟩
          · rw [hov, val_ofSignMag_inf] at hc1
            exact absurd hc1 (by simp)
          · simp only [Bool.false_eq_true, if_false] at hd1
            rw [hd1] at hc1
            have h5 : (c2 : Int) = c := Val.fin.inj hc1
            have h6 : c2 = c := by exact_mod_cast h5
            rw [h6, natAbs_cast_of_nonneg aL haL2] at hd2
            exact_mod_cast hd2
      · rw [k2, hrU, ← natAbs_cast_of_nonneg aU (le_of_lt haU)]
        exact_mod_cast hc2
    · simp only [if_true, neg_mul, one_mul] at h1 h2 ⊢
      rw [hrL] at h1
      have haL : aL < 0 := by
        have h3 : (aL : ℚ) / scale < 0 := by linarith
        have h4 : (aL : ℚ) < 0 := by
          by_contra hc
          have : (0 : ℚ) ≤ (aL : ℚ) / scale := div_nonneg (not_lt.mp hc) (le_of_lt hp)
          linarith
        exact_mod_cast h4
      have h1b : (n : ℚ) / d ≤ (aL.natAbs : ℚ) / scale := by
        rw [natAbs_cast_of_nonpos aL (le_of_lt haL), neg_div]
        linarith
      obtain ⟨c, hc1, hc2, _⟩ := roundPos_le n d hd hlow2 FL aL hvL h1b true
      simp only [if_true] at hc1
      obtain ⟨k1, k2⟩ := toRat_of_val _ _ hc1
      refine ⟨k1, ?_, ?_⟩
      · rw [k2, hrL]
        rw [natAbs_cast_of_nonpos aL (le_of_lt haL), neg_div] at hc2
        push_cast
        rw [neg_div]
        linarith
      · rw [k2, hrU]
        by_cases haU : 0 ≤ aU
        · have h3 : (0 : ℚ) ≤ (aU : ℚ) / scale := div_nonneg (by exact_mod_cast haU) (le_of_lt hp)
          have h4 : (0 : ℚ) ≤ ((c : ℚ)) / scale := div_nonneg (Nat.cast_nonneg c) (le_of_lt hp)
          push_cast
          rw [neg_div]
          linarith
        · have haU2 : aU ≤ 0 := by omega
          rw [hrU] at h2
          have h2b : (aU.natAbs : ℚ) / scale ≤ (n : ℚ) / d := by
            rw [natAbs_cast_of_nonpos aU haU2, neg_div]
            linarith
          rcases roundPos_ge n d hd hlow2 FU aU hvU h2b true with hov | ⟨c2, hd1, hd2⟩
          · rw [hov, val_ofSignMag_inf] at hc1
            exact absurd hc1 (by simp)
          · simp only [if_true] at hd1
            rw [hd1] at hc1
            have h5 : -(c2 : Int) = -(c : Int) := Val.fin.inj hc1
            have h6 : c2 = c := by omega
            rw [h6, natAbs_cast_of_nonpos aU haU2, neg_div] at hd2
            push_cast
            rw [neg_div]
            linarith

/-- Rounding a positive quotient gives at least any finite value below it, or
positive infinity. -/
theorem round_ge (n d : Nat) (hn : 0 < n) (hd : 0 < d)
    (hlow : (2 : ℚ) ^ (-8192 : Int) ≤ (n : ℚ) / d)
    (F : Float64) (hF : F.isFin = true) (h0 : 0 ≤ F.toRat) (hq : F.toRat ≤ (n : ℚ) / d) :
    (round false n d).val = .inf false ∨
      ((round false n d).isFin = true ∧ F.toRat ≤ (round false n d).toRat) := by
  obtain ⟨a, hv, hr⟩ := val_of_isFin F hF
  have hp : (0 : ℚ) < scale := scale_pos
  have ha : 0 ≤ a := by
    rw [hr] at h0
    have h4 : (0 : ℚ) ≤ a := by
      by_contra hc
      have : (a : ℚ) / scale < 0 := div_neg_of_neg_of_pos (not_le.mp hc) hp
      linarith
    exact_mod_cast h4
  unfold round
  rw [if_neg (by omega)]
  rw [hr, ← natAbs_cast_of_nonneg a ha] at hq
  rcases roundPos_ge n d hd hlow F a hv hq false with hov | ⟨c, hc1, hc2⟩
  · left
    rw [hov, val_ofSignMag_inf]
  · right
    simp only [Bool.false_eq_true, if_false] at hc1
    obtain ⟨k1, k2⟩ := toRat_of_val _ _ hc1
    refine ⟨k1, ?_⟩
    rw [k2, hr, ← natAbs_cast_of_nonneg a ha]
    exact_mod_cast hc2

/-- Rounding a positive quotient of the normal range adds at most one part in
`2 ^ 53`. -/
theorem round_rel (n d : Nat) (hn : 0 < n) (hd : 0 < d)
    (hlow : (2 : ℚ) ^ (-1022 : Int) ≤ (n : ℚ) / d)
    (FU : Float64) (hU : FU.isFin = true) (hq : (n : ℚ) / d ≤ FU.toRat) :
    (round false n d).toRat ≤ (n : ℚ) / d * (1 + 1 / 2 ^ 53) := by
  obtain ⟨aU, hvU, hrU⟩ := val_of_isFin FU hU
  have hp : (0 : ℚ) < scale := scale_pos
  have hq0 : (0 : ℚ) < (n : ℚ) / d := by positivity
  rw [hrU] at hq
  have haU : 0 < aU := by
    have h3 : (0 : ℚ) < (aU : ℚ) / scale := lt_of_lt_of_le hq0 hq
    have h4 : (0 : ℚ) < aU := by
      by_contra hc
      have : (aU : ℚ) / scale ≤ 0 := div_nonpos_of_nonpos_of_nonneg (not_lt.mp hc) (le_of_lt hp)
      linarith
    exact_mod_cast h4
  rw [← natAbs_cast_of_nonneg aU (le_of_lt haU)] at hq
  have hlow2 : (2 : ℚ) ^ (-8192 : Int) ≤ (n : ℚ) / d :=
    le_trans (zpow_le_zpow_right₀ (by norm_num) (by norm_num)) hlow
  obtain ⟨c, hc1, _, hc3⟩ := roundPos_le n d hd hlow2 FU aU hvU hq false
  simp only [Bool.false_eq_true, if_false] at hc1
  unfold round
  rw [if_neg (by omega)]
  obtain ⟨k1, k2⟩ := toRat_of_val _ _ hc1
  rw [k2]
  exact_mod_cast hc3 hlow

/-! ### The operations as roundings -/

/-- The scale as a natural number. -/
theorem scale_cast : (((2 ^ 1075 : Nat)) : ℚ) = scale := by
  unfold scale
  rw [Nat.cast_pow, Nat.cast_ofNat]

/-- The square of the scale as a natural number. -/
theorem scale_sq_cast : (((2 ^ 2150 : Nat)) : ℚ) = scale * scale := by
  unfold scale
  rw [Nat.cast_pow, ← pow_add, Nat.cast_ofNat]

/-- The scale is within the range of the exponent search. -/
theorem scale_le : scale ≤ (2 : ℚ) ^ (8192 : Int) := by
  unfold scale
  rw [show ((8192 : Int)) = ((8192 : Nat) : Int) from rfl, zpow_natCast]
  exact pow_le_pow_right₀ (by norm_num) (by norm_num)

/-- The square of the scale is within the range of the exponent search. -/
theorem scale_sq_le : scale * scale ≤ (2 : ℚ) ^ (8192 : Int) := by
  unfold scale
  rw [show ((8192 : Int)) = ((8192 : Nat) : Int) from rfl, zpow_natCast, ← pow_add]
  exact pow_le_pow_right₀ (by norm_num) (by norm_num)

/-- A quotient of a positive integer by at most `2 ^ 8192` is in the range of the
exponent search. -/
theorem low_of_pos (n : Nat) (D : ℚ) (hn : 0 < n) (hD : 0 < D) (hD2 : D ≤ (2 : ℚ) ^ (8192 : Int)) :
    (2 : ℚ) ^ (-8192 : Int) ≤ (n : ℚ) / D := by
  rw [le_div_iff₀ hD]
  have h1 : (1 : ℚ) ≤ n := by exact_mod_cast hn
  have h2 : (2 : ℚ) ^ (-8192 : Int) * (2 : ℚ) ^ (8192 : Int) = 1 := by
    rw [← zpow_add₀ (by norm_num : (2 : ℚ) ≠ 0)]
    norm_num
  have h3 : (0 : ℚ) < (2 : ℚ) ^ (-8192 : Int) := by positivity
  calc (2 : ℚ) ^ (-8192 : Int) * D ≤ (2 : ℚ) ^ (-8192 : Int) * (2 : ℚ) ^ (8192 : Int) :=
        mul_le_mul_of_nonneg_left hD2 (le_of_lt h3)
    _ = 1 := h2
    _ ≤ n := h1

/-- The sign of a product or quotient is the product of the signs. -/
theorem sign_factor_xor (s1 s2 : Bool) :
    (if (s1 != s2) = true then (-1 : ℚ) else 1)
      = (if s1 = true then (-1 : ℚ) else 1) * (if s2 = true then (-1 : ℚ) else 1) := by
  cases s1 <;> cases s2 <;> simp

/-- A sign squared is 1. -/
theorem sign_factor_sq (s : Bool) :
    (if s = true then (-1 : ℚ) else 1) * (if s = true then (-1 : ℚ) else 1) = 1 := by
  cases s <;> simp

/-- An integer is its sign times its magnitude. -/
theorem sign_factor_decide (a : Int) :
    (if decide (a < 0) = true then (-1 : ℚ) else 1) * (a.natAbs : ℚ) = a := by
  by_cases h : a < 0
  · rw [decide_eq_true h, if_pos rfl, natAbs_cast_of_nonpos a (le_of_lt h)]
    ring
  · rw [decide_eq_false h, natAbs_cast_of_nonneg a (not_lt.mp h)]
    simp

/-- The product of two finite values is the rounded exact product. -/
theorem mul_eq_round (x y : Float64) (a b : Int) (hx : x.val = .fin a) (hy : y.val = .fin b) :
    mul x y = round (x.sign != y.sign) (a.natAbs * b.natAbs) (2 ^ 2150) := by
  unfold mul
  rw [hx, hy]

/-- The quotient of two finite values, the divisor not zero, is the rounded exact
quotient. -/
theorem div_eq_round (x y : Float64) (a b : Int) (hx : x.val = .fin a) (hy : y.val = .fin b)
    (hb : b ≠ 0) : div x y = round (x.sign != y.sign) a.natAbs b.natAbs := by
  unfold div
  rw [hx, hy]
  simp only [if_neg hb]

/-- The sum of two finite values, when it is not zero, is the rounded exact sum. -/
theorem add_eq_round (x y : Float64) (a b : Int) (hx : x.val = .fin a) (hy : y.val = .fin b)
    (hab : a + b ≠ 0) : add x y = round (decide (a + b < 0)) (a + b).natAbs (2 ^ 1075) := by
  unfold add
  rw [hx, hy]
  simp only [if_neg hab]

/-- The sum of two finite values that cancel is a zero. -/
theorem add_eq_zero (x y : Float64) (a b : Int) (hx : x.val = .fin a) (hy : y.val = .fin b)
    (hab : a + b = 0) : add x y = ofSignMag (x.sign && y.sign) 0 := by
  unfold add
  rw [hx, hy]
  simp only [if_pos hab]

/-- The value of the product of two finite values, before rounding. -/
theorem mul_exact (x y : Float64) (a b : Int) (hx : x.val = .fin a) (hy : y.val = .fin b) :
    (if (x.sign != y.sign) = true then (-1 : ℚ) else 1)
        * ((((a.natAbs * b.natAbs : Nat)) : ℚ) / ((2 ^ 2150 : Nat) : ℚ))
      = ((a : ℚ) / scale) * ((b : ℚ) / scale) := by
  rw [sign_factor_xor, scale_sq_cast, ← sign_mul_natAbs x a hx, ← sign_mul_natAbs y b hy]
  push_cast
  have hp := scale_pos
  field_simp

/-- The value of the quotient of two finite values, before rounding. -/
theorem div_exact (x y : Float64) (a b : Int) (hx : x.val = .fin a) (hy : y.val = .fin b)
    (hb : b ≠ 0) :
    (if (x.sign != y.sign) = true then (-1 : ℚ) else 1) * ((a.natAbs : ℚ) / (b.natAbs : ℚ))
      = ((a : ℚ) / scale) / ((b : ℚ) / scale) := by
  have hp := scale_pos
  have hbq : (b : ℚ) ≠ 0 := by exact_mod_cast hb
  have hnb : (b.natAbs : ℚ) ≠ 0 := by
    have : b.natAbs ≠ 0 := Int.natAbs_ne_zero.mpr hb
    exact_mod_cast this
  have h1 := sign_mul_natAbs x a hx
  have h2 := sign_mul_natAbs y b hy
  have h3 := sign_factor_sq y.sign
  rw [sign_factor_xor]
  have h4 : ((a : ℚ) / scale) / ((b : ℚ) / scale) = (a : ℚ) / b := by
    field_simp
  rw [h4, ← h1, ← h2]
  generalize (if x.sign = true then (-1 : ℚ) else 1) = sx at *
  generalize (if y.sign = true then (-1 : ℚ) else 1) = sy at *
  have hsy : sy ≠ 0 := by
    intro h0
    rw [h0] at h3
    norm_num at h3
  field_simp
  have : sx * sy * ↑a.natAbs * (sy * ↑b.natAbs) = sx * ↑a.natAbs * ↑b.natAbs * (sy * sy) := by ring
  rw [this, h3]
  ring

/-! ### Negation, `Abs` and the enclosures of the operations -/

/-- The three fields of a sign bit put in front of 63 low bits. -/
theorem ofSignMag_fields (s : Bool) (mag : Nat) (h : mag < 2 ^ 63) :
    (ofSignMag s mag).sign = s ∧ (ofSignMag s mag).expo = mag / 2 ^ 52 % 2048 ∧
      (ofSignMag s mag).frac = mag % 2 ^ 52 := by
  unfold sign expo frac ofSignMag
  cases s
  · simp only [Bool.false_eq_true, if_false, decide_eq_false_iff_not]
    norm_num at h ⊢
    omega
  · simp only [if_true, decide_eq_true_eq]
    norm_num at h ⊢
    omega

/-- The exponent and the fraction are read from the 63 low bits. -/
theorem low_fields (x : Float64) :
    x.bits % 2 ^ 63 < 2 ^ 63 ∧ x.bits % 2 ^ 63 / 2 ^ 52 % 2048 = x.expo ∧
      x.bits % 2 ^ 63 % 2 ^ 52 = x.frac := by
  unfold expo frac
  norm_num
  omega

/-- Negation negates a finite value. -/
theorem val_neg (x : Float64) (a : Int) (h : x.val = .fin a) : (neg x).val = .fin (-a) := by
  obtain ⟨l1, l2, l3⟩ := low_fields x
  obtain ⟨f1, f2, f3⟩ := ofSignMag_fields (!x.sign) _ l1
  rw [l2] at f2
  rw [l3] at f3
  unfold val at h ⊢
  unfold neg
  rw [f1, f2, f3]
  by_cases he : x.expo = 2047
  · rw [if_pos he] at h
    split_ifs at h
  · rw [if_neg he] at h ⊢
    have h2 := Val.fin.inj h
    simp only [] at h2 ⊢
    rw [← h2]
    cases x.sign <;> simp

/-- The function `math.Abs` on a finite value. -/
theorem val_Abs (x : Float64) (a : Int) (h : x.val = .fin a) :
    (Abs x).val = .fin (a.natAbs : Int) := by
  obtain ⟨l1, l2, l3⟩ := low_fields x
  obtain ⟨f1, f2, f3⟩ := ofSignMag_fields false _ l1
  rw [l2] at f2
  rw [l3] at f3
  unfold val at h ⊢
  unfold Abs
  rw [f1, f2, f3]
  by_cases he : x.expo = 2047
  · rw [if_pos he] at h
    split_ifs at h
  · rw [if_neg he] at h ⊢
    have h2 := Val.fin.inj h
    simp only [] at h2 ⊢
    generalize (if x.expo = 0 then x.frac * 2 else (2 ^ 52 + x.frac) * 2 ^ x.expo) = mag at h2 ⊢
    rw [← h2]
    cases x.sign
    · simp only [Bool.false_eq_true, if_false, Int.natAbs_ofNat]
    · simp only [if_true, Bool.false_eq_true, if_false, Int.natAbs_neg, Int.natAbs_ofNat]

/-- The function `math.Abs` on an infinity. -/
theorem val_Abs_inf (x : Float64) (s : Bool) (h : x.val = .inf s) :
    (Abs x).val = .inf false := by
  obtain ⟨l1, l2, l3⟩ := low_fields x
  obtain ⟨f1, f2, f3⟩ := ofSignMag_fields false _ l1
  rw [l2] at f2
  rw [l3] at f3
  unfold val at h ⊢
  unfold Abs
  rw [f1, f2, f3]
  by_cases he : x.expo = 2047
  · rw [if_pos he] at h ⊢
    by_cases hf : x.frac = 0
    · rw [if_pos hf]
    · rw [if_neg hf] at h
      exact absurd h (by simp)
  · rw [if_neg he] at h
    exact absurd h (by simp)

/-- The rational value of a negated finite value. -/
theorem neg_fin (x : Float64) (hx : x.isFin = true) :
    (neg x).isFin = true ∧ (neg x).toRat = -x.toRat := by
  obtain ⟨a, hv, hr⟩ := val_of_isFin x hx
  obtain ⟨k1, k2⟩ := toRat_of_val _ _ (val_neg x a hv)
  refine ⟨k1, ?_⟩
  rw [k2, hr, Int.cast_neg, neg_div]

/-- The scaled magnitude of a finite value is within the range of the exponent
search. -/
theorem natAbs_le (x : Float64) (a : Int) (h : x.val = .fin a) :
    (a.natAbs : ℚ) ≤ (2 : ℚ) ^ (8192 : Int) := by
  have h1 := val_le_max x a h
  unfold scale at h1
  rw [div_le_iff₀ (by positivity)] at h1
  refine le_trans h1 ?_
  rw [show ((8192 : Int)) = ((8192 : Nat) : Int) from rfl, zpow_natCast]
  have h2 : ((2 : ℚ) ^ 53 - 1) * 2 ^ 971 * 2 ^ 1075 ≤ 2 ^ 53 * 2 ^ 971 * 2 ^ 1075 := by
    have h3 : (0 : ℚ) < 2 ^ 971 * 2 ^ 1075 := by positivity
    nlinarith
  refine le_trans h2 ?_
  rw [← pow_add, ← pow_add]
  exact pow_le_pow_right₀ (by norm_num) (by norm_num)

set_option exponentiation.threshold 3000 in
/-- The product stays between any two finite values that enclose the exact product. -/
theorem mul_bounds (x y FL FU : Float64) (hx : x.isFin = true) (hy : y.isFin = true)
    (hL : FL.isFin = true) (hU : FU.isFin = true)
    (h1 : FL.toRat ≤ x.toRat * y.toRat) (h2 : x.toRat * y.toRat ≤ FU.toRat) :
    (mul x y).isFin = true ∧ FL.toRat ≤ (mul x y).toRat ∧ (mul x y).toRat ≤ FU.toRat := by
  obtain ⟨a, hva, hra⟩ := val_of_isFin x hx
  obtain ⟨b, hvb, hrb⟩ := val_of_isFin y hy
  rw [mul_eq_round x y a b hva hvb]
  have hex := mul_exact x y a b hva hvb
  rw [← hra, ← hrb] at hex
  refine round_bounds _ _ _ (Nat.two_pow_pos 2150) ?_ FL FU hL hU
    (by rw [hex]; exact h1) (by rw [hex]; exact h2)
  intro hn
  rw [scale_sq_cast]
  exact low_of_pos _ _ hn (mul_pos scale_pos scale_pos) scale_sq_le

/-- The quotient stays between any two finite values that enclose the exact
quotient. -/
theorem div_bounds (x y FL FU : Float64) (hx : x.isFin = true) (hy : y.isFin = true)
    (hy0 : y.toRat ≠ 0)
    (hL : FL.isFin = true) (hU : FU.isFin = true)
    (h1 : FL.toRat ≤ x.toRat / y.toRat) (h2 : x.toRat / y.toRat ≤ FU.toRat) :
    (div x y).isFin = true ∧ FL.toRat ≤ (div x y).toRat ∧ (div x y).toRat ≤ FU.toRat := by
  obtain ⟨a, hva, hra⟩ := val_of_isFin x hx
  obtain ⟨b, hvb, hrb⟩ := val_of_isFin y hy
  have hb : b ≠ 0 := by
    intro h0
    apply hy0
    rw [hrb, h0]
    simp
  rw [div_eq_round x y a b hva hvb hb]
  have hex := div_exact x y a b hva hvb hb
  rw [← hra, ← hrb] at hex
  have hnb : 0 < b.natAbs := Int.natAbs_pos.mpr hb
  refine round_bounds _ _ _ hnb ?_ FL FU hL hU
    (by rw [hex]; exact h1) (by rw [hex]; exact h2)
  intro hn
  exact low_of_pos _ _ hn (by exact_mod_cast hnb) (natAbs_le y b hvb)

set_option exponentiation.threshold 3000 in
/-- The sum stays between any two finite values that enclose the exact sum. -/
theorem add_bounds (x y FL FU : Float64) (hx : x.isFin = true) (hy : y.isFin = true)
    (hL : FL.isFin = true) (hU : FU.isFin = true)
    (h1 : FL.toRat ≤ x.toRat + y.toRat) (h2 : x.toRat + y.toRat ≤ FU.toRat) :
    (add x y).isFin = true ∧ FL.toRat ≤ (add x y).toRat ∧ (add x y).toRat ≤ FU.toRat := by
  obtain ⟨a, hva, hra⟩ := val_of_isFin x hx
  obtain ⟨b, hvb, hrb⟩ := val_of_isFin y hy
  have hsum : x.toRat + y.toRat = ((a + b : Int) : ℚ) / scale := by
    rw [hra, hrb, Int.cast_add, add_div]
  by_cases hab : a + b = 0
  · rw [add_eq_zero x y a b hva hvb hab]
    obtain ⟨k1, k2⟩ := toRat_of_val _ _ (val_ofSignMag_zero (x.sign && y.sign))
    rw [hsum, hab] at h1 h2
    refine ⟨k1, ?_, ?_⟩
    · rw [k2]
      exact h1
    · rw [k2]
      exact h2
  · rw [add_eq_round x y a b hva hvb hab]
    have hex : (if decide (a + b < 0) = true then (-1 : ℚ) else 1)
        * ((((a + b).natAbs : Nat) : ℚ) / ((2 ^ 1075 : Nat) : ℚ)) = x.toRat + y.toRat := by
      rw [hsum, scale_cast, ← mul_div_assoc, sign_factor_decide]
    refine round_bounds _ _ _ (Nat.two_pow_pos 1075) ?_ FL FU hL hU
      (by rw [hex]; exact h1) (by rw [hex]; exact h2)
    intro hn
    rw [scale_cast]
    exact low_of_pos _ _ hn scale_pos scale_le

/-- The difference stays between any two finite values that enclose the exact
difference. -/
theorem sub_bounds (x y FL FU : Float64) (hx : x.isFin = true) (hy : y.isFin = true)
    (hL : FL.isFin = true) (hU : FU.isFin = true)
    (h1 : FL.toRat ≤ x.toRat - y.toRat) (h2 : x.toRat - y.toRat ≤ FU.toRat) :
    (sub x y).isFin = true ∧ FL.toRat ≤ (sub x y).toRat ∧ (sub x y).toRat ≤ FU.toRat := by
  obtain ⟨n1, n2⟩ := neg_fin y hy
  unfold sub
  refine add_bounds x (neg y) FL FU hx n1 hL hU ?_ ?_
  · rw [n2]
    linarith
  · rw [n2]
    linarith

/-- The conversion of an integer stays between any two finite values that enclose
the integer. -/
theorem ofInt_bounds (n : Int) (FL FU : Float64)
    (hL : FL.isFin = true) (hU : FU.isFin = true)
    (h1 : FL.toRat ≤ (n : ℚ)) (h2 : (n : ℚ) ≤ FU.toRat) :
    (ofInt n).isFin = true ∧ FL.toRat ≤ (ofInt n).toRat ∧ (ofInt n).toRat ≤ FU.toRat := by
  unfold ofInt
  have hex : (if decide (n < 0) = true then (-1 : ℚ) else 1)
      * (((n.natAbs : Nat) : ℚ) / ((1 : Nat) : ℚ)) = (n : ℚ) := by
    rw [Nat.cast_one, div_one, sign_factor_decide]
  refine round_bounds _ _ _ Nat.one_pos ?_ FL FU hL hU
    (by rw [hex]; exact h1) (by rw [hex]; exact h2)
  intro hn
  rw [Nat.cast_one]
  exact low_of_pos _ _ hn one_pos (one_le_zpow₀ (by norm_num) (by norm_num))

/-! ### Comparisons, and results that may overflow -/

/-- A finite value that is positive has a positive scaled integer. -/
theorem pos_of_toRat (x : Float64) (a : Int) (hv : x.val = .fin a) (h : 0 < x.toRat) : 0 < a := by
  rw [(toRat_of_val x a hv).2] at h
  have h4 : (0 : ℚ) < a := by
    by_contra hc
    have : (a : ℚ) / scale ≤ 0 := div_nonpos_of_nonpos_of_nonneg (not_lt.mp hc) (le_of_lt scale_pos)
    linarith
  exact_mod_cast h4

/-- The comparison `<` on finite values. -/
theorem lt_iff (x y : Float64) (hx : x.isFin = true) (hy : y.isFin = true) :
    lt x y = true ↔ x.toRat < y.toRat := by
  obtain ⟨a, hva, hra⟩ := val_of_isFin x hx
  obtain ⟨b, hvb, hrb⟩ := val_of_isFin y hy
  unfold lt
  rw [hva, hvb, hra, hrb]
  simp only [decide_eq_true_eq]
  rw [div_lt_div_iff_of_pos_right scale_pos]
  exact Int.cast_lt.symm

/-- The comparison `<=` on finite values. -/
theorem le_iff (x y : Float64) (hx : x.isFin = true) (hy : y.isFin = true) :
    le x y = true ↔ x.toRat ≤ y.toRat := by
  obtain ⟨a, hva, hra⟩ := val_of_isFin x hx
  obtain ⟨b, hvb, hrb⟩ := val_of_isFin y hy
  unfold le
  rw [hva, hvb, hra, hrb]
  simp only [decide_eq_true_eq]
  rw [div_le_div_iff_of_pos_right scale_pos]
  exact Int.cast_le.symm

/-- The comparison `==` on finite values. -/
theorem eq_iff (x y : Float64) (hx : x.isFin = true) (hy : y.isFin = true) :
    eq x y = true ↔ x.toRat = y.toRat := by
  unfold eq
  rw [Bool.and_eq_true, le_iff x y hx hy, le_iff y x hy hx]
  constructor
  · intro h
    exact le_antisymm h.1 h.2
  · intro h
    exact ⟨le_of_eq h, le_of_eq h.symm⟩

set_option exponentiation.threshold 3000 in
/-- The product of two positive values is at least any finite value below the
exact product, or positive infinity. -/
theorem mul_ge (x y F : Float64) (hx : x.isFin = true) (hy : y.isFin = true)
    (hF : F.isFin = true) (hx0 : 0 < x.toRat) (hy0 : 0 < y.toRat) (h0 : 0 ≤ F.toRat)
    (h : F.toRat ≤ x.toRat * y.toRat) :
    (mul x y).val = .inf false ∨ ((mul x y).isFin = true ∧ F.toRat ≤ (mul x y).toRat) := by
  obtain ⟨a, hva, hra⟩ := val_of_isFin x hx
  obtain ⟨b, hvb, hrb⟩ := val_of_isFin y hy
  have ha := pos_of_toRat x a hva hx0
  have hb := pos_of_toRat y b hvb hy0
  have hex := mul_exact x y a b hva hvb
  rw [mul_eq_round x y a b hva hvb]
  rw [(sign_of_val x a hva).1 ha, (sign_of_val y b hvb).1 hb] at hex ⊢
  simp only [bne_self_eq_false, Bool.false_eq_true, if_false, one_mul] at hex ⊢
  rw [← hra, ← hrb] at hex
  have hn : 0 < a.natAbs * b.natAbs := Nat.mul_pos (by omega) (by omega)
  have hlow : (2 : ℚ) ^ (-8192 : Int) ≤ ((a.natAbs * b.natAbs : Nat) : ℚ) / ((2 ^ 2150 : Nat) : ℚ) := by
    rw [scale_sq_cast]
    exact low_of_pos _ _ hn (mul_pos scale_pos scale_pos) scale_sq_le
  exact round_ge _ _ hn (Nat.two_pow_pos 2150) hlow F hF h0 (by rw [hex]; exact h)

/-- The quotient of two positive values is at least any finite value below the
exact quotient, or positive infinity. -/
theorem div_ge (x y F : Float64) (hx : x.isFin = true) (hy : y.isFin = true)
    (hF : F.isFin = true) (hx0 : 0 < x.toRat) (hy0 : 0 < y.toRat) (h0 : 0 ≤ F.toRat)
    (h : F.toRat ≤ x.toRat / y.toRat) :
    (div x y).val = .inf false ∨ ((div x y).isFin = true ∧ F.toRat ≤ (div x y).toRat) := by
  obtain ⟨a, hva, hra⟩ := val_of_isFin x hx
  obtain ⟨b, hvb, hrb⟩ := val_of_isFin y hy
  have ha := pos_of_toRat x a hva hx0
  have hb := pos_of_toRat y b hvb hy0
  have hb0 : b ≠ 0 := by omega
  have hex := div_exact x y a b hva hvb hb0
  rw [div_eq_round x y a b hva hvb hb0]
  rw [(sign_of_val x a hva).1 ha, (sign_of_val y b hvb).1 hb] at hex ⊢
  simp only [bne_self_eq_false, Bool.false_eq_true, if_false, one_mul] at hex ⊢
  rw [← hra, ← hrb] at hex
  have hn : 0 < a.natAbs := by omega
  have hd : 0 < b.natAbs := by omega
  have hlow : (2 : ℚ) ^ (-8192 : Int) ≤ ((a.natAbs : Nat) : ℚ) / ((b.natAbs : Nat) : ℚ) :=
    low_of_pos _ _ hn (by exact_mod_cast hd) (natAbs_le y b hvb)
  exact round_ge _ _ hn hd hlow F hF h0 (by rw [hex]; exact h)

set_option exponentiation.threshold 3000 in
/-- A positive sum is at least any finite value below the exact sum, or positive
infinity. -/
theorem add_ge (x y F : Float64) (hx : x.isFin = true) (hy : y.isFin = true)
    (hF : F.isFin = true) (hpos : 0 < x.toRat + y.toRat) (h0 : 0 ≤ F.toRat)
    (h : F.toRat ≤ x.toRat + y.toRat) :
    (add x y).val = .inf false ∨ ((add x y).isFin = true ∧ F.toRat ≤ (add x y).toRat) := by
  obtain ⟨a, hva, hra⟩ := val_of_isFin x hx
  obtain ⟨b, hvb, hrb⟩ := val_of_isFin y hy
  have hsum : x.toRat + y.toRat = ((a + b : Int) : ℚ) / scale := by
    rw [hra, hrb, Int.cast_add, add_div]
  have hab : 0 < a + b := by
    rw [hsum] at hpos
    have h4 : (0 : ℚ) < ((a + b : Int) : ℚ) := by
      by_contra hc
      have : ((a + b : Int) : ℚ) / scale ≤ 0 :=
        div_nonpos_of_nonpos_of_nonneg (not_lt.mp hc) (le_of_lt scale_pos)
      linarith
    exact_mod_cast h4
  rw [add_eq_round x y a b hva hvb (by omega)]
  have hdec : decide (a + b < 0) = false := decide_eq_false (by omega)
  rw [hdec]
  have hn : 0 < (a + b).natAbs := by omega
  have hex : (((a + b).natAbs : Nat) : ℚ) / ((2 ^ 1075 : Nat) : ℚ) = x.toRat + y.toRat := by
    rw [hsum, scale_cast, natAbs_cast_of_nonneg (a + b) (le_of_lt hab)]
  have hlow : (2 : ℚ) ^ (-8192 : Int) ≤ (((a + b).natAbs : Nat) : ℚ) / ((2 ^ 1075 : Nat) : ℚ) := by
    rw [scale_cast]
    exact low_of_pos _ _ hn scale_pos scale_le
  exact round_ge _ _ hn (Nat.two_pow_pos 1075) hlow F hF h0 (by rw [hex]; exact h)

/-- The conversion of a positive integer is at least any finite value below it, or
positive infinity. -/
theorem ofInt_ge (n : Int) (F : Float64) (hF : F.isFin = true) (hn : 0 < n)
    (h0 : 0 ≤ F.toRat) (h : F.toRat ≤ (n : ℚ)) :
    (ofInt n).val = .inf false ∨ ((ofInt n).isFin = true ∧ F.toRat ≤ (ofInt n).toRat) := by
  unfold ofInt
  have hdec : decide (n < 0) = false := decide_eq_false (by omega)
  rw [hdec]
  have hn2 : 0 < n.natAbs := by omega
  have hex : ((n.natAbs : Nat) : ℚ) / ((1 : Nat) : ℚ) = (n : ℚ) := by
    rw [Nat.cast_one, div_one, natAbs_cast_of_nonneg n (le_of_lt hn)]
  have hlow : (2 : ℚ) ^ (-8192 : Int) ≤ ((n.natAbs : Nat) : ℚ) / ((1 : Nat) : ℚ) := by
    rw [Nat.cast_one]
    exact low_of_pos _ _ hn2 one_pos (one_le_zpow₀ (by norm_num) (by norm_num))
  exact round_ge _ _ hn2 Nat.one_pos hlow F hF h0 (by rw [hex]; exact h)

/-! ### The constants used as bounds -/

set_option exponentiation.threshold 3000 in
/-- The value of the constant. -/
theorem lit_zero : zero.isFin = true ∧ zero.toRat = 0 := by
  have h : zero.val = .fin (0) := by decide
  obtain ⟨k1, k2⟩ := toRat_of_val _ _ h
  refine ⟨k1, ?_⟩
  rw [k2]
  unfold scale
  norm_num

set_option exponentiation.threshold 3000 in
/-- The value of the constant. -/
theorem lit_one : one.isFin = true ∧ one.toRat = 1 := by
  have h : one.val = .fin (((4503599627370496 * 2 ^ 1023 : Nat) : Int)) := by decide
  obtain ⟨k1, k2⟩ := toRat_of_val _ _ h
  refine ⟨k1, ?_⟩
  rw [k2]
  unfold scale
  norm_num

set_option exponentiation.threshold 3000 in
/-- The value of the constant. -/
theorem lit_two : two.isFin = true ∧ two.toRat = 2 := by
  have h : two.val = .fin (((4503599627370496 * 2 ^ 1024 : Nat) : Int)) := by decide
  obtain ⟨k1, k2⟩ := toRat_of_val _ _ h
  refine ⟨k1, ?_⟩
  rw [k2]
  unfold scale
  norm_num

set_option exponentiation.threshold 3000 in
/-- The value of the constant. -/
theorem lit_half : half.isFin = true ∧ half.toRat = 1 / 2 ^ 1 := by
  have h : half.val = .fin (((4503599627370496 * 2 ^ 1022 : Nat) : Int)) := by decide
  obtain ⟨k1, k2⟩ := toRat_of_val _ _ h
  refine ⟨k1, ?_⟩
  rw [k2]
  unfold scale
  norm_num

set_option exponentiation.threshold 3000 in
/-- The value of the constant. -/
theorem lit_Ln2Hi : Ln2Hi.isFin = true ∧ Ln2Hi.toRat = 2977044471 / 2 ^ 32 := by
  have h : Ln2Hi.val = .fin (((6243314766446592 * 2 ^ 1022 : Nat) : Int)) := by decide
  obtain ⟨k1, k2⟩ := toRat_of_val _ _ h
  refine ⟨k1, ?_⟩
  rw [k2]
  unfold scale
  norm_num

set_option exponentiation.threshold 3000 in
/-- The value of the constant. -/
theorem lit_Ln2Lo : Ln2Lo.isFin = true ∧ Ln2Lo.toRat = 3691024475790907 / 2 ^ 84 := by
  have h : Ln2Lo.val = .fin (((7382048951581814 * 2 ^ 990 : Nat) : Int)) := by decide
  obtain ⟨k1, k2⟩ := toRat_of_val _ _ h
  refine ⟨k1, ?_⟩
  rw [k2]
  unfold scale
  norm_num

set_option exponentiation.threshold 3000 in
/-- The value of the constant. -/
theorem lit_L1 : L1.isFin = true ∧ L1.toRat = 6004799503160723 / 2 ^ 53 := by
  have h : L1.val = .fin (((6004799503160723 * 2 ^ 1022 : Nat) : Int)) := by decide
  obtain ⟨k1, k2⟩ := toRat_of_val _ _ h
  refine ⟨k1, ?_⟩
  rw [k2]
  unfold scale
  norm_num

set_option exponentiation.threshold 3000 in
/-- The value of the constant. -/
theorem lit_L2 : L2.isFin = true ∧ L2.toRat = 1801439850921601 / 2 ^ 52 := by
  have h : L2.val = .fin (((7205759403686404 * 2 ^ 1021 : Nat) : Int)) := by decide
  obtain ⟨k1, k2⟩ := toRat_of_val _ _ h
  refine ⟨k1, ?_⟩
  rw [k2]
  unfold scale
  norm_num

set_option exponentiation.threshold 3000 in
/-- The value of the constant. -/
theorem lit_L3 : L3.isFin = true ∧ L3.toRat = 5146971033736025 / 2 ^ 54 := by
  have h : L3.val = .fin (((5146971033736025 * 2 ^ 1021 : Nat) : Int)) := by decide
  obtain ⟨k1, k2⟩ := toRat_of_val _ _ h
  refine ⟨k1, ?_⟩
  rw [k2]
  unfold scale
  norm_num

set_option exponentiation.threshold 3000 in
/-- The value of the constant. -/
theorem lit_L4 : L4.isFin = true ∧ L4.toRat = 8006390766270639 / 2 ^ 55 := by
  have h : L4.val = .fin (((8006390766270639 * 2 ^ 1020 : Nat) : Int)) := by decide
  obtain ⟨k1, k2⟩ := toRat_of_val _ _ h
  refine ⟨k1, ?_⟩
  rw [k2]
  unfold scale
  norm_num

set_option exponentiation.threshold 3000 in
/-- The value of the constant. -/
theorem lit_L5 : L5.isFin = true ∧ L5.toRat = 3275661152453103 / 2 ^ 54 := by
  have h : L5.val = .fin (((6551322304906206 * 2 ^ 1020 : Nat) : Int)) := by decide
  obtain ⟨k1, k2⟩ := toRat_of_val _ _ h
  refine ⟨k1, ?_⟩
  rw [k2]
  unfold scale
  norm_num

set_option exponentiation.threshold 3000 in
/-- The value of the constant. -/
theorem lit_L6 : L6.isFin = true ∧ L6.toRat = 5517391500461727 / 2 ^ 55 := by
  have h : L6.val = .fin (((5517391500461727 * 2 ^ 1020 : Nat) : Int)) := by decide
  obtain ⟨k1, k2⟩ := toRat_of_val _ _ h
  refine ⟨k1, ?_⟩
  rw [k2]
  unfold scale
  norm_num

set_option exponentiation.threshold 3000 in
/-- The value of the constant. -/
theorem lit_L7 : L7.isFin = true ∧ L7.toRat = 1332903234475153 / 2 ^ 53 := by
  have h : L7.val = .fin (((5331612937900612 * 2 ^ 1020 : Nat) : Int)) := by decide
  obtain ⟨k1, k2⟩ := toRat_of_val _ _ h
  refine ⟨k1, ?_⟩
  rw [k2]
  unfold scale
  norm_num

set_option exponentiation.threshold 3000 in
/-- The value of the constant. -/
theorem lit_halfSqrt2 : halfSqrt2.isFin = true ∧ halfSqrt2.toRat = 6369051672525773 / 2 ^ 53 := by
  have h : halfSqrt2.val = .fin (((6369051672525773 * 2 ^ 1022 : Nat) : Int)) := by decide
  obtain ⟨k1, k2⟩ := toRat_of_val _ _ h
  refine ⟨k1, ?_⟩
  rw [k2]
  unfold scale
  norm_num

set_option exponentiation.threshold 3000 in
/-- The value of the constant. -/
theorem lit_invLn2 : invLn2.isFin = true ∧ invLn2.toRat = 3248660424278399 / 2 ^ 51 := by
  have h : invLn2.val = .fin (((6497320848556798 * 2 ^ 1023 : Nat) : Int)) := by decide
  obtain ⟨k1, k2⟩ := toRat_of_val _ _ h
  refine ⟨k1, ?_⟩
  rw [k2]
  unfold scale
  norm_num

set_option exponentiation.threshold 3000 in
/-- The value of the constant. -/
theorem lit_minNormal : (⟨0x0010000000000000⟩ : Float64).isFin = true ∧ (⟨0x0010000000000000⟩ : Float64).toRat = 1 / 2 ^ 1022 := by
  have h : (⟨0x0010000000000000⟩ : Float64).val = .fin (((4503599627370496 * 2 ^ 1 : Nat) : Int)) := by decide
  obtain ⟨k1, k2⟩ := toRat_of_val _ _ h
  refine ⟨k1, ?_⟩
  rw [k2]
  unfold scale
  norm_num

set_option exponentiation.threshold 3000 in
/-- The value of the constant. -/
theorem lit_minSub : (⟨0x0000000000000001⟩ : Float64).isFin = true ∧ (⟨0x0000000000000001⟩ : Float64).toRat = 1 / 2 ^ 1074 := by
  have h : (⟨0x0000000000000001⟩ : Float64).val = .fin (((1 * 2 ^ 1 : Nat) : Int)) := by decide
  obtain ⟨k1, k2⟩ := toRat_of_val _ _ h
  refine ⟨k1, ?_⟩
  rw [k2]
  unfold scale
  norm_num

set_option exponentiation.threshold 3000 in
/-- The value of the constant. -/
theorem lit_negLn2Hi : (⟨0xBFE62E42FEE00000⟩ : Float64).isFin = true ∧ (⟨0xBFE62E42FEE00000⟩ : Float64).toRat = -(2977044471 / 2 ^ 32) := by
  have h : (⟨0xBFE62E42FEE00000⟩ : Float64).val = .fin (-((6243314766446592 * 2 ^ 1022 : Nat) : Int)) := by decide
  obtain ⟨k1, k2⟩ := toRat_of_val _ _ h
  refine ⟨k1, ?_⟩
  rw [k2]
  unfold scale
  norm_num

set_option exponentiation.threshold 3000 in
/-- The value of the constant. -/
theorem lit_negLn2Lo : (⟨0xBDEA39EF35793C76⟩ : Float64).isFin = true ∧ (⟨0xBDEA39EF35793C76⟩ : Float64).toRat = -(3691024475790907 / 2 ^ 84) := by
  have h : (⟨0xBDEA39EF35793C76⟩ : Float64).val = .fin (-((7382048951581814 * 2 ^ 990 : Nat) : Int)) := by decide
  obtain ⟨k1, k2⟩ := toRat_of_val _ _ h
  refine ⟨k1, ?_⟩
  rw [k2]
  unfold scale
  norm_num

set_option exponentiation.threshold 3000 in
/-- The value of the constant. -/
theorem lit_T : (⟨0x3FE62E42FEFA39EE⟩ : Float64).isFin = true ∧ (⟨0x3FE62E42FEFA39EE⟩ : Float64).toRat = 3121657384082679 / 2 ^ 52 := by
  have h : (⟨0x3FE62E42FEFA39EE⟩ : Float64).val = .fin (((6243314768165358 * 2 ^ 1022 : Nat) : Int)) := by decide
  obtain ⟨k1, k2⟩ := toRat_of_val _ _ h
  refine ⟨k1, ?_⟩
  rw [k2]
  unfold scale
  norm_num

set_option exponentiation.threshold 3000 in
/-- The value of the constant. -/
theorem lit_negT : (⟨0xBFE62E42FEFA39EE⟩ : Float64).isFin = true ∧ (⟨0xBFE62E42FEFA39EE⟩ : Float64).toRat = -(3121657384082679 / 2 ^ 52) := by
  have h : (⟨0xBFE62E42FEFA39EE⟩ : Float64).val = .fin (-((6243314768165358 * 2 ^ 1022 : Nat) : Int)) := by decide
  obtain ⟨k1, k2⟩ := toRat_of_val _ _ h
  refine ⟨k1, ?_⟩
  rw [k2]
  unfold scale
  norm_num

set_option exponentiation.threshold 3000 in
/-- The value of the constant. -/
theorem lit_T0 : (⟨0x3DEA39EE00000000⟩ : Float64).isFin = true ∧ (⟨0x3DEA39EE00000000⟩ : Float64).toRat = 859383 / 2 ^ 52 := by
  have h : (⟨0x3DEA39EE00000000⟩ : Float64).val = .fin (((7382043759476736 * 2 ^ 990 : Nat) : Int)) := by decide
  obtain ⟨k1, k2⟩ := toRat_of_val _ _ h
  refine ⟨k1, ?_⟩
  rw [k2]
  unfold scale
  norm_num

set_option exponentiation.threshold 3000 in
/-- The value of the constant. -/
theorem lit_negF1 : (⟨0xBFEFFFFFFFFFFFFF⟩ : Float64).isFin = true ∧ (⟨0xBFEFFFFFFFFFFFFF⟩ : Float64).toRat = -(9007199254740991 / 2 ^ 53) := by
  have h : (⟨0xBFEFFFFFFFFFFFFF⟩ : Float64).val = .fin (-((9007199254740991 * 2 ^ 1022 : Nat) : Int)) := by decide
  obtain ⟨k1, k2⟩ := toRat_of_val _ _ h
  refine ⟨k1, ?_⟩
  rw [k2]
  unfold scale
  norm_num

set_option exponentiation.threshold 3000 in
/-- The value of the constant. -/
theorem lit_log2Sqr : (⟨0x3FDEBFBDFF82C58E⟩ : Float64).isFin = true ∧ (⟨0x3FDEBFBDFF82C58E⟩ : Float64).toRat = 4327536028902087 / 2 ^ 53 := by
  have h : (⟨0x3FDEBFBDFF82C58E⟩ : Float64).val = .fin (((8655072057804174 * 2 ^ 1021 : Nat) : Int)) := by decide
  obtain ⟨k1, k2⟩ := toRat_of_val _ _ h
  refine ⟨k1, ?_⟩
  rw [k2]
  unfold scale
  norm_num

set_option exponentiation.threshold 3000 in
/-- The value of the constant. -/
theorem lit_c3h : (⟨0x3FF8000000000000⟩ : Float64).isFin = true ∧ (⟨0x3FF8000000000000⟩ : Float64).toRat = 3 / 2 ^ 1 := by
  have h : (⟨0x3FF8000000000000⟩ : Float64).val = .fin (((6755399441055744 * 2 ^ 1023 : Nat) : Int)) := by decide
  obtain ⟨k1, k2⟩ := toRat_of_val _ _ h
  refine ⟨k1, ?_⟩
  rw [k2]
  unfold scale
  norm_num

set_option exponentiation.threshold 3000 in
/-- The value of the constant. -/
theorem lit_next1 : (⟨0x3FF0000000000001⟩ : Float64).isFin = true ∧ (⟨0x3FF0000000000001⟩ : Float64).toRat = 4503599627370497 / 2 ^ 52 := by
  have h : (⟨0x3FF0000000000001⟩ : Float64).val = .fin (((4503599627370497 * 2 ^ 1023 : Nat) : Int)) := by decide
  obtain ⟨k1, k2⟩ := toRat_of_val _ _ h
  refine ⟨k1, ?_⟩
  rw [k2]
  unfold scale
  norm_num

set_option exponentiation.threshold 3000 in
/-- The value of the constant. -/
theorem lit_p52 : (⟨0x3CB0000000000000⟩ : Float64).isFin = true ∧ (⟨0x3CB0000000000000⟩ : Float64).toRat = 1 / 2 ^ 52 := by
  have h : (⟨0x3CB0000000000000⟩ : Float64).val = .fin (((4503599627370496 * 2 ^ 971 : Nat) : Int)) := by decide
  obtain ⟨k1, k2⟩ := toRat_of_val _ _ h
  refine ⟨k1, ?_⟩
  rw [k2]
  unfold scale
  norm_num

set_option exponentiation.threshold 3000 in
/-- The value of the constant. -/
theorem lit_p53 : (⟨0x3CA0000000000000⟩ : Float64).isFin = true ∧ (⟨0x3CA0000000000000⟩ : Float64).toRat = 1 / 2 ^ 53 := by
  have h : (⟨0x3CA0000000000000⟩ : Float64).val = .fin (((4503599627370496 * 2 ^ 970 : Nat) : Int)) := by decide
  obtain ⟨k1, k2⟩ := toRat_of_val _ _ h
  refine ⟨k1, ?_⟩
  rw [k2]
  unfold scale
  norm_num

set_option exponentiation.threshold 3000 in
/-- The value of the constant. -/
theorem lit_n53 : (⟨0xBCA0000000000000⟩ : Float64).isFin = true ∧ (⟨0xBCA0000000000000⟩ : Float64).toRat = -(1 / 2 ^ 53) := by
  have h : (⟨0xBCA0000000000000⟩ : Float64).val = .fin (-((4503599627370496 * 2 ^ 970 : Nat) : Int)) := by decide
  obtain ⟨k1, k2⟩ := toRat_of_val _ _ h
  refine ⟨k1, ?_⟩
  rw [k2]
  unfold scale
  norm_num

set_option exponentiation.threshold 3000 in
/-- The value of the constant. -/
theorem lit_n38 : (⟨0xBFD8000000000000⟩ : Float64).isFin = true ∧ (⟨0xBFD8000000000000⟩ : Float64).toRat = -(3 / 2 ^ 3) := by
  have h : (⟨0xBFD8000000000000⟩ : Float64).val = .fin (-((6755399441055744 * 2 ^ 1021 : Nat) : Int)) := by decide
  obtain ⟨k1, k2⟩ := toRat_of_val _ _ h
  refine ⟨k1, ?_⟩
  rw [k2]
  unfold scale
  norm_num

set_option exponentiation.threshold 3000 in
/-- The value of the constant. -/
theorem lit_c4 : (⟨0x4010000000000000⟩ : Float64).isFin = true ∧ (⟨0x4010000000000000⟩ : Float64).toRat = 4 := by
  have h : (⟨0x4010000000000000⟩ : Float64).val = .fin (((4503599627370496 * 2 ^ 1025 : Nat) : Int)) := by decide
  obtain ⟨k1, k2⟩ := toRat_of_val _ _ h
  refine ⟨k1, ?_⟩
  rw [k2]
  unfold scale
  norm_num

set_option exponentiation.threshold 3000 in
/-- The value of the constant. -/
theorem lit_c8 : (⟨0x4020000000000000⟩ : Float64).isFin = true ∧ (⟨0x4020000000000000⟩ : Float64).toRat = 8 := by
  have h : (⟨0x4020000000000000⟩ : Float64).val = .fin (((4503599627370496 * 2 ^ 1026 : Nat) : Int)) := by decide
  obtain ⟨k1, k2⟩ := toRat_of_val _ _ h
  refine ⟨k1, ?_⟩
  rw [k2]
  unfold scale
  norm_num

set_option exponentiation.threshold 3000 in
/-- The value of the constant. -/
theorem lit_q4 : (⟨0x3FD0000000000000⟩ : Float64).isFin = true ∧ (⟨0x3FD0000000000000⟩ : Float64).toRat = 1 / 2 ^ 2 := by
  have h : (⟨0x3FD0000000000000⟩ : Float64).val = .fin (((4503599627370496 * 2 ^ 1021 : Nat) : Int)) := by decide
  obtain ⟨k1, k2⟩ := toRat_of_val _ _ h
  refine ⟨k1, ?_⟩
  rw [k2]
  unfold scale
  norm_num

set_option exponentiation.threshold 3000 in
/-- The value of the constant. -/
theorem lit_q8 : (⟨0x3FC0000000000000⟩ : Float64).isFin = true ∧ (⟨0x3FC0000000000000⟩ : Float64).toRat = 1 / 2 ^ 3 := by
  have h : (⟨0x3FC0000000000000⟩ : Float64).val = .fin (((4503599627370496 * 2 ^ 1020 : Nat) : Int)) := by decide
  obtain ⟨k1, k2⟩ := toRat_of_val _ _ h
  refine ⟨k1, ?_⟩
  rw [k2]
  unfold scale
  norm_num

set_option exponentiation.threshold 3000 in
/-- The value of the constant. -/
theorem lit_q16 : (⟨0x3FB0000000000000⟩ : Float64).isFin = true ∧ (⟨0x3FB0000000000000⟩ : Float64).toRat = 1 / 2 ^ 4 := by
  have h : (⟨0x3FB0000000000000⟩ : Float64).val = .fin (((4503599627370496 * 2 ^ 1019 : Nat) : Int)) := by decide
  obtain ⟨k1, k2⟩ := toRat_of_val _ _ h
  refine ⟨k1, ?_⟩
  rw [k2]
  unfold scale
  norm_num

set_option exponentiation.threshold 3000 in
/-- The value of the constant. -/
theorem lit_n4 : (⟨0xBFD0000000000000⟩ : Float64).isFin = true ∧ (⟨0xBFD0000000000000⟩ : Float64).toRat = -(1 / 2 ^ 2) := by
  have h : (⟨0xBFD0000000000000⟩ : Float64).val = .fin (-((4503599627370496 * 2 ^ 1021 : Nat) : Int)) := by decide
  obtain ⟨k1, k2⟩ := toRat_of_val _ _ h
  refine ⟨k1, ?_⟩
  rw [k2]
  unfold scale
  norm_num

set_option exponentiation.threshold 3000 in
/-- The value of the constant. -/
theorem lit_n1 : (⟨0xBFF0000000000000⟩ : Float64).isFin = true ∧ (⟨0xBFF0000000000000⟩ : Float64).toRat = -(1) := by
  have h : (⟨0xBFF0000000000000⟩ : Float64).val = .fin (-((4503599627370496 * 2 ^ 1023 : Nat) : Int)) := by decide
  obtain ⟨k1, k2⟩ := toRat_of_val _ _ h
  refine ⟨k1, ?_⟩
  rw [k2]
  unfold scale
  norm_num

set_option exponentiation.threshold 3000 in
/-- The value of the constant. -/
theorem lit_n2 : (⟨0xC000000000000000⟩ : Float64).isFin = true ∧ (⟨0xC000000000000000⟩ : Float64).toRat = -(2) := by
  have h : (⟨0xC000000000000000⟩ : Float64).val = .fin (-((4503599627370496 * 2 ^ 1024 : Nat) : Int)) := by decide
  obtain ⟨k1, k2⟩ := toRat_of_val _ _ h
  refine ⟨k1, ?_⟩
  rw [k2]
  unfold scale
  norm_num

set_option exponentiation.threshold 3000 in
/-- The value of the constant. -/
theorem lit_n16 : (⟨0xBFB0000000000000⟩ : Float64).isFin = true ∧ (⟨0xBFB0000000000000⟩ : Float64).toRat = -(1 / 2 ^ 4) := by
  have h : (⟨0xBFB0000000000000⟩ : Float64).val = .fin (-((4503599627370496 * 2 ^ 1019 : Nat) : Int)) := by decide
  obtain ⟨k1, k2⟩ := toRat_of_val _ _ h
  refine ⟨k1, ?_⟩
  rw [k2]
  unfold scale
  norm_num

set_option exponentiation.threshold 3000 in
/-- The value of the constant. -/
theorem lit_n2048 : (⟨0xC0A0000000000000⟩ : Float64).isFin = true ∧ (⟨0xC0A0000000000000⟩ : Float64).toRat = -(2048) := by
  have h : (⟨0xC0A0000000000000⟩ : Float64).val = .fin (-((4503599627370496 * 2 ^ 1034 : Nat) : Int)) := by decide
  obtain ⟨k1, k2⟩ := toRat_of_val _ _ h
  refine ⟨k1, ?_⟩
  rw [k2]
  unfold scale
  norm_num

set_option exponentiation.threshold 3000 in
/-- The value of the constant. -/
theorem lit_n4096 : (⟨0xC0B0000000000000⟩ : Float64).isFin = true ∧ (⟨0xC0B0000000000000⟩ : Float64).toRat = -(4096) := by
  have h : (⟨0xC0B0000000000000⟩ : Float64).val = .fin (-((4503599627370496 * 2 ^ 1035 : Nat) : Int)) := by decide
  obtain ⟨k1, k2⟩ := toRat_of_val _ _ h
  refine ⟨k1, ?_⟩
  rw [k2]
  unfold scale
  norm_num

set_option exponentiation.threshold 3000 in
/-- The value of the constant. -/
theorem lit_nhalf : (⟨0xBFE0000000000000⟩ : Float64).isFin = true ∧ (⟨0xBFE0000000000000⟩ : Float64).toRat = -(1 / 2 ^ 1) := by
  have h : (⟨0xBFE0000000000000⟩ : Float64).val = .fin (-((4503599627370496 * 2 ^ 1022 : Nat) : Int)) := by decide
  obtain ⟨k1, k2⟩ := toRat_of_val _ _ h
  refine ⟨k1, ?_⟩
  rw [k2]
  unfold scale
  norm_num

set_option exponentiation.threshold 3000 in
/-- The value of the constant. -/
theorem lit_n8 : (⟨0xC020000000000000⟩ : Float64).isFin = true ∧ (⟨0xC020000000000000⟩ : Float64).toRat = -(8) := by
  have h : (⟨0xC020000000000000⟩ : Float64).val = .fin (-((4503599627370496 * 2 ^ 1026 : Nat) : Int)) := by decide
  obtain ⟨k1, k2⟩ := toRat_of_val _ _ h
  refine ⟨k1, ?_⟩
  rw [k2]
  unfold scale
  norm_num

set_option exponentiation.threshold 3000 in
/-- The value of the constant. -/
theorem lit_n58 : (⟨0xBFE4000000000000⟩ : Float64).isFin = true ∧ (⟨0xBFE4000000000000⟩ : Float64).toRat = -(5 / 2 ^ 3) := by
  have h : (⟨0xBFE4000000000000⟩ : Float64).val = .fin (-((5629499534213120 * 2 ^ 1022 : Nat) : Int)) := by decide
  obtain ⟨k1, k2⟩ := toRat_of_val _ _ h
  refine ⟨k1, ?_⟩
  rw [k2]
  unfold scale
  norm_num

set_option exponentiation.threshold 3000 in
/-- The value of the constant. -/
theorem lit_c58 : (⟨0x3FE4000000000000⟩ : Float64).isFin = true ∧ (⟨0x3FE4000000000000⟩ : Float64).toRat = 5 / 2 ^ 3 := by
  have h : (⟨0x3FE4000000000000⟩ : Float64).val = .fin (((5629499534213120 * 2 ^ 1022 : Nat) : Int)) := by decide
  obtain ⟨k1, k2⟩ := toRat_of_val _ _ h
  refine ⟨k1, ?_⟩
  rw [k2]
  unfold scale
  norm_num

set_option exponentiation.threshold 3000 in
/-- The value of the constant. -/
theorem lit_n18 : (⟨0xBFC0000000000000⟩ : Float64).isFin = true ∧ (⟨0xBFC0000000000000⟩ : Float64).toRat = -(1 / 2 ^ 3) := by
  have h : (⟨0xBFC0000000000000⟩ : Float64).val = .fin (-((4503599627370496 * 2 ^ 1020 : Nat) : Int)) := by decide
  obtain ⟨k1, k2⟩ := toRat_of_val _ _ h
  refine ⟨k1, ?_⟩
  rw [k2]
  unfold scale
  norm_num

/-! ### Relative error, and the polynomial of `math.Log` -/

/-- The function `math.Log` on a positive finite value: its last line, after the
reduction of the argument. -/
theorem Log_eq (x : Float64) (a : Int) (hv : x.val = .fin a) (ha : 0 < a) :
    Log x = logTail
      (sub (if lt (Frexp x).1 halfSqrt2 then mul (Frexp x).1 two else (Frexp x).1) one)
      (ofInt (if lt (Frexp x).1 halfSqrt2 then (Frexp x).2 - 1 else (Frexp x).2)) := by
  unfold Log
  rw [hv]
  simp only [if_neg (not_lt.mpr (le_of_lt ha)), if_neg (ne_of_gt ha)]
  rfl

/-- A rounding that stays finite is at most one part in `2 ^ 53` above any bound of
the exact result that is in the normal range. -/
theorem round_rel_le (s : Bool) (n d : Nat) (hd : 0 < d)
    (hlow : 0 < n → (2 : ℚ) ^ (-8192 : Int) ≤ (n : ℚ) / d)
    (hfin : (round s n d).isFin = true) (q : ℚ) (FU : Float64) (hU : FU.isFin = true)
    (hq : (if s then (-1 : ℚ) else 1) * ((n : ℚ) / d) ≤ q)
    (h1 : 1 / 2 ^ 1022 ≤ q) (h2 : q ≤ FU.toRat) :
    (round s n d).toRat ≤ q * (1 + 1 / 2 ^ 53) := by
  have hqpos : (0 : ℚ) < q := lt_of_lt_of_le (by positivity) h1
  have hu : (0 : ℚ) < 1 / 2 ^ 53 := by positivity
  have hgoal : q ≤ q * (1 + 1 / 2 ^ 53) := by nlinarith
  by_cases hn0 : n = 0
  · unfold round
    rw [if_pos hn0, (toRat_of_val _ _ (val_ofSignMag_zero s)).2]
    simp only [Int.cast_zero, zero_div]
    linarith
  · have hn : 0 < n := Nat.pos_of_ne_zero hn0
    have hlow2 := hlow hn
    cases s
    · simp only [Bool.false_eq_true, if_false, one_mul] at hq
      by_cases hq2 : (1 : ℚ) / 2 ^ 1022 ≤ (n : ℚ) / d
      · have hz : (2 : ℚ) ^ (-1022 : Int) ≤ (n : ℚ) / d := by
          rw [show ((-1022 : Int)) = -((1022 : Nat) : Int) from rfl, zpow_neg, zpow_natCast,
            ← one_div]
          exact hq2
        have h3 := round_rel n d hn hd hz FU hU (le_trans hq h2)
        have h4 : (n : ℚ) / d * (1 + 1 / 2 ^ 53) ≤ q * (1 + 1 / 2 ^ 53) :=
          mul_le_mul_of_nonneg_right hq (by positivity)
        linarith
      · have h3 := round_bounds false n d hd hlow zero ⟨0x0010000000000000⟩ lit_zero.1
          lit_minNormal.1
          (by
            rw [lit_zero.2]
            simp only [Bool.false_eq_true, if_false, one_mul]
            positivity)
          (by
            rw [lit_minNormal.2]
            simp only [Bool.false_eq_true, if_false, one_mul]
            exact le_of_lt (not_le.mp hq2))
        rw [lit_minNormal.2] at h3
        linarith [h3.2.2]
    · unfold round at hfin ⊢
      rw [if_neg hn0] at hfin ⊢
      rcases roundPos_cases n d hd hlow2 true with
        ⟨hov, _⟩ | ⟨e, m, c, _, _, _, _, _, _, _, _, hv, _⟩
      · rw [hov] at hfin
        unfold isFin at hfin
        rw [val_ofSignMag_inf] at hfin
        simp at hfin
      · rw [(toRat_of_val _ _ hv).2]
        simp only [if_true]
        have hc0 : (((-(c : Int) : Int)) : ℚ) ≤ 0 := by
          rw [Int.cast_neg]
          have : (0 : ℚ) ≤ ((c : Int) : ℚ) := Int.cast_nonneg.mpr (Int.natCast_nonneg c)
          linarith
        have := div_nonpos_of_nonpos_of_nonneg hc0 (le_of_lt scale_pos)
        linarith

set_option exponentiation.threshold 3000 in
/-- A finite product is at most one part in `2 ^ 53` above any bound of the exact
product that is in the normal range. -/
theorem mul_rel_le (x y : Float64) (hx : x.isFin = true) (hy : y.isFin = true)
    (hfin : (mul x y).isFin = true) (q : ℚ) (FU : Float64) (hU : FU.isFin = true)
    (hq : x.toRat * y.toRat ≤ q) (h1 : 1 / 2 ^ 1022 ≤ q) (h2 : q ≤ FU.toRat) :
    (mul x y).toRat ≤ q * (1 + 1 / 2 ^ 53) := by
  obtain ⟨a, hva, hra⟩ := val_of_isFin x hx
  obtain ⟨b, hvb, hrb⟩ := val_of_isFin y hy
  rw [mul_eq_round x y a b hva hvb] at hfin ⊢
  have hex := mul_exact x y a b hva hvb
  rw [← hra, ← hrb] at hex
  refine round_rel_le _ _ _ (Nat.two_pow_pos 2150) ?_ hfin q FU hU (by rw [hex]; exact hq) h1 h2
  intro hn
  rw [scale_sq_cast]
  exact low_of_pos _ _ hn (mul_pos scale_pos scale_pos) scale_sq_le

set_option exponentiation.threshold 3000 in
/-- A finite sum is at most one part in `2 ^ 53` above any bound of the exact sum
that is in the normal range. -/
theorem add_rel_le (x y : Float64) (hx : x.isFin = true) (hy : y.isFin = true)
    (hfin : (add x y).isFin = true) (q : ℚ) (FU : Float64) (hU : FU.isFin = true)
    (hq : x.toRat + y.toRat ≤ q) (h1 : 1 / 2 ^ 1022 ≤ q) (h2 : q ≤ FU.toRat) :
    (add x y).toRat ≤ q * (1 + 1 / 2 ^ 53) := by
  obtain ⟨a, hva, hra⟩ := val_of_isFin x hx
  obtain ⟨b, hvb, hrb⟩ := val_of_isFin y hy
  have hqpos : (0 : ℚ) < q := lt_of_lt_of_le (by positivity) h1
  have hsum : x.toRat + y.toRat = ((a + b : Int) : ℚ) / scale := by
    rw [hra, hrb, Int.cast_add, add_div]
  by_cases hab : a + b = 0
  · rw [add_eq_zero x y a b hva hvb hab,
      (toRat_of_val _ _ (val_ofSignMag_zero (x.sign && y.sign))).2]
    simp only [Int.cast_zero, zero_div]
    have hu : (0 : ℚ) < 1 / 2 ^ 53 := by positivity
    nlinarith
  · rw [add_eq_round x y a b hva hvb hab] at hfin ⊢
    have hex : (if decide (a + b < 0) = true then (-1 : ℚ) else 1)
        * ((((a + b).natAbs : Nat) : ℚ) / ((2 ^ 1075 : Nat) : ℚ)) = x.toRat + y.toRat := by
      rw [hsum, scale_cast, ← mul_div_assoc, sign_factor_decide]
    refine round_rel_le _ _ _ (Nat.two_pow_pos 1075) ?_ hfin q FU hU (by rw [hex]; exact hq) h1 h2
    intro hn
    rw [scale_cast]
    exact low_of_pos _ _ hn scale_pos scale_le

/-- A finite difference is at most one part in `2 ^ 53` above any bound of the
exact difference that is in the normal range. -/
theorem sub_rel_le (x y : Float64) (hx : x.isFin = true) (hy : y.isFin = true)
    (hfin : (sub x y).isFin = true) (q : ℚ) (FU : Float64) (hU : FU.isFin = true)
    (hq : x.toRat - y.toRat ≤ q) (h1 : 1 / 2 ^ 1022 ≤ q) (h2 : q ≤ FU.toRat) :
    (sub x y).toRat ≤ q * (1 + 1 / 2 ^ 53) := by
  obtain ⟨n1, n2⟩ := neg_fin y hy
  unfold sub at hfin ⊢
  exact add_rel_le x (neg y) hx n1 hfin q FU hU (by rw [n2]; linarith) h1 h2

/-- The product of two non-negative values, enclosed from the bounds of the factors. -/
theorem mul_nn (x y U : Float64) (a b : ℚ) (hx : x.isFin = true) (hy : y.isFin = true)
    (hU : U.isFin = true) (x0 : 0 ≤ x.toRat) (xa : x.toRat ≤ a) (y0 : 0 ≤ y.toRat)
    (yb : y.toRat ≤ b) (hab : a * b ≤ U.toRat) :
    (mul x y).isFin = true ∧ 0 ≤ (mul x y).toRat ∧ (mul x y).toRat ≤ U.toRat := by
  have h1 : x.toRat * y.toRat ≤ a * b := mul_le_mul xa yb y0 (le_trans x0 xa)
  have h := mul_bounds x y zero U hx hy lit_zero.1 hU
    (by rw [lit_zero.2]; exact mul_nonneg x0 y0) (le_trans h1 hab)
  rw [lit_zero.2] at h
  exact h

/-- The sum of two non-negative values, enclosed from the bounds of the terms. -/
theorem add_nn (x y U : Float64) (a b : ℚ) (hx : x.isFin = true) (hy : y.isFin = true)
    (hU : U.isFin = true) (x0 : 0 ≤ x.toRat) (xa : x.toRat ≤ a) (y0 : 0 ≤ y.toRat)
    (yb : y.toRat ≤ b) (hab : a + b ≤ U.toRat) :
    (add x y).isFin = true ∧ 0 ≤ (add x y).toRat ∧ (add x y).toRat ≤ U.toRat := by
  have h := add_bounds x y zero U hx hy lit_zero.1 hU
    (by rw [lit_zero.2]; linarith) (by linarith)
  rw [lit_zero.2] at h
  exact h

/-- The polynomial `R` of `math.Log` for `|s| ≤ 1/4`: between 0 and 1/4. -/
theorem logR_bounds (s : Float64) (hs : s.isFin = true) (h1 : -(1 / 4) ≤ s.toRat)
    (h2 : s.toRat ≤ 1 / 4) :
    (logR s).isFin = true ∧ 0 ≤ (logR s).toRat ∧ (logR s).toRat ≤ 1 / 4 := by
  have hss : 0 ≤ s.toRat * s.toRat := mul_self_nonneg _
  have hss2 : s.toRat * s.toRat ≤ 1 / 16 := by nlinarith
  obtain ⟨s2f, s2l, s2u⟩ := mul_bounds s s zero ⟨0x3FB0000000000000⟩ hs hs lit_zero.1 lit_q16.1
    (by rw [lit_zero.2]; exact hss) (by rw [lit_q16.2]; exact hss2)
  rw [lit_zero.2] at s2l
  rw [lit_q16.2] at s2u
  obtain ⟨s4f, s4l, s4u⟩ := mul_nn (mul s s) (mul s s) ⟨0x3FB0000000000000⟩ (1 / 16) (1 / 16)
    s2f s2f lit_q16.1 s2l s2u s2l s2u (by rw [lit_q16.2]; norm_num)
  rw [lit_q16.2] at s4u
  -- the odd part
  obtain ⟨m7f, m7l, m7u⟩ := mul_nn (mul (mul s s) (mul s s)) L7 one (1 / 16) 1
    s4f lit_L7.1 lit_one.1 s4l s4u (by rw [lit_L7.2]; norm_num) (by rw [lit_L7.2]; norm_num)
    (by rw [lit_one.2]; norm_num)
  rw [lit_one.2] at m7u
  obtain ⟨a5f, a5l, a5u⟩ := add_nn L5 _ two 1 1 lit_L5.1 m7f lit_two.1
    (by rw [lit_L5.2]; norm_num) (by rw [lit_L5.2]; norm_num) m7l m7u
    (by rw [lit_two.2]; norm_num)
  rw [lit_two.2] at a5u
  obtain ⟨m5f, m5l, m5u⟩ := mul_nn (mul (mul s s) (mul s s)) _ one (1 / 16) 2
    s4f a5f lit_one.1 s4l s4u a5l a5u (by rw [lit_one.2]; norm_num)
  rw [lit_one.2] at m5u
  obtain ⟨a3f, a3l, a3u⟩ := add_nn L3 _ two 1 1 lit_L3.1 m5f lit_two.1
    (by rw [lit_L3.2]; norm_num) (by rw [lit_L3.2]; norm_num) m5l m5u
    (by rw [lit_two.2]; norm_num)
  rw [lit_two.2] at a3u
  obtain ⟨m3f, m3l, m3u⟩ := mul_nn (mul (mul s s) (mul s s)) _ one (1 / 16) 2
    s4f a3f lit_one.1 s4l s4u a3l a3u (by rw [lit_one.2]; norm_num)
  rw [lit_one.2] at m3u
  obtain ⟨a1f, a1l, a1u⟩ := add_nn L1 _ two 1 1 lit_L1.1 m3f lit_two.1
    (by rw [lit_L1.2]; norm_num) (by rw [lit_L1.2]; norm_num) m3l m3u
    (by rw [lit_two.2]; norm_num)
  rw [lit_two.2] at a1u
  obtain ⟨t1f, t1l, t1u⟩ := mul_nn (mul s s) _ ⟨0x3FC0000000000000⟩ (1 / 16) 2
    s2f a1f lit_q8.1 s2l s2u a1l a1u (by rw [lit_q8.2]; norm_num)
  rw [lit_q8.2] at t1u
  -- the even part
  obtain ⟨m6f, m6l, m6u⟩ := mul_nn (mul (mul s s) (mul s s)) L6 one (1 / 16) 1
    s4f lit_L6.1 lit_one.1 s4l s4u (by rw [lit_L6.2]; norm_num) (by rw [lit_L6.2]; norm_num)
    (by rw [lit_one.2]; norm_num)
  rw [lit_one.2] at m6u
  obtain ⟨a4f, a4l, a4u⟩ := add_nn L4 _ two 1 1 lit_L4.1 m6f lit_two.1
    (by rw [lit_L4.2]; norm_num) (by rw [lit_L4.2]; norm_num) m6l m6u
    (by rw [lit_two.2]; norm_num)
  rw [lit_two.2] at a4u
  obtain ⟨m4f, m4l, m4u⟩ := mul_nn (mul (mul s s) (mul s s)) _ one (1 / 16) 2
    s4f a4f lit_one.1 s4l s4u a4l a4u (by rw [lit_one.2]; norm_num)
  rw [lit_one.2] at m4u
  obtain ⟨a2f, a2l, a2u⟩ := add_nn L2 _ two 1 1 lit_L2.1 m4f lit_two.1
    (by rw [lit_L2.2]; norm_num) (by rw [lit_L2.2]; norm_num) m4l m4u
    (by rw [lit_two.2]; norm_num)
  rw [lit_two.2] at a2u
  obtain ⟨t2f, t2l, t2u⟩ := mul_nn (mul (mul s s) (mul s s)) _ ⟨0x3FC0000000000000⟩ (1 / 16) 2
    s4f a2f lit_q8.1 s4l s4u a2l a2u (by rw [lit_q8.2]; norm_num)
  rw [lit_q8.2] at t2u
  have h := add_nn _ _ ⟨0x3FD0000000000000⟩ (1 / 8) (1 / 8) t1f t2f lit_q4.1 t1l t1u t2l t2u
    (by rw [lit_q4.2]; norm_num)
  rw [lit_q4.2] at h
  exact h

/-! ### The pieces of `math.Log` -/

/-- The last line of `math.Log`, with every intermediate result enclosed between two
finite values. -/
theorem tail_chain (hfsq A f k : Float64) (h0 h1 a0 a1 f0 f1 : ℚ)
    (hh : hfsq.isFin = true) (hA : A.isFin = true) (hf : f.isFin = true) (hk : k.isFin = true)
    (hh0 : h0 ≤ hfsq.toRat) (hh1 : hfsq.toRat ≤ h1)
    (ha0 : a0 ≤ A.toRat) (ha1 : A.toRat ≤ a1)
    (hf0 : f0 ≤ f.toRat) (hf1 : f.toRat ≤ f1)
    (KH0 KH1 KL0 KL1 C0 C1 B0 B1 I0 I1 R0 R1 : Float64)
    (fKH0 : KH0.isFin = true) (fKH1 : KH1.isFin = true) (fKL0 : KL0.isFin = true)
    (fKL1 : KL1.isFin = true) (fC0 : C0.isFin = true) (fC1 : C1.isFin = true)
    (fB0 : B0.isFin = true) (fB1 : B1.isFin = true) (fI0 : I0.isFin = true)
    (fI1 : I1.isFin = true) (fR0 : R0.isFin = true) (fR1 : R1.isFin = true)
    (c1 : KH0.toRat ≤ k.toRat * Ln2Hi.toRat) (c2 : k.toRat * Ln2Hi.toRat ≤ KH1.toRat)
    (c3 : KL0.toRat ≤ k.toRat * Ln2Lo.toRat) (c4 : k.toRat * Ln2Lo.toRat ≤ KL1.toRat)
    (c5 : C0.toRat ≤ a0 + KL0.toRat) (c6 : a1 + KL1.toRat ≤ C1.toRat)
    (c7 : B0.toRat ≤ h0 - C1.toRat) (c8 : h1 - C0.toRat ≤ B1.toRat)
    (c9 : I0.toRat ≤ B0.toRat - f1) (c10 : B1.toRat - f0 ≤ I1.toRat)
    (c11 : R0.toRat ≤ KH0.toRat - I1.toRat) (c12 : KH1.toRat - I0.toRat ≤ R1.toRat) :
    (sub (mul k Ln2Hi) (sub (sub hfsq (add A (mul k Ln2Lo))) f)).isFin = true ∧
      R0.toRat ≤ (sub (mul k Ln2Hi) (sub (sub hfsq (add A (mul k Ln2Lo))) f)).toRat ∧
      (sub (mul k Ln2Hi) (sub (sub hfsq (add A (mul k Ln2Lo))) f)).toRat ≤ R1.toRat := by
  obtain ⟨khf, khl, khu⟩ := mul_bounds k Ln2Hi KH0 KH1 hk lit_Ln2Hi.1 fKH0 fKH1 c1 c2
  obtain ⟨klf, kll, klu⟩ := mul_bounds k Ln2Lo KL0 KL1 hk lit_Ln2Lo.1 fKL0 fKL1 c3 c4
  obtain ⟨cf, cl, cu⟩ := add_bounds A (mul k Ln2Lo) C0 C1 hA klf fC0 fC1
    (by linarith) (by linarith)
  obtain ⟨bf, bl, bu⟩ := sub_bounds hfsq (add A (mul k Ln2Lo)) B0 B1 hh cf fB0 fB1
    (by linarith) (by linarith)
  obtain ⟨jf, jl, ju⟩ := sub_bounds (sub hfsq (add A (mul k Ln2Lo))) f I0 I1 bf hf fI0 fI1
    (by linarith) (by linarith)
  exact sub_bounds (mul k Ln2Hi) (sub (sub hfsq (add A (mul k Ln2Lo))) f) R0 R1 khf jf fR0 fR1
    (by linarith) (by linarith)

/-- The pieces of `math.Log` for a reduced argument `0 ≤ f ≤ 1/2`. -/
theorem pieces_A (f : Float64) (hf : f.isFin = true) (f0 : 0 ≤ f.toRat) (f1 : f.toRat ≤ 1 / 2) :
    (div f (add two f)).isFin = true ∧ 0 ≤ (div f (add two f)).toRat ∧
      (div f (add two f)).toRat ≤ 1 / 4 ∧
      (mul half f).isFin = true ∧ 0 ≤ (mul half f).toRat ∧ (mul half f).toRat ≤ 1 / 4 ∧
      (mul (mul half f) f).isFin = true ∧ 0 ≤ (mul (mul half f) f).toRat ∧
      (mul (mul half f) f).toRat ≤ 1 / 8 ∧
      (mul (div f (add two f)) (add (mul (mul half f) f) (logR (div f (add two f))))).isFin
        = true ∧
      0 ≤ (mul (div f (add two f)) (add (mul (mul half f) f) (logR (div f (add two f))))).toRat ∧
      (mul (div f (add two f)) (add (mul (mul half f) f) (logR (div f (add two f))))).toRat
        ≤ 1 / 8 := by
  obtain ⟨tf, tl, tu⟩ := add_bounds two f two ⟨0x4010000000000000⟩ lit_two.1 hf lit_two.1
    lit_c4.1 (by rw [lit_two.2]; linarith) (by rw [lit_two.2, lit_c4.2]; linarith)
  rw [lit_two.2] at tl
  rw [lit_c4.2] at tu
  have tpos : (0 : ℚ) < (add two f).toRat := by linarith
  obtain ⟨sf, sl, su⟩ := div_bounds f (add two f) zero ⟨0x3FD0000000000000⟩ hf tf
    (ne_of_gt tpos) lit_zero.1 lit_q4.1
    (by rw [lit_zero.2]; exact div_nonneg f0 (le_of_lt tpos))
    (by
      rw [lit_q4.2, div_le_iff₀ tpos]
      norm_num
      linarith)
  rw [lit_zero.2] at sl
  rw [lit_q4.2] at su
  norm_num at su
  obtain ⟨mf, ml, mu⟩ := mul_nn half f ⟨0x3FD0000000000000⟩ (1 / 2) (1 / 2) lit_half.1 hf
    lit_q4.1 (by rw [lit_half.2]; norm_num) (by rw [lit_half.2]; norm_num) f0 f1
    (by rw [lit_q4.2]; norm_num)
  rw [lit_q4.2] at mu
  norm_num at mu
  obtain ⟨qf, ql, qu⟩ := mul_nn (mul half f) f ⟨0x3FC0000000000000⟩ (1 / 4) (1 / 2) mf hf
    lit_q8.1 ml mu f0 f1 (by rw [lit_q8.2]; norm_num)
  rw [lit_q8.2] at qu
  norm_num at qu
  obtain ⟨rf, rl, ru⟩ := logR_bounds (div f (add two f)) sf (by linarith) su
  obtain ⟨af, al, au⟩ := add_nn (mul (mul half f) f) (logR (div f (add two f))) half
    (1 / 8) (1 / 4) qf rf lit_half.1 ql qu rl ru (by rw [lit_half.2]; norm_num)
  rw [lit_half.2] at au
  norm_num at au
  obtain ⟨pf, pl, pu⟩ := mul_nn (div f (add two f))
    (add (mul (mul half f) f) (logR (div f (add two f)))) ⟨0x3FC0000000000000⟩ (1 / 4) (1 / 2)
    sf af lit_q8.1 sl su al au (by rw [lit_q8.2]; norm_num)
  rw [lit_q8.2] at pu
  norm_num at pu
  exact ⟨sf, sl, su, mf, ml, mu, qf, ql, qu, pf, pl, pu⟩

/-- The pieces of `math.Log` for a reduced argument `-3/8 ≤ f ≤ 0`. -/
theorem pieces_B (f : Float64) (hf : f.isFin = true) (f0 : -(3 / 8) ≤ f.toRat)
    (f1 : f.toRat ≤ 0) :
    (mul (mul half f) f).isFin = true ∧ 0 ≤ (mul (mul half f) f).toRat ∧
      (mul (mul half f) f).toRat ≤ 1 / 8 ∧
      (mul (div f (add two f)) (add (mul (mul half f) f) (logR (div f (add two f))))).isFin
        = true ∧
      -(1 / 8) ≤
        (mul (div f (add two f)) (add (mul (mul half f) f) (logR (div f (add two f))))).toRat ∧
      (mul (div f (add two f)) (add (mul (mul half f) f) (logR (div f (add two f))))).toRat
        ≤ 0 := by
  obtain ⟨tf, tl, tu⟩ := add_bounds two f ⟨0x3FF8000000000000⟩ two lit_two.1 hf lit_c3h.1
    lit_two.1 (by rw [lit_two.2, lit_c3h.2]; norm_num; linarith) (by rw [lit_two.2]; linarith)
  rw [lit_c3h.2] at tl
  rw [lit_two.2] at tu
  norm_num at tl
  have tpos : (0 : ℚ) < (add two f).toRat := by linarith
  obtain ⟨sf, sl, su⟩ := div_bounds f (add two f) ⟨0xBFD0000000000000⟩ zero hf tf
    (ne_of_gt tpos) lit_n4.1 lit_zero.1
    (by
      rw [lit_n4.2, le_div_iff₀ tpos]
      norm_num
      linarith)
    (by rw [lit_zero.2]; exact div_nonpos_of_nonpos_of_nonneg f1 (le_of_lt tpos))
  rw [lit_n4.2] at sl
  rw [lit_zero.2] at su
  norm_num at sl
  obtain ⟨mf, ml, mu⟩ := mul_bounds half f ⟨0xBFD0000000000000⟩ zero lit_half.1 hf
    lit_n4.1 lit_zero.1
    (by rw [lit_half.2, lit_n4.2]; norm_num; linarith)
    (by rw [lit_half.2, lit_zero.2]; norm_num; linarith)
  rw [lit_n4.2] at ml
  rw [lit_zero.2] at mu
  norm_num at ml
  obtain ⟨qf, ql, qu⟩ := mul_bounds (mul half f) f zero ⟨0x3FC0000000000000⟩ mf hf
    lit_zero.1 lit_q8.1
    (by rw [lit_zero.2]; exact mul_nonneg_of_nonpos_of_nonpos mu f1)
    (by rw [lit_q8.2]; norm_num; nlinarith)
  rw [lit_zero.2] at ql
  rw [lit_q8.2] at qu
  norm_num at qu
  obtain ⟨rf, rl, ru⟩ := logR_bounds (div f (add two f)) sf sl (by linarith)
  obtain ⟨af, al, au⟩ := add_nn (mul (mul half f) f) (logR (div f (add two f))) half
    (1 / 8) (1 / 4) qf rf lit_half.1 ql qu rl ru (by rw [lit_half.2]; norm_num)
  rw [lit_half.2] at au
  norm_num at au
  obtain ⟨pf, pl, pu⟩ := mul_bounds (div f (add two f))
    (add (mul (mul half f) f) (logR (div f (add two f)))) ⟨0xBFC0000000000000⟩ zero
    sf af lit_n18.1 lit_zero.1
    (by rw [lit_n18.2]; norm_num; nlinarith)
    (by rw [lit_zero.2]; exact mul_nonpos_of_nonpos_of_nonneg su al)
  rw [lit_n18.2] at pl
  rw [lit_zero.2] at pu
  norm_num at pl
  exact ⟨qf, ql, qu, pf, pl, pu⟩

/-! ### The last line of `math.Log` -/

/-- The last line of `math.Log` for `0 ≤ f ≤ 1/2` and an exponent `k ≤ -1`: a
negative number. -/
theorem logTail_A (f k : Float64) (hf : f.isFin = true) (hk : k.isFin = true)
    (f0 : 0 ≤ f.toRat) (f1 : f.toRat ≤ 1 / 2) (k0 : -2048 ≤ k.toRat) (k1 : k.toRat ≤ -1) :
    (logTail f k).isFin = true ∧ -4096 ≤ (logTail f k).toRat ∧
      (logTail f k).toRat ≤ -(1 / 16) := by
  obtain ⟨sf, sl, su, mf, ml, mu, qf, ql, qu, pf, pl, pu⟩ := pieces_A f hf f0 f1
  have h := tail_chain (mul (mul half f) f)
    (mul (div f (add two f)) (add (mul (mul half f) f) (logR (div f (add two f))))) f k
    0 (1 / 8) 0 (1 / 8) 0 (1 / 2) qf pf hf hk ql qu pl pu f0 f1
    ⟨0xC0A0000000000000⟩ ⟨0xBFE62E42FEE00000⟩ ⟨0xBFF0000000000000⟩ zero
    ⟨0xBFF0000000000000⟩ ⟨0x3FC0000000000000⟩ ⟨0xBFC0000000000000⟩ two
    ⟨0xBFE4000000000000⟩ two ⟨0xC0B0000000000000⟩ ⟨0xBFB0000000000000⟩
    lit_n2048.1 lit_negLn2Hi.1 lit_n1.1 lit_zero.1 lit_n1.1 lit_q8.1 lit_n18.1 lit_two.1
    lit_n58.1 lit_two.1 lit_n4096.1 lit_n16.1
    (by rw [lit_n2048.2, lit_Ln2Hi.2]; linarith)
    (by rw [lit_negLn2Hi.2, lit_Ln2Hi.2]; linarith)
    (by rw [lit_n1.2, lit_Ln2Lo.2]; linarith)
    (by rw [lit_zero.2, lit_Ln2Lo.2]; linarith)
    (by rw [lit_n1.2]; norm_num)
    (by rw [lit_zero.2, lit_q8.2]; norm_num)
    (by rw [lit_n18.2, lit_q8.2]; norm_num)
    (by rw [lit_n1.2, lit_two.2]; norm_num)
    (by rw [lit_n58.2, lit_n18.2]; norm_num)
    (by rw [lit_two.2]; norm_num)
    (by rw [lit_n4096.2, lit_n2048.2, lit_two.2]; norm_num)
    (by rw [lit_negLn2Hi.2, lit_n58.2, lit_n16.2]; norm_num)
  rw [lit_n4096.2, lit_n16.2] at h
  norm_num at h
  unfold logTail
  refine ⟨h.1, ?_, ?_⟩
  · linarith [h.2.1]
  · linarith [h.2.2]

/-- The last line of `math.Log` for `-3/8 ≤ f < 0` and an exponent `k ≤ 0`: a
negative number. -/
theorem logTail_B (f k : Float64) (hf : f.isFin = true) (hk : k.isFin = true)
    (f0 : -(3 / 8) ≤ f.toRat) (f1 : f.toRat ≤ -(1 / 2 ^ 53)) (k0 : -2048 ≤ k.toRat)
    (k1 : k.toRat ≤ 0) :
    (logTail f k).isFin = true ∧ -4096 ≤ (logTail f k).toRat ∧
      (logTail f k).toRat ≤ -(1 / 2 ^ 53) := by
  have f1b : f.toRat ≤ 0 := le_trans f1 (by norm_num)
  obtain ⟨qf, ql, qu, pf, pl, pu⟩ := pieces_B f hf f0 f1b
  have h := tail_chain (mul (mul half f) f)
    (mul (div f (add two f)) (add (mul (mul half f) f) (logR (div f (add two f))))) f k
    0 (1 / 8) (-(1 / 8)) 0 (-(3 / 8)) (-(1 / 2 ^ 53)) qf pf hf hk ql qu pl pu f0 f1
    ⟨0xC0A0000000000000⟩ zero ⟨0xBFF0000000000000⟩ zero
    ⟨0xC000000000000000⟩ zero zero ⟨0x4010000000000000⟩
    ⟨0x3CA0000000000000⟩ ⟨0x4020000000000000⟩ ⟨0xC0B0000000000000⟩ ⟨0xBCA0000000000000⟩
    lit_n2048.1 lit_zero.1 lit_n1.1 lit_zero.1 lit_n2.1 lit_zero.1 lit_zero.1 lit_c4.1
    lit_p53.1 lit_c8.1 lit_n4096.1 lit_n53.1
    (by rw [lit_n2048.2, lit_Ln2Hi.2]; linarith)
    (by rw [lit_zero.2, lit_Ln2Hi.2]; linarith)
    (by rw [lit_n1.2, lit_Ln2Lo.2]; linarith)
    (by rw [lit_zero.2, lit_Ln2Lo.2]; linarith)
    (by rw [lit_n2.2, lit_n1.2]; norm_num)
    (by rw [lit_zero.2]; norm_num)
    (by rw [lit_zero.2]; norm_num)
    (by rw [lit_n2.2, lit_c4.2]; norm_num)
    (by rw [lit_p53.2, lit_zero.2]; norm_num)
    (by rw [lit_c4.2, lit_c8.2]; norm_num)
    (by rw [lit_n4096.2, lit_n2048.2, lit_c8.2]; norm_num)
    (by rw [lit_zero.2, lit_p53.2, lit_n53.2]; norm_num)
  rw [lit_n4096.2, lit_n53.2] at h
  unfold logTail
  refine ⟨h.1, ?_, ?_⟩
  · linarith [h.2.1]
  · linarith [h.2.2]

/-- The last line of `math.Log` for `-3/8 ≤ f < 0` and the exponent 0: between
`-5/8` and 0. -/
theorem logTail_B0 (f k : Float64) (hf : f.isFin = true) (hk : k.isFin = true)
    (f0 : -(3 / 8) ≤ f.toRat) (f1 : f.toRat ≤ -(1 / 2 ^ 53)) (k0 : k.toRat = 0) :
    (logTail f k).isFin = true ∧ -(5 / 8) ≤ (logTail f k).toRat ∧
      (logTail f k).toRat ≤ -(1 / 2 ^ 53) := by
  have f1b : f.toRat ≤ 0 := le_trans f1 (by norm_num)
  obtain ⟨qf, ql, qu, pf, pl, pu⟩ := pieces_B f hf f0 f1b
  have h := tail_chain (mul (mul half f) f)
    (mul (div f (add two f)) (add (mul (mul half f) f) (logR (div f (add two f))))) f k
    0 (1 / 8) (-(1 / 8)) 0 (-(3 / 8)) (-(1 / 2 ^ 53)) qf pf hf hk ql qu pl pu f0 f1
    zero zero zero zero
    ⟨0xBFC0000000000000⟩ zero zero ⟨0x3FD0000000000000⟩
    ⟨0x3CA0000000000000⟩ ⟨0x3FE4000000000000⟩ ⟨0xBFE4000000000000⟩ ⟨0xBCA0000000000000⟩
    lit_zero.1 lit_zero.1 lit_zero.1 lit_zero.1 lit_n18.1 lit_zero.1 lit_zero.1 lit_q4.1
    lit_p53.1 lit_c58.1 lit_n58.1 lit_n53.1
    (by rw [lit_zero.2, k0]; norm_num)
    (by rw [lit_zero.2, k0]; norm_num)
    (by rw [lit_zero.2, k0]; norm_num)
    (by rw [lit_zero.2, k0]; norm_num)
    (by rw [lit_n18.2, lit_zero.2]; norm_num)
    (by rw [lit_zero.2]; norm_num)
    (by rw [lit_zero.2]; norm_num)
    (by rw [lit_n18.2, lit_q4.2]; norm_num)
    (by rw [lit_p53.2, lit_zero.2]; norm_num)
    (by rw [lit_q4.2, lit_c58.2]; norm_num)
    (by rw [lit_n58.2, lit_zero.2, lit_c58.2]; norm_num)
    (by rw [lit_zero.2, lit_p53.2, lit_n53.2]; norm_num)
  rw [lit_n58.2, lit_n53.2] at h
  unfold logTail
  refine ⟨h.1, ?_, ?_⟩
  · linarith [h.2.1]
  · linarith [h.2.2]

/-! ### The last line of `math.Log` next to `ln 2` -/

/-- The last line of `math.Log` for `2 ^ -52 ≤ f ≤ 1/2` and the exponent `-1`: at
least `-0x3FE62E42FEFA39EE`, the largest `float64` whose product with `1/Ln2` stays
below 1. -/
theorem logTail_A1 (f k : Float64) (hf : f.isFin = true) (hk : k.isFin = true)
    (f0 : 1 / 2 ^ 52 ≤ f.toRat) (f1 : f.toRat ≤ 1 / 2) (k0 : k.toRat = -1) :
    (logTail f k).isFin = true ∧ -(3121657384082679 / 2 ^ 52) ≤ (logTail f k).toRat ∧
      (logTail f k).toRat ≤ -(1 / 16) := by
  have f0b : 0 ≤ f.toRat := le_trans (by norm_num) f0
  obtain ⟨sf, sl, su, mf, ml, mu, qf, ql, qu, pf, pl, pu⟩ := pieces_A f hf f0b f1
  -- `0.5 * f` and `hfsq`, each at most one part in `2 ^ 53` above the exact product
  have hm := mul_rel_le half f lit_half.1 hf mf (f.toRat / 2) ⟨0x3FD0000000000000⟩ lit_q4.1
    (by rw [lit_half.2]; linarith)
    (by
      have : (1 : ℚ) / 2 ^ 1022 ≤ 1 / 2 ^ 53 := by norm_num
      linarith)
    (by rw [lit_q4.2]; norm_num; linarith)
  have hprod : (mul half f).toRat * f.toRat ≤ f.toRat * (1 + 1 / 2 ^ 53) / 4 := by
    have h1 : (mul half f).toRat * f.toRat ≤ (mul half f).toRat * (1 / 2) :=
      mul_le_mul_of_nonneg_left f1 ml
    linarith
  have hq := mul_rel_le (mul half f) f mf hf qf (f.toRat * (1 + 1 / 2 ^ 53) / 4)
    ⟨0x3FD0000000000000⟩ lit_q4.1 hprod
    (by
      have : (1 : ℚ) / 2 ^ 1022 ≤ 1 / 2 ^ 52 * (1 + 1 / 2 ^ 53) / 4 := by norm_num
      linarith)
    (by rw [lit_q4.2]; norm_num; linarith)
  -- the two products with `k = -1` are exact
  obtain ⟨khf, khl, khu⟩ := mul_bounds k Ln2Hi ⟨0xBFE62E42FEE00000⟩ ⟨0xBFE62E42FEE00000⟩ hk
    lit_Ln2Hi.1 lit_negLn2Hi.1 lit_negLn2Hi.1
    (by rw [lit_negLn2Hi.2, lit_Ln2Hi.2, k0]; norm_num)
    (by rw [lit_negLn2Hi.2, lit_Ln2Hi.2, k0]; norm_num)
  rw [lit_negLn2Hi.2] at khl khu
  obtain ⟨klf, kll, klu⟩ := mul_bounds k Ln2Lo ⟨0xBDEA39EF35793C76⟩ ⟨0xBDEA39EF35793C76⟩ hk
    lit_Ln2Lo.1 lit_negLn2Lo.1 lit_negLn2Lo.1
    (by rw [lit_negLn2Lo.2, lit_Ln2Lo.2, k0]; norm_num)
    (by rw [lit_negLn2Lo.2, lit_Ln2Lo.2, k0]; norm_num)
  rw [lit_negLn2Lo.2] at kll klu
  obtain ⟨cf, cl, cu⟩ := add_bounds
    (mul (div f (add two f)) (add (mul (mul half f) f) (logR (div f (add two f)))))
    (mul k Ln2Lo) ⟨0xBDEA39EF35793C76⟩ ⟨0x3FC0000000000000⟩ pf klf lit_negLn2Lo.1 lit_q8.1
    (by rw [lit_negLn2Lo.2]; linarith)
    (by rw [lit_q8.2]; norm_num; linarith)
  rw [lit_negLn2Lo.2] at cl
  rw [lit_q8.2] at cu
  norm_num at cu
  obtain ⟨bf, bl, bu⟩ := sub_bounds (mul (mul half f) f)
    (add (mul (div f (add two f)) (add (mul (mul half f) f) (logR (div f (add two f)))))
      (mul k Ln2Lo)) ⟨0xBFC0000000000000⟩ one qf cf lit_n18.1 lit_one.1
    (by rw [lit_n18.2]; norm_num; linarith)
    (by rw [lit_one.2]; linarith)
  rw [lit_n18.2] at bl
  norm_num at bl
  have hb := sub_rel_le (mul (mul half f) f)
    (add (mul (div f (add two f)) (add (mul (mul half f) f) (logR (div f (add two f)))))
      (mul k Ln2Lo)) qf cf bf
    ((mul (mul half f) f).toRat + 3691024475790907 / 2 ^ 84) one lit_one.1
    (by linarith)
    (by
      have : (1 : ℚ) / 2 ^ 1022 ≤ 3691024475790907 / 2 ^ 84 := by norm_num
      linarith)
    (by rw [lit_one.2]; linarith)
  obtain ⟨jf, jl, ju⟩ := sub_bounds
    (sub (mul (mul half f) f)
      (add (mul (div f (add two f)) (add (mul (mul half f) f) (logR (div f (add two f)))))
        (mul k Ln2Lo))) f ⟨0xBFE4000000000000⟩ ⟨0x3DEA39EE00000000⟩ bf hf lit_n58.1 lit_T0.1
    (by rw [lit_n58.2]; norm_num; linarith)
    (by
      rw [lit_T0.2]
      have e1 : (mul (mul half f) f).toRat * (1 + 1 / 2 ^ 53)
          ≤ f.toRat * (1 + 1 / 2 ^ 53) / 4 * (1 + 1 / 2 ^ 53) * (1 + 1 / 2 ^ 53) :=
        mul_le_mul_of_nonneg_right hq (by norm_num)
      linarith)
  rw [lit_n58.2] at jl
  rw [lit_T0.2] at ju
  have h := sub_bounds (mul k Ln2Hi)
    (sub (sub (mul (mul half f) f)
      (add (mul (div f (add two f)) (add (mul (mul half f) f) (logR (div f (add two f)))))
        (mul k Ln2Lo))) f) ⟨0xBFE62E42FEFA39EE⟩ ⟨0xBFB0000000000000⟩ khf jf lit_negT.1 lit_n16.1
    (by rw [lit_negT.2]; linarith)
    (by rw [lit_n16.2]; linarith)
  rw [lit_negT.2, lit_n16.2] at h
  unfold logTail
  refine ⟨h.1, h.2.1, ?_⟩
  linarith [h.2.2]

/-! ### The function `Frexp` -/

/-- The scaled magnitude of a finite value is below `2 ^ 2100`. -/
theorem natAbs_lt (x : Float64) (a : Int) (h : x.val = .fin a) :
    (a.natAbs : ℚ) < (2 : ℚ) ^ (2100 : Int) := by
  have h1 := val_le_max x a h
  unfold scale at h1
  rw [div_le_iff₀ (by positivity)] at h1
  refine lt_of_le_of_lt h1 ?_
  rw [show ((2100 : Int)) = ((2100 : Nat) : Int) from rfl, zpow_natCast]
  have h2 : ((2 : ℚ) ^ 53 - 1) * 2 ^ 971 * 2 ^ 1075 < 2 ^ 53 * 2 ^ 971 * 2 ^ 1075 := by
    have h3 : (0 : ℚ) < 2 ^ 971 * 2 ^ 1075 := by positivity
    nlinarith
  refine lt_of_lt_of_le h2 ?_
  rw [← pow_add, ← pow_add]
  exact pow_le_pow_right₀ (by norm_num) (by norm_num)

/-- The scale as an integer power of two. -/
theorem scale_zpow : scale = (2 : ℚ) ^ (1075 : Int) := by
  unfold scale
  rw [show ((1075 : Int)) = ((1075 : Nat) : Int) from rfl, zpow_natCast]

/-- A finite value in `[1/2, 1)` is a multiple of `2 ^ -53`. -/
theorem half_to_one_grid (x : Float64) (hx : x.isFin = true) (h1 : 1 / 2 ≤ x.toRat)
    (h2 : x.toRat < 1) : ∃ z : Nat, x.toRat = (z : ℚ) / 2 ^ 53 := by
  obtain ⟨a, hv, hr⟩ := val_of_isFin x hx
  have ha : 0 < a := pos_of_toRat x a hv (by linarith)
  have hna := natAbs_cast_of_nonneg a (le_of_lt ha)
  obtain ⟨z, hz⟩ := val_integral x a hv (-1) (Or.inl (by
    rw [hna, ← hr]
    norm_num
    linarith))
  refine ⟨z, ?_⟩
  rw [hz, hna, ← hr]
  norm_num

/-- The function `Frexp` on a positive finite value: the fraction is in `[1/2, 1)`
and `x = frac * 2 ^ exp` exactly. -/
theorem Frexp_spec (x : Float64) (hx : x.isFin = true) (h0 : 0 < x.toRat) :
    (Frexp x).1.isFin = true ∧ 1 / 2 ≤ (Frexp x).1.toRat ∧ (Frexp x).1.toRat < 1 ∧
      x.toRat = (Frexp x).1.toRat * (2 : ℚ) ^ ((Frexp x).2) := by
  obtain ⟨a, hv, hr⟩ := val_of_isFin x hx
  have ha : 0 < a := pos_of_toRat x a hv h0
  have hna := natAbs_cast_of_nonneg a (le_of_lt ha)
  have hsign := (sign_of_val x a hv).1 ha
  have hn : 0 < a.natAbs := by omega
  have hFr : Frexp x = (round false a.natAbs (2 ^ ((ilog2 a.natAbs 1).toNat + 1)),
      ilog2 a.natAbs 1 + 1 - 1075) := by
    unfold Frexp
    rw [hv]
    simp only [if_neg (ne_of_gt ha), hsign]
  have hlow1 : (2 : ℚ) ^ (-8192 : Int) ≤ (a.natAbs : ℚ) / ((1 : Nat) : ℚ) := by
    rw [Nat.cast_one]
    exact low_of_pos _ _ hn one_pos (one_le_zpow₀ (by norm_num) (by norm_num))
  obtain ⟨hL1, hL2⟩ := ilog2_spec a.natAbs 1 Nat.one_pos hlow1
  rw [Nat.cast_one, div_one] at hL1 hL2
  generalize ilog2 a.natAbs 1 = L at hFr hL1 hL2
  have hlt := natAbs_lt x a hv
  have hLlt : L < 2100 :=
    (zpow_lt_zpow_iff_right₀ (by norm_num : (1 : ℚ) < 2)).mp (lt_of_le_of_lt hL1 hlt)
  have hL3 : (a.natAbs : ℚ) < (2 : ℚ) ^ (L + 1) := by
    rcases hL2 with h | h
    · exact h
    · omega
  have hL0 : 0 ≤ L := by
    have h1 : (2 : ℚ) ^ (0 : Int) < (2 : ℚ) ^ (L + 1) := by
      rw [zpow_zero]
      have : (1 : ℚ) ≤ a.natAbs := by exact_mod_cast hn
      linarith
    have := (zpow_lt_zpow_iff_right₀ (by norm_num : (1 : ℚ) < 2)).mp h1
    omega
  obtain ⟨Ln, hLn⟩ := Int.eq_ofNat_of_zero_le hL0
  subst hLn
  rw [Int.toNat_natCast] at hFr
  have hP : (((2 ^ (Ln + 1) : Nat)) : ℚ) = (2 : ℚ) ^ ((Ln : Int) + 1) := by
    rw [Nat.cast_pow, Nat.cast_ofNat, ← zpow_natCast]
    congr 1
  have hPpos : (0 : ℚ) < (2 : ℚ) ^ ((Ln : Int) + 1) := by positivity
  have hPL : (2 : ℚ) ^ ((Ln : Int) + 1) = 2 * (2 : ℚ) ^ ((Ln : Int)) := by
    rw [zpow_add₀ (by norm_num : (2 : ℚ) ≠ 0), zpow_one, mul_comm]
  have hq1 : (1 : ℚ) / 2 ≤ (a.natAbs : ℚ) / ((2 ^ (Ln + 1) : Nat) : ℚ) := by
    rw [hP, le_div_iff₀ hPpos, hPL]
    linarith
  have hq2 : (a.natAbs : ℚ) / ((2 ^ (Ln + 1) : Nat) : ℚ) < 1 := by
    rw [hP, div_lt_iff₀ hPpos]
    linarith
  have hlow2 : (2 : ℚ) ^ (-8192 : Int) ≤ (a.natAbs : ℚ) / ((2 ^ (Ln + 1) : Nat) : ℚ) := by
    refine le_trans ?_ hq1
    rw [show ((-8192 : Int)) = -((8192 : Nat) : Int) from rfl, zpow_neg, zpow_natCast]
    rw [inv_le_comm₀ (by positivity) (by norm_num)]
    norm_num
  obtain ⟨z, hz⟩ := val_integral x a hv ((Ln : Int) - 1075) (Or.inl (by
    rw [le_div_iff₀ scale_pos, scale_zpow, ← zpow_add₀ (by norm_num : (2 : ℚ) ≠ 0)]
    have : (Ln : Int) - 1075 + 1075 = Ln := by ring
    rw [this]
    exact hL1))
  have hz2 : (z : ℚ) = (a.natAbs : ℚ) / ((2 ^ (Ln + 1) : Nat) : ℚ) * (2 : ℚ) ^ (52 - (-1) : Int) := by
    rw [hz, hP, scale_zpow, div_mul_eq_mul_div, div_mul_eq_mul_div, div_eq_div_iff
      (by positivity) (by positivity), mul_assoc, mul_assoc,
      ← zpow_add₀ (by norm_num : (2 : ℚ) ≠ 0), ← zpow_add₀ (by norm_num : (2 : ℚ) ≠ 0)]
    congr 2
    ring
  have hone : (a.natAbs : ℚ) / ((2 ^ (Ln + 1) : Nat) : ℚ)
      ≤ (((2 ^ 1075 : Nat) : Int).natAbs : ℚ) / scale := by
    rw [Int.natAbs_ofNat, scale_cast, div_self (ne_of_gt scale_pos)]
    exact le_of_lt hq2
  have hvone : one.val = .fin ((2 ^ 1075 : Nat) : Int) := by
    set_option exponentiation.threshold 3000 in
    decide
  obtain ⟨c, hc1, hc2⟩ := roundPos_exact a.natAbs (2 ^ (Ln + 1)) (Nat.two_pow_pos _) hlow2
    one _ hvone hone (-1) (by norm_num)
    (Or.inl (by
      rw [show ((-1 : Int)) = -((1 : Nat) : Int) from rfl, zpow_neg, zpow_natCast, pow_one]
      rw [← one_div]
      exact hq1))
    (by
      rw [show ((-1 : Int) + 1) = 0 from rfl, zpow_zero]
      exact hq2)
    z hz2 false
  simp only [Bool.false_eq_true, if_false] at hc1
  have hround : (round false a.natAbs (2 ^ (Ln + 1))).val = .fin (c : Int) := by
    unfold round
    rw [if_neg (by omega)]
    exact hc1
  obtain ⟨k1, k2⟩ := toRat_of_val _ _ hround
  rw [hFr]
  simp only []
  rw [k2]
  have hc3 : ((c : Int) : ℚ) / scale = (a.natAbs : ℚ) / ((2 ^ (Ln + 1) : Nat) : ℚ) := by
    rw [Int.cast_natCast]
    exact hc2
  rw [hc3]
  refine ⟨k1, hq1, hq2, ?_⟩
  rw [hr, ← hna, hP, scale_zpow, div_mul_eq_mul_div, div_eq_div_iff (by positivity)
    (by positivity), mul_assoc, ← zpow_add₀ (by norm_num : (2 : ℚ) ≠ 0)]
  congr 2
  ring

/-! ### Bounds for `math.Log` -/

/-- A power of two with a positive exponent is at least 2. -/
theorem two_zpow_ge (k : Int) (h : 1 ≤ k) : (2 : ℚ) ≤ (2 : ℚ) ^ k := by
  have := zpow_le_zpow_right₀ (by norm_num : (1 : ℚ) ≤ 2) h
  rwa [zpow_one] at this

/-- A power of two with a negative exponent is at most one half. -/
theorem two_zpow_le (k : Int) (h : k ≤ -1) : (2 : ℚ) ^ k ≤ 1 / 2 := by
  have := zpow_le_zpow_right₀ (by norm_num : (1 : ℚ) ≤ 2) h
  rw [show ((-1 : Int)) = -((1 : Nat) : Int) from rfl, zpow_neg, zpow_natCast, pow_one,
    ← one_div] at this
  exact this

/-- The function `math.Log` on a finite `0 < x < 1`: a negative finite number. -/
theorem Log_neg_of_lt_one (x : Float64) (hx : x.isFin = true) (h0 : 0 < x.toRat)
    (h1 : x.toRat < 1) :
    (Log x).isFin = true ∧ -4096 ≤ (Log x).toRat ∧ (Log x).toRat ≤ -(1 / 2 ^ 53) := by
  obtain ⟨a, hv, hr⟩ := val_of_isFin x hx
  have ha : 0 < a := pos_of_toRat x a hv h0
  obtain ⟨gf, g1, g2, gx⟩ := Frexp_spec x hx h0
  rw [Log_eq x a hv ha]
  generalize (Frexp x).1 = g at gf g1 g2 gx ⊢
  generalize (Frexp x).2 = kk at gx ⊢
  have hpow : (0 : ℚ) < (2 : ℚ) ^ kk := by positivity
  have hk0 : kk ≤ 0 := by
    by_contra hc
    have h2 := two_zpow_ge kk (by omega)
    nlinarith
  have hk1 : -1075 < kk := by
    have h3 : (2 : ℚ) ^ (-1075 : Int) ≤ x.toRat := by
      rw [hr, le_div_iff₀ scale_pos, scale_zpow, ← zpow_add₀ (by norm_num : (2 : ℚ) ≠ 0)]
      norm_num
      exact_mod_cast ha
    have h4 : x.toRat < (2 : ℚ) ^ kk := by
      rw [gx]
      nlinarith
    exact (zpow_lt_zpow_iff_right₀ (by norm_num : (1 : ℚ) < 2)).mp (lt_of_le_of_lt h3 h4)
  by_cases hlt : lt g halfSqrt2 = true
  · rw [if_pos hlt, if_pos hlt]
    have hgs := (lt_iff g halfSqrt2 gf lit_halfSqrt2.1).mp hlt
    rw [lit_halfSqrt2.2] at hgs
    obtain ⟨mf, ml, mu⟩ := mul_bounds g two one ⟨0x3FF8000000000000⟩ gf lit_two.1 lit_one.1
      lit_c3h.1 (by rw [lit_one.2, lit_two.2]; linarith)
      (by
        rw [lit_c3h.2, lit_two.2]
        norm_num at hgs ⊢
        linarith)
    rw [lit_one.2] at ml
    rw [lit_c3h.2] at mu
    obtain ⟨ff, fl, fu⟩ := sub_bounds (mul g two) one zero half mf lit_one.1 lit_zero.1
      lit_half.1 (by rw [lit_zero.2, lit_one.2]; linarith)
      (by
        rw [lit_half.2, lit_one.2]
        norm_num at mu ⊢
        linarith)
    rw [lit_zero.2] at fl
    rw [lit_half.2] at fu
    norm_num at fu
    obtain ⟨kf, kl, ku⟩ := ofInt_bounds (kk - 1) ⟨0xC0A0000000000000⟩ ⟨0xBFF0000000000000⟩
      lit_n2048.1 lit_n1.1
      (by
        rw [lit_n2048.2]
        have : (-2048 : Int) ≤ kk - 1 := by omega
        exact_mod_cast this)
      (by
        rw [lit_n1.2]
        have : kk - 1 ≤ (-1 : Int) := by omega
        exact_mod_cast this)
    rw [lit_n2048.2] at kl
    rw [lit_n1.2] at ku
    obtain ⟨rf, rl, ru⟩ := logTail_A (sub (mul g two) one) (ofInt (kk - 1)) ff kf fl
      (by linarith) kl ku
    refine ⟨rf, rl, ?_⟩
    have : (-(1 / 16) : ℚ) ≤ -(1 / 2 ^ 53) := by norm_num
    linarith
  · rw [if_neg hlt, if_neg hlt]
    have hgs : halfSqrt2.toRat ≤ g.toRat := by
      by_contra hc
      exact hlt ((lt_iff g halfSqrt2 gf lit_halfSqrt2.1).mpr (not_le.mp hc))
    rw [lit_halfSqrt2.2] at hgs
    obtain ⟨z, hz⟩ := half_to_one_grid g gf g1 g2
    have hz1 : g.toRat ≤ 1 - 1 / 2 ^ 53 := by
      rw [hz] at g2 ⊢
      rw [div_lt_one (by positivity)] at g2
      have h5 : z < 2 ^ 53 := by exact_mod_cast g2
      have h6 : z + 1 ≤ 2 ^ 53 := h5
      have h7 : ((z + 1 : Nat) : ℚ) ≤ ((2 ^ 53 : Nat) : ℚ) := by exact_mod_cast h6
      rw [div_le_iff₀ (by positivity)]
      push_cast at h7
      linarith
    obtain ⟨ff, fl, fu⟩ := sub_bounds g one ⟨0xBFD8000000000000⟩ ⟨0xBCA0000000000000⟩ gf
      lit_one.1 lit_n38.1 lit_n53.1
      (by
        rw [lit_n38.2, lit_one.2]
        norm_num at hgs ⊢
        linarith)
      (by rw [lit_n53.2, lit_one.2]; linarith)
    rw [lit_n38.2] at fl
    rw [lit_n53.2] at fu
    norm_num at fl
    obtain ⟨kf, kl, ku⟩ := ofInt_bounds kk ⟨0xC0A0000000000000⟩ zero lit_n2048.1 lit_zero.1
      (by
        rw [lit_n2048.2]
        have : (-2048 : Int) ≤ kk := by omega
        exact_mod_cast this)
      (by
        rw [lit_zero.2]
        exact_mod_cast hk0)
    rw [lit_n2048.2] at kl
    rw [lit_zero.2] at ku
    exact logTail_B (sub g one) (ofInt kk) ff kf (by linarith) fu kl ku

/-- The function `math.Log` on a finite `1/2 < g < 1`: between
`-0x3FE62E42FEFA39EE` and 0. -/
theorem Log_frac (g : Float64) (hg : g.isFin = true) (h0 : 1 / 2 < g.toRat)
    (h1 : g.toRat < 1) :
    (Log g).isFin = true ∧ -(3121657384082679 / 2 ^ 52) ≤ (Log g).toRat ∧
      (Log g).toRat ≤ 0 := by
  obtain ⟨a, hv, hr⟩ := val_of_isFin g hg
  have hpos : 0 < g.toRat := by linarith
  have ha : 0 < a := pos_of_toRat g a hv hpos
  obtain ⟨z, hz⟩ := half_to_one_grid g hg (le_of_lt h0) h1
  have hz0 : 1 / 2 + 1 / 2 ^ 53 ≤ g.toRat := by
    rw [hz] at h0 ⊢
    rw [lt_div_iff₀ (by positivity)] at h0
    have h5 : (2 : ℚ) ^ 52 < z := by
      norm_num at h0 ⊢
      linarith
    have h6 : 2 ^ 52 < z := by exact_mod_cast h5
    have h7 : 2 ^ 52 + 1 ≤ z := h6
    have h8 : ((2 ^ 52 + 1 : Nat) : ℚ) ≤ (z : ℚ) := by exact_mod_cast h7
    rw [le_div_iff₀ (by positivity)]
    push_cast at h8
    linarith
  have hz1 : g.toRat ≤ 1 - 1 / 2 ^ 53 := by
    rw [hz] at h1 ⊢
    rw [div_lt_one (by positivity)] at h1
    have h5 : z < 2 ^ 53 := by exact_mod_cast h1
    have h6 : z + 1 ≤ 2 ^ 53 := h5
    have h7 : ((z + 1 : Nat) : ℚ) ≤ ((2 ^ 53 : Nat) : ℚ) := by exact_mod_cast h6
    rw [div_le_iff₀ (by positivity)]
    push_cast at h7
    linarith
  obtain ⟨gf, g1, g2, gx⟩ := Frexp_spec g hg hpos
  rw [Log_eq g a hv ha]
  generalize (Frexp g).1 = g' at gf g1 g2 gx ⊢
  generalize (Frexp g).2 = kk at gx ⊢
  have hkk : kk = 0 := by
    have hpow : (0 : ℚ) < (2 : ℚ) ^ kk := by positivity
    by_contra hc
    rcases lt_or_gt_of_ne hc with h | h
    · have h2 := two_zpow_le kk (by omega)
      nlinarith
    · have h2 := two_zpow_ge kk (by omega)
      nlinarith
  subst hkk
  rw [zpow_zero, mul_one] at gx
  rw [gx] at hz0 hz1
  by_cases hlt : lt g' halfSqrt2 = true
  · rw [if_pos hlt, if_pos hlt]
    have hgs := (lt_iff g' halfSqrt2 gf lit_halfSqrt2.1).mp hlt
    rw [lit_halfSqrt2.2] at hgs
    obtain ⟨mf, ml, mu⟩ := mul_bounds g' two ⟨0x3FF0000000000001⟩ ⟨0x3FF8000000000000⟩ gf
      lit_two.1 lit_next1.1 lit_c3h.1
      (by
        rw [lit_next1.2, lit_two.2]
        norm_num at hz0 ⊢
        linarith)
      (by
        rw [lit_c3h.2, lit_two.2]
        norm_num at hgs ⊢
        linarith)
    rw [lit_next1.2] at ml
    rw [lit_c3h.2] at mu
    obtain ⟨ff, fl, fu⟩ := sub_bounds (mul g' two) one ⟨0x3CB0000000000000⟩ half mf lit_one.1
      lit_p52.1 lit_half.1
      (by
        rw [lit_p52.2, lit_one.2]
        norm_num at ml ⊢
        linarith)
      (by
        rw [lit_half.2, lit_one.2]
        norm_num at mu ⊢
        linarith)
    rw [lit_p52.2] at fl
    rw [lit_half.2] at fu
    norm_num at fu
    obtain ⟨kf, kl, ku⟩ := ofInt_bounds (0 - 1) ⟨0xBFF0000000000000⟩ ⟨0xBFF0000000000000⟩
      lit_n1.1 lit_n1.1 (by rw [lit_n1.2]; norm_num) (by rw [lit_n1.2]; norm_num)
    rw [lit_n1.2] at kl ku
    have hk : (ofInt (0 - 1)).toRat = -1 := le_antisymm ku kl
    obtain ⟨rf, rl, ru⟩ := logTail_A1 (sub (mul g' two) one) (ofInt (0 - 1)) ff kf fl
      (by linarith) hk
    refine ⟨rf, rl, ?_⟩
    exact le_trans ru (by norm_num)
  · rw [if_neg hlt, if_neg hlt]
    have hgs : halfSqrt2.toRat ≤ g'.toRat := by
      by_contra hc
      exact hlt ((lt_iff g' halfSqrt2 gf lit_halfSqrt2.1).mpr (not_le.mp hc))
    rw [lit_halfSqrt2.2] at hgs
    obtain ⟨ff, fl, fu⟩ := sub_bounds g' one ⟨0xBFD8000000000000⟩ ⟨0xBCA0000000000000⟩ gf
      lit_one.1 lit_n38.1 lit_n53.1
      (by
        rw [lit_n38.2, lit_one.2]
        norm_num at hgs ⊢
        linarith)
      (by rw [lit_n53.2, lit_one.2]; linarith)
    rw [lit_n38.2] at fl
    rw [lit_n53.2] at fu
    norm_num at fl
    obtain ⟨kf, kl, ku⟩ := ofInt_bounds 0 zero zero lit_zero.1 lit_zero.1
      (by rw [lit_zero.2]; norm_num) (by rw [lit_zero.2]; norm_num)
    rw [lit_zero.2] at kl ku
    have hk : (ofInt 0).toRat = 0 := le_antisymm ku kl
    obtain ⟨rf, rl, ru⟩ := logTail_B0 (sub g' one) (ofInt 0) ff kf (by linarith) fu hk
    refine ⟨rf, ?_, ?_⟩
    · have : (-(3121657384082679 / 2 ^ 52) : ℚ) ≤ -(5 / 8) := by norm_num
      linarith
    · have : (-(1 / 2 ^ 53) : ℚ) ≤ 0 := by norm_num
      linarith

/-! ### `Ceil`, `Abs` and the conversion to `int` -/

/-- The sign bit of an infinity. -/
theorem sign_of_inf (x : Float64) (s : Bool) (h : x.val = .inf s) : x.sign = s := by
  unfold val at h
  by_cases he : x.expo = 2047
  · rw [if_pos he] at h
    by_cases hf : x.frac = 0
    · rw [if_pos hf] at h
      exact Val.inf.inj h
    · rw [if_neg hf] at h
      exact absurd h (by simp)
  · rw [if_neg he] at h
    exact absurd h (by simp)

/-- An infinity is not finite. -/
theorem isFin_of_val_inf (x : Float64) (s : Bool) (h : x.val = .inf s) : x.isFin = false := by
  unfold isFin
  rw [h]

/-- What the guards of `New` leave: a finite `e` with `0 < e < 1`. -/
theorem between_zero_one (e : Float64) (h0 : lt zero e = true) (h1 : lt e one = true) :
    e.isFin = true ∧ 0 < e.toRat ∧ e.toRat < 1 := by
  have hz : zero.val = .fin 0 := by decide
  have hfin : e.isFin = true := by
    unfold isFin
    unfold lt at h0 h1
    rw [hz] at h0
    cases hv : e.val with
    | nan => rw [hv] at h0; simp at h0
    | inf s =>
      rw [hv] at h0 h1
      cases s
      · cases ho : one.val <;> rw [ho] at h1 <;> simp at h1
      · simp at h0
    | fin a => rfl
  have k0 := (lt_iff zero e lit_zero.1 hfin).mp h0
  have k1 := (lt_iff e one hfin lit_one.1).mp h1
  rw [lit_zero.2] at k0
  rw [lit_one.2] at k1
  exact ⟨hfin, k0, k1⟩

/-- The function `math.Abs` on a finite value is the absolute value. -/
theorem Abs_fin (y : Float64) (hy : y.isFin = true) :
    (Abs y).isFin = true ∧ (Abs y).toRat = |y.toRat| := by
  obtain ⟨a, hv, hr⟩ := val_of_isFin y hy
  obtain ⟨k1, k2⟩ := toRat_of_val _ _ (val_Abs y a hv)
  refine ⟨k1, ?_⟩
  rw [k2, hr, abs_div, abs_of_pos scale_pos, Int.natCast_natAbs, Int.cast_abs]

/-- The function `math.Abs` keeps a positive number or positive infinity. -/
theorem Abs_pos (y : Float64) (c : ℚ) (hc : 0 ≤ c)
    (h : y.val = .inf false ∨ (y.isFin = true ∧ c ≤ y.toRat)) :
    (Abs y).val = .inf false ∨ ((Abs y).isFin = true ∧ c ≤ (Abs y).toRat) := by
  rcases h with h | ⟨h1, h2⟩
  · exact Or.inl (val_Abs_inf y false h)
  · right
    obtain ⟨k1, k2⟩ := Abs_fin y h1
    refine ⟨k1, ?_⟩
    rw [k2, abs_of_nonneg (le_trans hc h2)]
    exact h2

set_option exponentiation.threshold 3000 in
/-- The function `math.Ceil` of a positive number is at least 1, or positive
infinity. -/
theorem Ceil_pos (y : Float64)
    (h : y.val = .inf false ∨ (y.isFin = true ∧ 0 < y.toRat)) :
    (Ceil y).val = .inf false ∨ ((Ceil y).isFin = true ∧ 1 ≤ (Ceil y).toRat) := by
  rcases h with h | ⟨h1, h2⟩
  · left
    unfold Ceil
    rw [h]
    exact h
  · obtain ⟨a, hv, hr⟩ := val_of_isFin y h1
    have ha : 0 < a := pos_of_toRat y a hv h2
    have hD : (0 : Int) < ((2 ^ 1075 : Nat) : Int) := Int.natCast_pos.mpr (Nat.two_pow_pos 1075)
    have hc : 1 ≤ -((-a) / ((2 ^ 1075 : Nat) : Int)) := by
      generalize ((2 ^ 1075 : Nat) : Int) = D at hD
      have := Int.ediv_neg' (by omega : -a < 0) hD
      omega
    unfold Ceil
    rw [hv]
    simp only []
    generalize -((-a) / ((2 ^ 1075 : Nat) : Int)) = c at hc
    rw [if_neg (by omega)]
    have h3 := ofInt_ge c one lit_one.1 (by omega) (by rw [lit_one.2]; norm_num)
      (by rw [lit_one.2]; exact_mod_cast hc)
    rw [lit_one.2] at h3
    exact h3

set_option exponentiation.threshold 3000 in
/-- The conversion to `int` of a number that is at least 1, or positive infinity:
at least 1, or the smallest `int`. -/
theorem toInt_ge_one (y : Float64)
    (h : y.val = .inf false ∨ (y.isFin = true ∧ 1 ≤ y.toRat)) :
    toInt y = -2 ^ 63 ∨ 1 ≤ toInt y := by
  rcases h with h | ⟨h1, h2⟩
  · left
    unfold toInt
    rw [h]
  · obtain ⟨a, hv, hr⟩ := val_of_isFin y h1
    rw [hr, le_div_iff₀ scale_pos, one_mul, ← scale_cast] at h2
    have ha : ((2 ^ 1075 : Nat) : Int) ≤ a := by
      have h3 : (((2 ^ 1075 : Nat) : Int) : ℚ) ≤ (a : ℚ) := by
        rw [Int.cast_natCast]
        exact h2
      exact Int.cast_le.mp h3
    have hD : (0 : Int) < ((2 ^ 1075 : Nat) : Int) := Int.natCast_pos.mpr (Nat.two_pow_pos 1075)
    unfold toInt
    rw [hv]
    simp only []
    generalize ((2 ^ 1075 : Nat) : Int) = D at ha hD
    have ht : 1 ≤ Int.tdiv a D := by
      rw [Int.tdiv_eq_ediv (by omega) (by omega)]
      exact Int.le_ediv_of_mul_le hD (by omega)
    by_cases hr2 : -2 ^ 63 ≤ a.tdiv D ∧ a.tdiv D < 2 ^ 63
    · rw [if_pos hr2]
      exact Or.inr ht
    · rw [if_neg hr2]
      exact Or.inl rfl

/-! ### `math.Log2` above 1 and `findK` -/

/-- The value of `infinity`. -/
theorem val_infinity (s : Bool) : (infinity s).val = .inf s := by
  unfold infinity
  exact val_ofSignMag_inf s

/-- The function `math.Log2` of positive infinity is positive infinity. -/
theorem Log2_inf (x : Float64) (h : x.val = .inf false) : (Log2 x).val = .inf false := by
  have hs := sign_of_inf x false h
  have hFr : Frexp x = (x, 0) := by
    unfold Frexp
    rw [h]
  have hhalf : half.val = .fin ((2 ^ 1074 : Nat) : Int) := by
    set_option exponentiation.threshold 3000 in
    decide
  have heq : eq x half = false := by
    unfold eq le
    rw [h, hhalf]
    rfl
  have hLog : Log x = x := by
    unfold Log
    rw [h]
  have hinv : invLn2.val = .fin ((3248660424278399 * 2 ^ 1024 : Nat) : Int) := by
    set_option exponentiation.threshold 3000 in
    decide
  have hinvs : invLn2.sign = false := by decide
  have hmul : mul x invLn2 = infinity false := by
    unfold mul
    rw [h, hinv]
    simp only []
    rw [if_neg (by
      set_option exponentiation.threshold 3000 in
      decide), hs, hinvs]
    rfl
  have hof : (ofInt 0).val = .fin 0 := by decide
  unfold Log2
  rw [hFr]
  simp only []
  rw [heq, hLog, hmul]
  simp only [Bool.false_eq_true, if_false]
  unfold add
  rw [val_infinity, hof]
  exact val_infinity false

/-- The function `math.Log2` of a finite number above 1 is positive, or positive
infinity. -/
theorem Log2_pos (x : Float64) (hx : x.isFin = true) (h1 : 1 < x.toRat) :
    (Log2 x).val = .inf false ∨ ((Log2 x).isFin = true ∧ 0 < (Log2 x).toRat) := by
  obtain ⟨gf, g1, g2, gx⟩ := Frexp_spec x hx (by linarith)
  unfold Log2
  generalize (Frexp x).1 = g at gf g1 g2 gx ⊢
  generalize (Frexp x).2 = kk at gx ⊢
  have hpow : (0 : ℚ) < (2 : ℚ) ^ kk := by positivity
  have hk1 : 1 ≤ kk := by
    by_contra hc
    have h2 : (2 : ℚ) ^ kk ≤ (2 : ℚ) ^ (0 : Int) :=
      zpow_le_zpow_right₀ (by norm_num) (by omega)
    rw [zpow_zero] at h2
    nlinarith
  by_cases heq : eq g half = true
  · rw [if_pos heq]
    have hg := (eq_iff g half gf lit_half.1).mp heq
    rw [lit_half.2] at hg
    have hk2 : 2 ≤ kk := by
      by_contra hc
      have hk3 : kk = 1 := by omega
      rw [hk3, hg, zpow_one] at gx
      norm_num at gx
      linarith
    have h3 := ofInt_ge (kk - 1) one lit_one.1 (by omega) (by rw [lit_one.2]; norm_num)
      (by
        rw [lit_one.2]
        have : (1 : Int) ≤ kk - 1 := by omega
        exact_mod_cast this)
    rw [lit_one.2] at h3
    rcases h3 with h3 | ⟨h3, h4⟩
    · exact Or.inl h3
    · exact Or.inr ⟨h3, by linarith⟩
  · rw [if_neg heq]
    have hg : g.toRat ≠ 1 / 2 := by
      intro hc
      apply heq
      rw [eq_iff g half gf lit_half.1, lit_half.2]
      norm_num
      linarith
    have hg2 : 1 / 2 < g.toRat := lt_of_le_of_ne g1 (Ne.symm hg)
    obtain ⟨lf, ll, lu⟩ := Log_frac g gf hg2 g2
    obtain ⟨pf, pl, pu⟩ := mul_bounds (Log g) invLn2 ⟨0xBFEFFFFFFFFFFFFF⟩ zero lf lit_invLn2.1
      lit_negF1.1 lit_zero.1
      (by
        rw [lit_negF1.2, lit_invLn2.2]
        have e1 : (-(3121657384082679 / 2 ^ 52) : ℚ) * (3248660424278399 / 2 ^ 51)
            ≤ (Log g).toRat * (3248660424278399 / 2 ^ 51) :=
          mul_le_mul_of_nonneg_right ll (by norm_num)
        have e2 : (-(9007199254740991 / 2 ^ 53) : ℚ)
            ≤ (-(3121657384082679 / 2 ^ 52) : ℚ) * (3248660424278399 / 2 ^ 51) := by norm_num
        linarith)
      (by
        rw [lit_zero.2, lit_invLn2.2]
        exact mul_nonpos_of_nonpos_of_nonneg lu (by norm_num))
    rw [lit_negF1.2] at pl
    have h3 := ofInt_ge kk one lit_one.1 (by omega) (by rw [lit_one.2]; norm_num)
      (by
        rw [lit_one.2]
        exact_mod_cast hk1)
    rw [lit_one.2] at h3
    rcases h3 with h3 | ⟨h3, h4⟩
    · left
      obtain ⟨p, hp, _⟩ := val_of_isFin _ pf
      unfold add
      rw [hp, h3]
      exact val_infinity false
    · have hsum : (1 : ℚ) / 2 ^ 53 ≤ (mul (Log g) invLn2).toRat + (ofInt kk).toRat := by
        norm_num at pl ⊢
        linarith
      have h5 := add_ge (mul (Log g) invLn2) (ofInt kk) ⟨0x3CA0000000000000⟩ pf h3 lit_p53.1
        (lt_of_lt_of_le (by norm_num) hsum) (by rw [lit_p53.2]; norm_num)
        (by rw [lit_p53.2]; exact hsum)
      rw [lit_p53.2] at h5
      rcases h5 with h5 | ⟨h5, h6⟩
      · exact Or.inl h5
      · exact Or.inr ⟨h5, lt_of_lt_of_le (by norm_num) h6⟩

set_option exponentiation.threshold 3000 in
/-- The quotient `1 / e` for a finite `0 < e < 1`: above 1, or positive infinity. -/
theorem div_one_pos (e : Float64) (he : e.isFin = true) (h0 : 0 < e.toRat)
    (h1 : e.toRat < 1) :
    (div one e).val = .inf false ∨ ((div one e).isFin = true ∧ 1 < (div one e).toRat) := by
  by_cases hE : e.toRat ≤ 1 - 1 / 2 ^ 52
  · have h3 := div_ge one e ⟨0x3FF0000000000001⟩ lit_one.1 he lit_next1.1
      (by rw [lit_one.2]; norm_num) h0 (by rw [lit_next1.2]; norm_num)
      (by
        rw [lit_next1.2, lit_one.2, le_div_iff₀ h0]
        norm_num at hE ⊢
        linarith)
    rw [lit_next1.2] at h3
    rcases h3 with h3 | ⟨h3, h4⟩
    · exact Or.inl h3
    · exact Or.inr ⟨h3, lt_of_lt_of_le (by norm_num) h4⟩
  · right
    have hE2 : 1 - 1 / 2 ^ 52 < e.toRat := not_le.mp hE
    obtain ⟨z, hz⟩ := half_to_one_grid e he (by norm_num at hE2 ⊢; linarith) h1
    have hz1 : z = 2 ^ 53 - 1 := by
      rw [hz] at h1 hE2
      rw [div_lt_one (by positivity)] at h1
      rw [lt_div_iff₀ (by positivity)] at hE2
      have h5 : z < 2 ^ 53 := by exact_mod_cast h1
      have h6 : ((2 ^ 53 - 2 : Nat) : ℚ) < (z : ℚ) := by
        norm_num at hE2 ⊢
        linarith
      have h7 : 2 ^ 53 - 2 < z := by exact_mod_cast h6
      omega
    obtain ⟨a, hv, hr⟩ := val_of_isFin e he
    have ha : a = ((9007199254740991 * 2 ^ 1022 : Nat) : Int) := by
      have h5 : (a : ℚ) = (((9007199254740991 * 2 ^ 1022 : Nat) : Int) : ℚ) := by
        rw [hr, hz1] at hz
        rw [div_eq_iff (ne_of_gt scale_pos)] at hz
        rw [hz]
        unfold scale
        push_cast
        norm_num
      exact Int.cast_injective h5
    subst ha
    have hsign := (sign_of_val e _ hv).1 (by
      set_option exponentiation.threshold 3000 in
      decide)
    have hone : one.val = .fin ((2 ^ 1075 : Nat) : Int) := by
      set_option exponentiation.threshold 3000 in
      decide
    have hd := div_eq_round one e _ _ hone hv (by
      set_option exponentiation.threshold 3000 in
      decide)
    have hos : one.sign = false := by decide
    rw [hos, hsign] at hd
    have hval : (div one e).val = .fin ((4503599627370497 * 2 ^ 1023 : Nat) : Int) := by
      rw [hd]
      set_option exponentiation.threshold 20000 in
      set_option maxRecDepth 100000 in
      decide
    obtain ⟨k1, k2⟩ := toRat_of_val _ _ hval
    refine ⟨k1, ?_⟩
    rw [k2]
    unfold scale
    norm_num

/-- For every `0 < e < 1` the value of `findK` is at least 1, or the smallest `int`. -/
theorem findK_pos (e : Float64) (h0 : lt zero e = true) (h1 : lt e one = true) :
    findK goMath e = -2 ^ 63 ∨ 1 ≤ findK goMath e := by
  obtain ⟨he, k0, k1⟩ := between_zero_one e h0 h1
  have hx := div_one_pos e he k0 k1
  have hl : (Log2 (div one e)).val = .inf false ∨
      ((Log2 (div one e)).isFin = true ∧ 0 < (Log2 (div one e)).toRat) := by
    rcases hx with hx | ⟨hx1, hx2⟩
    · exact Or.inl (Log2_inf _ hx)
    · exact Log2_pos _ hx1 hx2
  have ha : (Abs (Log2 (div one e))).val = .inf false ∨
      ((Abs (Log2 (div one e))).isFin = true ∧ 0 < (Abs (Log2 (div one e))).toRat) := by
    rcases hl with hl | ⟨hl1, hl2⟩
    · exact Or.inl (val_Abs_inf _ false hl)
    · right
      obtain ⟨a1, a2⟩ := Abs_fin _ hl1
      refine ⟨a1, ?_⟩
      rw [a2, abs_of_pos hl2]
      exact hl2
  exact toInt_ge_one _ (Ceil_pos _ ha)

/-! ### `findM` -/

/-- Positive infinity times a positive finite value. -/
theorem mul_inf_left (x y : Float64) (hx : x.val = .inf false) (hy : y.isFin = true)
    (hy0 : 0 < y.toRat) : (mul x y).val = .inf false := by
  obtain ⟨b, hv, hr⟩ := val_of_isFin y hy
  have hb : 0 < b := pos_of_toRat y b hv hy0
  unfold mul
  rw [hx, hv]
  simp only []
  rw [if_neg (ne_of_gt hb), sign_of_inf x false hx, (sign_of_val y b hv).1 hb]
  exact val_infinity false

/-- Positive infinity divided by a positive finite value. -/
theorem div_inf_left (x y : Float64) (hx : x.val = .inf false) (hy : y.isFin = true)
    (hy0 : 0 < y.toRat) : (div x y).val = .inf false := by
  obtain ⟨b, hv, hr⟩ := val_of_isFin y hy
  have hb : 0 < b := pos_of_toRat y b hv hy0
  unfold div
  rw [hx, hv]
  simp only []
  rw [sign_of_inf x false hx, (sign_of_val y b hv).1 hb]
  exact val_infinity false

/-- The constant `math.Pow(math.Log(2), 2)` of `findM`. -/
theorem log2Sqr_eq : goMath.Pow (goMath.Log two) two = ⟨0x3FDEBFBDFF82C58E⟩ := by
  set_option exponentiation.threshold 20000 in
  set_option maxRecDepth 100000 in
  decide

/-- For every `n > 0` and `0 < e < 1` the value of `findM` is at least 1, or the
smallest `int`. -/
theorem findM_pos (n : Int) (e : Float64) (hn : 0 < n) (h0 : lt zero e = true)
    (h1 : lt e one = true) :
    findM goMath n e = -2 ^ 63 ∨ 1 ≤ findM goMath n e := by
  obtain ⟨he, k0, k1⟩ := between_zero_one e h0 h1
  obtain ⟨lf, ll, lu⟩ := Log_neg_of_lt_one e he k0 k1
  obtain ⟨af, ar⟩ := Abs_fin (Log e) lf
  have hneg : (Log e).toRat < 0 := lt_of_le_of_lt lu (by norm_num)
  rw [abs_of_neg hneg] at ar
  have ha0 : 1 / 2 ^ 53 ≤ (Abs (Log e)).toRat := by
    rw [ar]
    linarith
  have hapos : 0 < (Abs (Log e)).toRat := lt_of_lt_of_le (by norm_num) ha0
  have hN := ofInt_ge n one lit_one.1 hn (by rw [lit_one.2]; norm_num)
    (by
      rw [lit_one.2]
      have : (1 : Int) ≤ n := by omega
      exact_mod_cast this)
  rw [lit_one.2] at hN
  have hP : (mul (ofInt n) (Abs (Log e))).val = .inf false ∨
      ((mul (ofInt n) (Abs (Log e))).isFin = true ∧
        1 / 2 ^ 53 ≤ (mul (ofInt n) (Abs (Log e))).toRat) := by
    rcases hN with hN | ⟨hN1, hN2⟩
    · exact Or.inl (mul_inf_left _ _ hN af hapos)
    · have h3 := mul_ge (ofInt n) (Abs (Log e)) ⟨0x3CA0000000000000⟩ hN1 af lit_p53.1
        (by linarith) hapos (by rw [lit_p53.2]; norm_num)
        (by
          rw [lit_p53.2]
          nlinarith)
      rw [lit_p53.2] at h3
      exact h3
  have hc := lit_log2Sqr
  have hX : (div (mul (ofInt n) (Abs (Log e))) ⟨0x3FDEBFBDFF82C58E⟩).val = .inf false ∨
      ((div (mul (ofInt n) (Abs (Log e))) ⟨0x3FDEBFBDFF82C58E⟩).isFin = true ∧
        0 < (div (mul (ofInt n) (Abs (Log e))) ⟨0x3FDEBFBDFF82C58E⟩).toRat) := by
    have hcpos : (0 : ℚ) < (⟨0x3FDEBFBDFF82C58E⟩ : Float64).toRat := by
      rw [hc.2]
      norm_num
    rcases hP with hP | ⟨hP1, hP2⟩
    · exact Or.inl (div_inf_left _ _ hP hc.1 hcpos)
    · have h3 := div_ge (mul (ofInt n) (Abs (Log e))) ⟨0x3FDEBFBDFF82C58E⟩
        ⟨0x3CA0000000000000⟩ hP1 hc.1 lit_p53.1 (lt_of_lt_of_le (by norm_num) hP2) hcpos
        (by rw [lit_p53.2]; norm_num)
        (by
          rw [lit_p53.2, le_div_iff₀ hcpos, hc.2]
          norm_num at hP2 ⊢
          linarith)
      rw [lit_p53.2] at h3
      rcases h3 with h3 | ⟨h3, h4⟩
      · exact Or.inl h3
      · exact Or.inr ⟨h3, lt_of_lt_of_le (by norm_num) h4⟩
  have hfm : findM goMath n e
      = toInt (Abs (Ceil (div (mul (ofInt n) (Abs (Log e))) ⟨0x3FDEBFBDFF82C58E⟩))) := by
    unfold findM
    rw [log2Sqr_eq]
    rfl
  rw [hfm]
  exact toInt_ge_one _ (Abs_pos _ 1 (by norm_num) (Ceil_pos _ hX))

end Float64

/-! ## The two sizes -/

set_option maxRecDepth 100000 in
set_option exponentiation.threshold 20000 in
/-- C10 as stated fails.  For `e = 5e-324` (the smallest positive `float64`,
`2 ^ -1074`) the quotient `1 / e` overflows to infinity and the conversion to `int`
gives the smallest `int`, where the formula gives 1074.  For the largest `float64`
below `1/32` the logarithm computed for `1 / e` is rounded to exactly 5, so `findK`
gives 5, where the formula gives 6. -/
theorem C10_findK_counterexample :
    (Float64.lt Float64.zero ⟨1⟩ = true ∧ Float64.lt ⟨1⟩ Float64.one = true ∧
        Float64.val ⟨1⟩ = Float64.Val.fin 2 ∧
        findK goMath ⟨1⟩ = -9223372036854775808 ∧ specK ⟨1⟩ = 1074) ∧
      (Float64.lt Float64.zero ⟨0x3F9FFFFFFFFFFFFF⟩ = true ∧
        Float64.lt ⟨0x3F9FFFFFFFFFFFFF⟩ Float64.one = true ∧
        findK goMath ⟨0x3F9FFFFFFFFFFFFF⟩ = 5 ∧ specK ⟨0x3F9FFFFFFFFFFFFF⟩ = 6) := by
  decide

set_option maxRecDepth 100000 in
set_option maxHeartbeats 4000000 in
set_option exponentiation.threshold 20000 in
/-- C10, amended: `findK(e)` is `int(ceil(|log2(1/e)|))` evaluated in `float64`
arithmetic; for every `0 < e < 1` it is at least 1, or the smallest `int`; it agrees
with the exact formula at every power of two `e = 2 ^ -k` with `1 ≤ k ≤ 64`, where it
gives `k`, and at `e = 0.9`, `0.75` and `0.5`, where it gives 1, at `0.25` (2), at
`0.1` (4), at `0.01` (7) and at `0.001` (10). -/
theorem C10_findK_values :
    (∀ e : Float64, findK goMath e
      = Float64.toInt (Float64.Ceil (Float64.Abs (Float64.Log2
          (Float64.div Float64.one e))))) ∧
      (∀ e : Float64, Float64.lt Float64.zero e = true → Float64.lt e Float64.one = true →
        findK goMath e = -2 ^ 63 ∨ 1 ≤ findK goMath e) ∧
      (∀ k : Nat, 1 ≤ k → k ≤ 64 →
        Float64.val ⟨(1023 - k) * 2 ^ 52⟩ = Float64.Val.fin ((2 ^ (1075 - k) : Nat) : Int) ∧
        findK goMath ⟨(1023 - k) * 2 ^ 52⟩ = k ∧ specK ⟨(1023 - k) * 2 ^ 52⟩ = k) ∧
      (findK goMath ⟨0x3FECCCCCCCCCCCCD⟩ = 1 ∧ specK ⟨0x3FECCCCCCCCCCCCD⟩ = 1) ∧
      (findK goMath ⟨0x3FE8000000000000⟩ = 1 ∧ specK ⟨0x3FE8000000000000⟩ = 1) ∧
      (findK goMath ⟨0x3FE0000000000000⟩ = 1 ∧ specK ⟨0x3FE0000000000000⟩ = 1) ∧
      (findK goMath ⟨0x3FD0000000000000⟩ = 2 ∧ specK ⟨0x3FD0000000000000⟩ = 2) ∧
      (findK goMath ⟨0x3FB999999999999A⟩ = 4 ∧ specK ⟨0x3FB999999999999A⟩ = 4) ∧
      (findK goMath ⟨0x3F847AE147AE147B⟩ = 7 ∧ specK ⟨0x3F847AE147AE147B⟩ = 7) ∧
      (findK goMath ⟨0x3F50624DD2F1A9FC⟩ = 10 ∧ specK ⟨0x3F50624DD2F1A9FC⟩ = 10) := by
  have hpow : ∀ k < 65, 1 ≤ k →
      Float64.val ⟨(1023 - k) * 2 ^ 52⟩ = Float64.Val.fin ((2 ^ (1075 - k) : Nat) : Int) ∧
      findK goMath ⟨(1023 - k) * 2 ^ 52⟩ = k ∧ specK ⟨(1023 - k) * 2 ^ 52⟩ = k := by
    decide
  refine ⟨fun _ => rfl, Float64.findK_pos, fun k h1 h2 => hpow k (by omega) h1, ?_⟩
  decide

set_option maxRecDepth 100000 in
set_option exponentiation.threshold 20000 in
/-- C11 as stated fails: for `n` the largest `int` and `e = 0.5` the quotient is
about `1.33e19`, beyond the range of `int`, and the conversion gives the smallest
`int`: `findM` is negative, which no absolute value is. -/
theorem C11_findM_counterexample :
    (0 : Int) < 9223372036854775807 ∧
      Float64.lt Float64.zero ⟨0x3FE0000000000000⟩ = true ∧
      Float64.lt ⟨0x3FE0000000000000⟩ Float64.one = true ∧
      findM goMath 9223372036854775807 ⟨0x3FE0000000000000⟩ = -9223372036854775808 ∧
      findM goMath 9223372036854775807 ⟨0x3FE0000000000000⟩ < 0 := by
  decide

set_option maxRecDepth 100000 in
set_option exponentiation.threshold 20000 in
/-- C11, amended: `findM(n, e)` is `int(|ceil(n * |ln e| / (ln 2)^2)|)` evaluated in
`float64` arithmetic; for every `n > 0` and `0 < e < 1` it is at least 1, or the
smallest `int`; for `n = 100` it gives 22, 60, 145, 289, 480, 959 and 1438 for
`e = 0.9`, `0.75`, `0.5`, `0.25`, `0.1`, `0.01` and `0.001`, and
`findM(110, 0.001) = 1582`. -/
theorem C11_findM_values :
    (∀ (n : Int) (e : Float64), findM goMath n e
      = Float64.toInt (Float64.Abs (Float64.Ceil (Float64.div
          (Float64.mul (Float64.ofInt n) (Float64.Abs (Float64.Log e)))
          (Float64.PowTwo (Float64.Log Float64.two)))))) ∧
      (∀ (n : Int) (e : Float64), 0 < n → Float64.lt Float64.zero e = true →
        Float64.lt e Float64.one = true →
        findM goMath n e = -2 ^ 63 ∨ 1 ≤ findM goMath n e) ∧
      findM goMath 100 ⟨0x3FECCCCCCCCCCCCD⟩ = 22 ∧
      findM goMath 100 ⟨0x3FE8000000000000⟩ = 60 ∧
      findM goMath 100 ⟨0x3FE0000000000000⟩ = 145 ∧
      findM goMath 100 ⟨0x3FD0000000000000⟩ = 289 ∧
      findM goMath 100 ⟨0x3FB999999999999A⟩ = 480 ∧
      findM goMath 100 ⟨0x3F847AE147AE147B⟩ = 959 ∧
      findM goMath 100 ⟨0x3F50624DD2F1A9FC⟩ = 1438 ∧
      findM goMath 110 ⟨0x3F50624DD2F1A9FC⟩ = 1582 := by
  refine ⟨fun _ _ => rfl, Float64.findM_pos, ?_⟩
  decide

set_option maxRecDepth 100000 in
set_option exponentiation.threshold 20000 in
/-- C10 at `e = 2 ^ -3 = 0.125`: three hash functions. -/
theorem C10_findK_values_witness :
    (1 ≤ 3 ∧ 3 ≤ 64) ∧ findK goMath ⟨(1023 - 3) * 2 ^ 52⟩ = ((3 : Nat) : Int) ∧
      (Float64.lt Float64.zero ⟨(1023 - 3) * 2 ^ 52⟩ = true ∧
        Float64.lt ⟨(1023 - 3) * 2 ^ 52⟩ Float64.one = true) ∧
      (findK goMath ⟨(1023 - 3) * 2 ^ 52⟩ = -2 ^ 63 ∨
        1 ≤ findK goMath ⟨(1023 - 3) * 2 ^ 52⟩) :=
  ⟨by decide, (C10_findK_values.2.2.1 3 (by decide) (by decide)).2.1, by decide,
    C10_findK_values.2.1 ⟨(1023 - 3) * 2 ^ 52⟩ (by decide) (by decide)⟩

set_option maxRecDepth 100000 in
set_option exponentiation.threshold 20000 in
/-- C11 at `n = 1`, `e = 0.5`: `findM` is at least 1 (it is 2). -/
theorem C11_findM_values_witness :
    ((0 : Int) < 1 ∧ Float64.lt Float64.zero ⟨0x3FE0000000000000⟩ = true ∧
        Float64.lt ⟨0x3FE0000000000000⟩ Float64.one = true) ∧
      findM goMath 1 ⟨0x3FE0000000000000⟩ = 2 ∧
      (findM goMath 1 ⟨0x3FE0000000000000⟩ = -2 ^ 63 ∨
        1 ≤ findM goMath 1 ⟨0x3FE0000000000000⟩) :=
  ⟨by decide, by decide,
    C11_findM_values.2.1 1 ⟨0x3FE0000000000000⟩ (by decide) (by decide) (by decide)⟩

/-! ## Lengths and the fresh filter

The two lengths of the filter that `New` returns are `findM(n, e)` and `findK(e)`,
both at least 1 by `Float64.findM_pos` and `Float64.findK_pos`. -/

/-- The loop of `add` keeps the number of hashers. -/
theorem addLoop_HashFns_length (m : Nat) (ws : List Str) :
    ∀ bf bf1 : BloomFilter, addLoop m bf ws = .ok bf1 →
      bf1.HashFns.length = bf.HashFns.length := by
  induction ws with
  | nil =>
    intro bf bf1 h
    have e := Except.ok.inj h
    subst e
    rfl
  | cons w ws ih =>
    intro bf bf1 h
    unfold addLoop at h
    cases hb : addBits m (bf.hash w).2.Bitset (bf.hash w).1 with
    | error p => rw [hb] at h; exact Except.noConfusion h
    | ok bits =>
      rw [hb] at h
      have := ih _ bf1 h
      rw [this]
      show (bf.hash w).2.HashFns.length = _
      rw [hash_HashFns, List.length_map]

/-- Every run of `Add` and `Check` calls on a non-empty bit array ends normally and
keeps the length of the bit array and the number of hashers. -/
theorem run_lengths (U : Str → Str) (ops : List Op) :
    ∀ bf : BloomFilter, bf.Bitset ≠ [] →
      ∃ bf1, run U bf ops = .ok bf1 ∧ bf1.Bitset.length = bf.Bitset.length ∧
        bf1.HashFns.length = bf.HashFns.length := by
  induction ops with
  | nil => intro bf _; exact ⟨bf, rfl, rfl, rfl⟩
  | cons op ops ih =>
    intro bf hm
    have hp := length_pos_of_ne_nil bf hm
    cases op with
    | Add s =>
      obtain ⟨bf1, h1, h2, _⟩ := Add_total U bf hm s
      have hk : bf1.HashFns.length = bf.HashFns.length :=
        addLoop_HashFns_length _ _ bf bf1 h1
      have hm1 : bf1.Bitset ≠ [] := List.length_pos.mp (by omega)
      obtain ⟨bf2, k1, k2, k3⟩ := ih bf1 hm1
      exact ⟨bf2, by simp [run, h1, k1], by omega, by omega⟩
    | Check s =>
      obtain ⟨b, w, h1⟩ := Check_total_state U bf s hm
      obtain ⟨bf2, k1, k2, k3⟩ := ih (bf.hash w).2 hm
      refine ⟨bf2, by simp [run, h1, k1], k2, ?_⟩
      rw [k3, hash_HashFns, List.length_map]

/-- A filter without hashers answers true to every `Check`. -/
theorem Check_no_hashers (U : Str → Str) (bf : BloomFilter) (s : Str)
    (hk : bf.HashFns = []) : ∃ bf1, bf.Check U s = .ok (true, bf1) := by
  have hall : ∀ (ws : List Str) (g : BloomFilter), g.HashFns = [] →
      ∃ g1, CheckLoop g ws = .ok (true, g1) := by
    intro ws
    induction ws with
    | nil => intro g _; exact ⟨g, rfl⟩
    | cons w ws ih =>
      intro g hg
      have h1 : (g.hash w).1 = [] := by rw [hash_fst, hashLoop_fst, hg]; rfl
      have h2 : (g.hash w).2.HashFns = [] := by rw [hash_HashFns, hg]; rfl
      obtain ⟨g1, hg1⟩ := ih (g.hash w).2 h2
      refine ⟨g1, ?_⟩
      simp [CheckLoop, BloomFilter.check, h1, checkBits, hg1]
  exact hall _ bf hk

/-- A filter with at least one bit, all bits false, and at least one hasher answers
false to every `Check`. -/
theorem Check_fresh_false (U : Str → Str) (bf : BloomFilter) (s : Str)
    (hm : bf.Bitset ≠ []) (hk : bf.HashFns ≠ []) (hz : ∀ b ∈ bf.Bitset, b = false) :
    ∃ bf1, bf.Check U s = .ok (false, bf1) := by
  have hp := length_pos_of_ne_nil bf hm
  cases ht : BloomFilter.tokenize U s with
  | nil => exact absurd ht (Split_ne_nil _)
  | cons w ws =>
    refine ⟨(bf.hash w).2, ?_⟩
    unfold BloomFilter.Check
    rw [ht]
    cases hh : (bf.hash w).1 with
    | nil =>
      have hl : (bf.hash w).1.length = bf.HashFns.length := by
        rw [hash_fst, hashLoop_fst, List.length_map]
      rw [hh] at hl
      exact absurd (List.length_eq_zero.mp hl.symm) hk
    | cons h hs =>
      have hlt : h % bf.Bitset.length < bf.Bitset.length := Nat.mod_lt _ hp
      have hbit : bf.Bitset[h % bf.Bitset.length]? = some false := by
        rw [List.getElem?_eq_getElem hlt]
        exact congrArg some (hz _ (List.getElem_mem _))
      have hc : bf.check w = .ok (false, (bf.hash w).2) := by
        unfold BloomFilter.check
        rw [hh]
        have hcb : checkBits bf.Bitset.length (bf.hash w).2.Bitset (h :: hs) = .ok false := by
          rw [hash_Bitset]
          simp [checkBits, Nat.ne_of_gt hp, hbit]
        rw [hcb]
      simp [CheckLoop, hc]

/-- The filter `New` returns, when both of its lengths are positive, answers false to
every `Check`. -/
theorem New_Check_fresh (U : Str → Str) (M : Math) (n : Int) (e : Float64) (s : Str)
    (bf : BloomFilter) (err : Option Error) (hn : 0 < n)
    (h0 : Float64.lt Float64.zero e = true) (h1 : Float64.lt e Float64.one = true)
    (hnew : New M n e = .ok (some bf, err)) (hm : 0 < findM M n e) (hk : 0 < findK M e) :
    ∃ bf1, bf.Check U s = .ok (false, bf1) := by
  obtain ⟨_, _, k3, k4, _⟩ :=
    New_state M n e hn (guards_false_of_between e h0 h1) bf err hnew
  have hm1 : bf.Bitset ≠ [] := by
    apply List.length_pos.mp
    rw [k3, List.length_replicate]
    omega
  have hk1 : bf.HashFns ≠ [] := by
    apply List.length_pos.mp
    rw [k4, List.length_map, List.length_range]
    omega
  refine Check_fresh_false U bf s hm1 hk1 ?_
  intro b hb
  rw [k3] at hb
  exact List.eq_of_mem_replicate hb

/-- The two lengths of the filter that `New` returns, computed as Go computes them,
are positive. -/
theorem New_lengths_pos (n : Int) (e : Float64) (bf : BloomFilter) (err : Option Error)
    (hn : 0 < n) (h0 : Float64.lt Float64.zero e = true)
    (h1 : Float64.lt e Float64.one = true) (hnew : New goMath n e = .ok (some bf, err)) :
    0 < findM goMath n e ∧ 0 < findK goMath e ∧
      bf.Bitset = List.replicate (findM goMath n e).toNat false ∧
      bf.HashFns = (List.range (findK goMath e).toNat).map (fun i => Hash.New (keyName i)) := by
  obtain ⟨k1, k2, k3, k4, _⟩ :=
    New_state goMath n e hn (guards_false_of_between e h0 h1) bf err hnew
  have m0 := ((makePanics_eq_false_iff _ _).mp k1).1
  have c0 := ((makePanics_eq_false_iff _ _).mp k2).1
  refine ⟨?_, ?_, k3, k4⟩
  · rcases Float64.findM_pos n e hn h0 h1 with h | h
    · rw [h] at m0
      exact absurd m0 (by decide)
    · omega
  · rcases Float64.findK_pos e h0 h1 with h | h
    · rw [h] at c0
      exact absurd c0 (by decide)
    · omega

/-- C13: for `n > 0` and `0 < e < 1`, the filter that `New(n, e)` returns, with the
`float64` operations computed as Go computes them, has at least one bit and at least
one hasher, and every run of `Add` and `Check` calls on it ends normally and leaves
`len(Bitset)` and `len(HashFns)` unchanged, so both stay positive. -/
theorem C13_structural_invariant (U : Str → Str) (n : Int) (e : Float64) (bf : BloomFilter)
    (err : Option Error) (hn : 0 < n) (h0 : Float64.lt Float64.zero e = true)
    (h1 : Float64.lt e Float64.one = true) (hnew : New goMath n e = .ok (some bf, err)) :
    0 < bf.Bitset.length ∧ 0 < bf.HashFns.length ∧
      ∀ ops : List Op, ∃ bf1, run U bf ops = .ok bf1 ∧
        bf1.Bitset.length = bf.Bitset.length ∧ bf1.HashFns.length = bf.HashFns.length ∧
        0 < bf1.Bitset.length ∧ 0 < bf1.HashFns.length := by
  obtain ⟨hm, hk, k3, k4⟩ := New_lengths_pos n e bf err hn h0 h1 hnew
  have hm1 : 0 < bf.Bitset.length := by
    rw [k3, List.length_replicate]
    omega
  have hk1 : 0 < bf.HashFns.length := by
    rw [k4, List.length_map, List.length_range]
    omega
  refine ⟨hm1, hk1, ?_⟩
  intro ops
  obtain ⟨bf1, r1, r2, r3⟩ := run_lengths U ops bf (List.length_pos.mp hm1)
  exact ⟨bf1, r1, r2, r3, by omega, by omega⟩

set_option maxRecDepth 100000 in
set_option exponentiation.threshold 20000 in
/-- C13 on `New(100, 0.001)`: 1438 bits and 10 hashers, before and after
`Add("aku mau")` and `Check("aku")`. -/
theorem C13_structural_invariant_witness :
    (0 : Int) < 100 ∧
      Float64.lt Float64.zero ⟨0x3F50624DD2F1A9FC⟩ = true ∧
      Float64.lt ⟨0x3F50624DD2F1A9FC⟩ Float64.one = true ∧
      New goMath 100 ⟨0x3F50624DD2F1A9FC⟩ = .ok (some
        { Bitset := List.replicate 1438 false,
          HashFns := (List.range 10).map (fun i => Hash.New (keyName i)) }, none) ∧
      (0 < (List.replicate 1438 false).length ∧
        0 < ((List.range 10).map (fun i => Hash.New (keyName i))).length ∧
        ∀ ops : List Op, ∃ bf1,
          run id { Bitset := List.replicate 1438 false,
                   HashFns := (List.range 10).map (fun i => Hash.New (keyName i)) } ops
            = .ok bf1 ∧
          bf1.Bitset.length = (List.replicate 1438 false).length ∧
          bf1.HashFns.length = ((List.range 10).map (fun i => Hash.New (keyName i))).length ∧
          0 < bf1.Bitset.length ∧ 0 < bf1.HashFns.length) :=
  ⟨by decide, by decide, by decide, by rfl,
    C13_structural_invariant id 100 ⟨0x3F50624DD2F1A9FC⟩ _ none (by decide) (by decide)
      (by decide) (by rfl)⟩

/-- C20: for `n > 0`, `0 < e < 1` and every sentence `s`, also the empty one,
`Check(s)` on the filter that `New(n, e)` has just returned, with the `float64`
operations computed as Go computes them, returns false. -/
theorem C20_fresh_filter (U : Str → Str) (n : Int) (e : Float64) (s : Str)
    (bf : BloomFilter) (err : Option Error) (hn : 0 < n)
    (h0 : Float64.lt Float64.zero e = true) (h1 : Float64.lt e Float64.one = true)
    (hnew : New goMath n e = .ok (some bf, err)) :
    ∃ bf1, bf.Check U s = .ok (false, bf1) := by
  obtain ⟨hm, hk, k3, k4⟩ := New_lengths_pos n e bf err hn h0 h1 hnew
  have hm1 : bf.Bitset ≠ [] := by
    apply List.length_pos.mp
    rw [k3, List.length_replicate]
    omega
  have hk1 : bf.HashFns ≠ [] := by
    apply List.length_pos.mp
    rw [k4, List.length_map, List.length_range]
    omega
  refine Check_fresh_false U bf s hm1 hk1 ?_
  intro b hb
  rw [k3] at hb
  exact List.eq_of_mem_replicate hb

set_option maxRecDepth 100000 in
set_option exponentiation.threshold 20000 in
/-- C20 on `New(100, 0.001)` and the empty sentence. -/
theorem C20_fresh_filter_witness :
    (0 : Int) < 100 ∧
      Float64.lt Float64.zero ⟨0x3F50624DD2F1A9FC⟩ = true ∧
      Float64.lt ⟨0x3F50624DD2F1A9FC⟩ Float64.one = true ∧
      New goMath 100 ⟨0x3F50624DD2F1A9FC⟩ = .ok (some
        { Bitset := List.replicate 1438 false,
          HashFns := (List.range 10).map (fun i => Hash.New (keyName i)) }, none) ∧
      ∃ bf1, BloomFilter.Check id
        { Bitset := List.replicate 1438 false,
          HashFns := (List.range 10).map (fun i => Hash.New (keyName i)) } (str "")
        = .ok (false, bf1) :=
  ⟨by decide, by decide, by decide, by rfl,
    C20_fresh_filter id 100 ⟨0x3F50624DD2F1A9FC⟩ (str "") _ none (by decide) (by decide)
      (by decide) (by rfl)⟩

end bloomfilter
